import Mathlib

/-!
Verification of the serial task queue of `src/index.js` (class `Queue`).

The development has two layers.

Layer 1 models the item transport: items are JavaScript values living in a
heap of mutable array/object nodes, and the canonical value encoding is the
semantics of `JSON.stringify` / `JSON.parse` as used by `_serializeItem`,
`_deserializeItem` and `_getServiceApi`: cyclic structures and BigInt-like
values make the encoder throw, `undefined` and function values encode to the
absent sentinel (`JSON.stringify` returns `undefined` for them), array
elements that are `undefined` or functions encode to `null`, and object
fields with such values are dropped.

Layer 2 is a small-step machine for the promise semantics that `enqueue`
relies on (a promise store with registered reactions and a FIFO microtask
queue, in the style of Promises/A+ as implemented by bluebird), in which the
body of `enqueue` is translated statement by statement.  Top-level enqueue
calls, microtask steps, settlements of task-returned futures and caller-side
heap mutations are interleaved by an arbitrary schedule, and the ordering
and isolation claims are proved for every schedule via a machine invariant.
-/

namespace TaskQueue

/-! ## Layer 1: JavaScript values, the heap, and the canonical encoding -/

/-- Primitive JavaScript values.  `fnP` stands for a function value and
`bigP` for a BigInt value (the representative of values on which
`JSON.stringify` throws even without cycles). -/
inductive Prim where
  | undefP
  | nullP
  | boolP (b : Bool)
  | numP (n : Int)
  | strP (s : String)
  | fnP
  | bigP (n : Int)

deriving DecidableEq

/-- A JavaScript item value: a primitive, or a reference to a heap node. -/
inductive ItemVal where
  | prim (p : Prim)
  | ref (a : Nat)

deriving DecidableEq

/-- A heap node: a mutable array or object whose slots hold item values
(which may reference other nodes, allowing shared and cyclic structure). -/
inductive Node where
  | arrN (es : List ItemVal)
  | objN (fs : List (String × ItemVal))

deriving DecidableEq

/-- The mutable heap: node addresses are list indices. -/
abbrev Heap := List Node

/-  Pure (immutable) JavaScript value trees: the result of reading an item
out of the heap, and the values that flow through promises. -/
mutual
inductive PureVal where
  | undef
  | nullV
  | boolV (b : Bool)
  | numV (n : Int)
  | strV (s : String)
  | fnV
  | bigV (n : Int)
  | arrV (xs : PList)
  | objV (fs : PFields)
inductive PList where
  | nil
  | cons (hd : PureVal) (tl : PList)
inductive PFields where
  | nil
  | cons (key : String) (val : PureVal) (tl : PFields)
end

deriving instance DecidableEq for PureVal

/-  JSON documents (what a successful `JSON.stringify` denotes; the exact
textual encoding is treated abstractly, as the spec directs). -/
mutual
inductive Json where
  | nullJ
  | boolJ (b : Bool)
  | numJ (n : Int)
  | strJ (s : String)
  | arrJ (xs : JList)
  | objJ (fs : JFields)
inductive JList where
  | nil
  | cons (hd : Json) (tl : JList)
inductive JFields where
  | nil
  | cons (key : String) (val : Json) (tl : JFields)
end

deriving instance DecidableEq for Json

def pureOfPrim : Prim → PureVal
  | .undefP => .undef
  | .nullP => .nullV
  | .boolP b => .boolV b
  | .numP n => .numV n
  | .strP s => .strV s
  | .fnP => .fnV
  | .bigP n => .bigV n

/-  Read an item value out of the heap into a pure value tree.  `path` is
the list of node addresses on the current descent path; revisiting one
means the structure is cyclic and the read fails (`none`), matching the
circular-structure detection of `JSON.stringify`.  Fuel decreases on every
recursive call, so any sufficiently large fuel is exact on acyclic data. -/
mutual
def readAddr (h : Heap) : Nat → List Nat → Nat → Option PureVal
  | 0, _, _ => none
  | f + 1, path, a =>
    if a ∈ path then none
    else
      match h.get? a with
      | none => none
      | some (.arrN es) => (readList h f (a :: path) es).map .arrV
      | some (.objN fs) => (readFields h f (a :: path) fs).map .objV
def readList (h : Heap) : Nat → List Nat → List ItemVal → Option PList
  | 0, _, _ => none
  | _ + 1, _, [] => some .nil
  | f + 1, path, v :: vs =>
    match readItem h f path v, readList h f path vs with
    | some pv, some tl => some (.cons pv tl)
    | _, _ => none
def readFields (h : Heap) : Nat → List Nat → List (String × ItemVal) → Option PFields
  | 0, _, _ => none
  | _ + 1, _, [] => some .nil
  | f + 1, path, (k, v) :: vs =>
    match readItem h f path v, readFields h f path vs with
    | some pv, some tl => some (.cons k pv tl)
    | _, _ => none
def readItem (h : Heap) : Nat → List Nat → ItemVal → Option PureVal
  | 0, _, _ => none
  | _ + 1, _, .prim p => some (pureOfPrim p)
  | f + 1, path, .ref a => readAddr h (f + 1) path a
end

def nodeCost : Node → Nat
  | .arrN es => 2 + es.length
  | .objN fs => 2 + fs.length

/-- Fuel that is generous for any read that can succeed on this heap. -/
def heapFuel (h : Heap) : Nat :=
  (h.foldr (fun nd n => n + nodeCost nd) 2) * 2 + 1

/-- Result of `JSON.stringify`: it can throw (cycles, BigInt), return the
JavaScript value `undefined` (top-level `undefined` or function values), or
produce a JSON document. -/
inductive EncRes where
  | thrown
  | undefR
  | ok (j : Json)

deriving DecidableEq

/-  `JSON.stringify` semantics on a pure value tree: BigInt values throw;
`undefined` and functions at the top level give the `undefined` result;
inside arrays they become `null`; object fields holding them are dropped. -/
mutual
def encTree : PureVal → EncRes
  | .undef => .undefR
  | .fnV => .undefR
  | .bigV _ => .thrown
  | .nullV => .ok .nullJ
  | .boolV b => .ok (.boolJ b)
  | .numV n => .ok (.numJ n)
  | .strV s => .ok (.strJ s)
  | .arrV xs =>
    match encArr xs with
    | none => .thrown
    | some js => .ok (.arrJ js)
  | .objV fs =>
    match encObj fs with
    | none => .thrown
    | some jfs => .ok (.objJ jfs)
def encArr : PList → Option JList
  | .nil => some .nil
  | .cons x xs =>
    match encTree x with
    | .thrown => none
    | .undefR => (encArr xs).map (JList.cons .nullJ)
    | .ok j => (encArr xs).map (JList.cons j)
def encObj : PFields → Option JFields
  | .nil => some .nil
  | .cons k v fs =>
    match encTree v with
    | .thrown => none
    | .undefR => encObj fs
    | .ok j => (encObj fs).map (JFields.cons k j)
end

/-  Decoding a JSON document back into a pure value (`JSON.parse` of the
text produced by a successful `JSON.stringify`; it cannot fail). -/
mutual
def jsonToPure : Json → PureVal
  | .nullJ => .nullV
  | .boolJ b => .boolV b
  | .numJ n => .numV n
  | .strJ s => .strV s
  | .arrJ xs => .arrV (jlistToPure xs)
  | .objJ fs => .objV (jfieldsToPure fs)
def jlistToPure : JList → PList
  | .nil => .nil
  | .cons j js => .cons (jsonToPure j) (jlistToPure js)
def jfieldsToPure : JFields → PFields
  | .nil => .nil
  | .cons k j js => .cons k (jsonToPure j) (jfieldsToPure js)
end

/-  A pure value is JSON-faithful: no `undefined`, function or BigInt
values anywhere, so the stringify/parse round trip reproduces it exactly. -/
mutual
def jsonClean : PureVal → Bool
  | .undef => false
  | .fnV => false
  | .bigV _ => false
  | .nullV => true
  | .boolV _ => true
  | .numV _ => true
  | .strV _ => true
  | .arrV xs => cleanArr xs
  | .objV fs => cleanObj fs
def cleanArr : PList → Bool
  | .nil => true
  | .cons x xs => jsonClean x && cleanArr xs
def cleanObj : PFields → Bool
  | .nil => true
  | .cons _ v fs => jsonClean v && cleanObj fs
end

/-! ## Layer 2: the promise machine and the translation of `enqueue` -/

/-- The errors appearing in the program.  `invalidInvocation` is the
`Illegal invocation, takes one or two arguments` error, `serializationErr`
the `Item is not serializable` error, `deserializationErr` the
`Item could not be deserialized` error of `_getServiceApi`, `notAFunction`
the TypeError thrown by bluebird `Promise.method` on a non-callable
argument, and `taskErr code` an arbitrary error thrown by a task function
(the `code` keeps its identity, so that rejecting "with the original error,
unmodified" is expressible). -/
inductive Err where
  | invalidInvocation
  | serializationErr
  | deserializationErr
  | notAFunction
  | taskErr (code : Nat)

deriving DecidableEq

/-- A settled promise state: fulfilled with a value or rejected with an
error. -/
inductive Outcome where
  | fulfilled (v : PureVal)
  | rejected (e : Err)

deriving DecidableEq

/-  The behaviours a task (service) function can have, and the argument
values of `enqueue`.  A JavaScript argument is either a plain data value or
a function value; a function used as the service argument behaves per its
`ServiceBody`: return a plain value, throw, return a still-pending future
(settled later by the environment via its token), or re-entrantly call
`enqueue` on the same queue and then return a value. -/
mutual
inductive ServiceBody where
  | ret (v : PureVal)
  | throwE (e : Err)
  | retPending (tok : Nat)
  | enqThenRet (args : ArgList) (v : PureVal)
inductive JsArg where
  | data (v : ItemVal)
  | func (b : ServiceBody)
inductive ArgList where
  | anil
  | acons (a : JsArg) (tl : ArgList)
end

deriving instance DecidableEq for ServiceBody

def ArgList.length : ArgList → Nat
  | .anil => 0
  | .acons _ tl => 1 + tl.length

/-- `JSON.stringify(item)` for an `enqueue` argument: function values
stringify to `undefined`; data values are read out of the current heap
(throwing on cycles) and then encoded. -/
def serializeArg (h : Heap) : JsArg → EncRes
  | .func _ => .undefR
  | .data v =>
    match readItem h (heapFuel h) [] v with
    | none => .thrown
    | some pv => encTree pv

/-- `_deserializeItem`: the guard `serializedItem === undefined ?
undefined : JSON.parse(serializedItem)` of the source.  The captured
encoding is `none` exactly when `JSON.stringify` returned `undefined`. -/
def deserializeEnc : Option Json → PureVal
  | none => .undef
  | some j => jsonToPure j

/-- `_getServiceApi`: deserialize the captured encoding and wrap it as the
`item` property of the service invocation object.  The `Except` mirrors
the try/catch of the source; parsing the output of a successful stringify
cannot fail, so the error branch is unreachable in the model. -/
def getServiceApi (enc : Option Json) : Except String PureVal :=
  .ok (deserializeEnc enc)

/-- The defunctionalized closures the source passes to `.then`:
`chainLink` is the arrow function enqueued onto `this._tail` (closing over
the submission id, the captured encoding, the service argument and the
caller promise), and `settleF` / `settleR` are the `resolve` / `reject`
continuations passed in `.then(resolve, reject)`. -/
inductive Handler where
  | chainLink (id : Nat) (enc : Option Json) (svc : JsArg) (cp : Nat)
  | settleF (cp : Nat)
  | settleR (cp : Nat)

/-- A reaction registered on a promise: optional fulfillment and rejection
handlers and the promise that the handler result resolves (`none` handlers
propagate the outcome unchanged, as in Promises/A+). -/
structure Reaction where
  onF : Option Handler
  onR : Option Handler
  target : Nat

/-- A promise is pending (with its registered reactions, in registration
order) or settled. -/
inductive PStatus where
  | pend (rs : List Reaction)
  | settled (o : Outcome)

/-- A queued microtask: run a reaction against the outcome its source
promise settled with. -/
structure Job where
  rct : Reaction
  out : Outcome

/-- Observable events: a submission was linked onto the chain, its task
function was invoked with the decoded item, and the future normalized from
the task outcome settled. -/
inductive Event where
  | admitted (id : Nat)
  | invoked (id : Nat) (item : PureVal)
  | taskSettled (id : Nat) (o : Outcome)

deriving DecidableEq

/-- Bookkeeping record of a successfully linked submission: its id, the
service argument, the captured encoding, and the promise ids of the caller
promise (the future `enqueue` returned) and of the new internal tail link
created for it. -/
structure SubRec where
  id : Nat
  svc : JsArg
  enc : Option Json
  cp : Nat
  nt : Nat

/-- The machine state: the promise store (promise ids are allocated from
`nextP`), the FIFO microtask queue, the queue object field `this._tail`,
the caller-visible heap, and the observation records (`subs`, `externals`
mapping a token of a task-returned pending future to its promise id and
submission id, and the event `trace`). -/
structure QState where
  pstore : Nat → PStatus
  nextP : Nat
  tailP : Nat
  jobs : List Job
  subs : List SubRec
  nextSub : Nat
  externals : List (Nat × Nat × Nat)
  heap : Heap
  trace : List Event

/-- Allocate a fresh promise with the given status. -/
def allocP (s : QState) (st : PStatus) : QState × Nat :=
  ({ s with
      pstore := fun q => if q = s.nextP then st else s.pstore q,
      nextP := s.nextP + 1 }, s.nextP)

/-- Settle a promise: record the outcome and schedule every registered
reaction as a microtask.  Settling an already settled promise is a no-op
(a promise settles at most once). -/
def settleP (s : QState) (p : Nat) (o : Outcome) : QState :=
  match s.pstore p with
  | .pend rs =>
    { s with
        pstore := fun q => if q = p then .settled o else s.pstore q,
        jobs := s.jobs ++ rs.map (fun r => ⟨r, o⟩) }
  | .settled _ => s

/-- `.then(onF, onR)`: create the derived promise and either register the
reaction (source pending) or schedule it immediately (source settled). -/
def thenP (s : QState) (p : Nat) (onF onR : Option Handler) : QState × Nat :=
  let t := s.nextP
  let r : Reaction := ⟨onF, onR, t⟩
  match s.pstore p with
  | .pend rs =>
    ({ s with
        nextP := t + 1,
        pstore := fun q =>
          if q = t then .pend [] else if q = p then .pend (rs ++ [r]) else s.pstore q }, t)
  | .settled o =>
    ({ s with
        nextP := t + 1,
        pstore := fun q => if q = t then .pend [] else s.pstore q,
        jobs := s.jobs ++ [⟨r, o⟩] }, t)

/-- A handler result value: a plain value or a promise (thenable). -/
inductive Val where
  | pureV (v : PureVal)
  | promV (p : Nat)

/-- Resolve a promise with a handler result: plain values fulfill it; a
promise result makes it adopt that promise (directly if already settled,
through a propagation reaction otherwise). -/
def resolveTo (s : QState) (tgt : Nat) : Val → QState
  | .pureV v => settleP s tgt (.fulfilled v)
  | .promV q =>
    match s.pstore q with
    | .settled o => settleP s tgt o
    | .pend rs =>
      { s with
          pstore := fun x => if x = q then .pend (rs ++ [⟨none, none, tgt⟩]) else s.pstore x }

def emit (s : QState) (e : Event) : QState := { s with trace := s.trace ++ [e] }

/-- What running a handler produced: a returned value or a thrown error. -/
inductive HRes where
  | retV (v : Val)
  | thrE (e : Err)

/-! The translation of `enqueue` itself.  `enqueueFn` is the whole method
body: allocate the caller promise (`new Promise(...)`, whose executor runs
synchronously), switch on the argument count, serialize the item, and on
success link the chain callback onto `this._tail` and swap the tail. -/

def linkReaction (r : SubRec) : Reaction :=
  ⟨some (.chainLink r.id r.enc r.svc r.cp), none, r.nt⟩

/-- Successful admission: record the submission, register the chain
callback on the current tail with `.then`, and replace the tail with the
promise that `.then` returned. -/
def enqLink2 (s : QState) (cp : Nat) (enc : Option Json) (svc : JsArg) : QState × Nat :=
  let id := s.nextSub
  let s := emit { s with nextSub := id + 1 } (.admitted id)
  let sn := thenP s s.tailP (some (.chainLink id enc svc cp)) none
  ({ sn.1 with
      tailP := sn.2,
      subs := sn.1.subs ++ [⟨id, svc, enc, cp, sn.2⟩] }, cp)

/-- The serialization step of `enqueue`: reject the caller promise and do
not touch the chain if `_serializeItem` throws, else capture the encoding
and link. -/
def enqLink (s : QState) (cp : Nat) (it svc : JsArg) : QState × Nat :=
  match serializeArg s.heap it with
  | .thrown => (settleP s cp (.rejected .serializationErr), cp)
  | .undefR => enqLink2 s cp none svc
  | .ok j => enqLink2 s cp (some j) svc

/-- `enqueue(...args)`.  One argument: it is the service, the item is
`undefined`.  Two arguments: item then service.  Any other count: reject
the caller promise with the illegal-invocation error and return. -/
def enqueueFn (s : QState) (args : ArgList) : QState × Nat :=
  let sc := allocP s (.pend [])
  match args with
  | .acons svc .anil => enqLink sc.1 sc.2 (.data (.prim .undefP)) svc
  | .acons it (.acons svc .anil) => enqLink sc.1 sc.2 it svc
  | _ => (settleP sc.1 sc.2 (.rejected .invalidInvocation), sc.2)

/-- Run a service body (the synchronous part of the task function, as
invoked by `Promise.method(service)(serviceApi)`), producing the promise
that carries the normalized outcome of the invocation. -/
def runBody (s : QState) (id : Nat) : ServiceBody → QState × Nat
  | .ret v =>
    allocP (emit s (.taskSettled id (.fulfilled v))) (.settled (.fulfilled v))
  | .throwE e =>
    allocP (emit s (.taskSettled id (.rejected e))) (.settled (.rejected e))
  | .retPending tok =>
    let so := allocP s (.pend [])
    ({ so.1 with externals := so.1.externals ++ [(tok, so.2, id)] }, so.2)
  | .enqThenRet args v =>
    allocP (emit (enqueueFn s args).1 (.taskSettled id (.fulfilled v)))
      (.settled (.fulfilled v))

/-- Run a handler against the outcome that triggered it.  `chainLink` is
the body of the arrow function chained onto the tail: build the service
API (the dead catch branch mirrors the source try/catch), throw the
bluebird TypeError if the service is not callable, otherwise invoke it,
then attach `.then(resolve, reject)` followed by `.finally(() => {})` (a
no-op passthrough link) and return the resulting promise, which the
internal chain link adopts. -/
def runHandler (s : QState) (h : Handler) (o : Outcome) : QState × HRes :=
  match h with
  | .chainLink id enc svc cp =>
    match getServiceApi enc with
    | .error _ => (settleP s cp (.rejected .deserializationErr), .retV (.pureV .undef))
    | .ok itemV =>
      match svc with
      | .data _ => (s, .thrE .notAFunction)
      | .func body =>
        let s1 := emit s (.invoked id itemV)
        let sb := runBody s1 id body
        let s2 := thenP sb.1 sb.2 (some (.settleF cp)) (some (.settleR cp))
        let s3 := thenP s2.1 s2.2 none none
        (s3.1, .retV (.promV s3.2))
  | .settleF cp =>
    match o with
    | .fulfilled v => (settleP s cp (.fulfilled v), .retV (.pureV .undef))
    | .rejected _ => (s, .retV (.pureV .undef))
  | .settleR cp =>
    match o with
    | .rejected e => (settleP s cp (.rejected e), .retV (.pureV .undef))
    | .fulfilled _ => (s, .retV (.pureV .undef))

/-- Apply a handler result to the promise derived from the reaction. -/
def applyHRes (s : QState) (tgt : Nat) : HRes → QState
  | .retV v => resolveTo s tgt v
  | .thrE e => settleP s tgt (.rejected e)

/-- Run one queued reaction: a missing handler propagates the outcome to
the derived promise unchanged; a present handler runs and its result is
applied. -/
def runJob (s : QState) (j : Job) : QState :=
  match j.out with
  | .fulfilled v =>
    match j.rct.onF with
    | none => settleP s j.rct.target (.fulfilled v)
    | some h => let sr := runHandler s h (.fulfilled v); applyHRes sr.1 j.rct.target sr.2
  | .rejected e =>
    match j.rct.onR with
    | none => settleP s j.rct.target (.rejected e)
    | some h => let sr := runHandler s h (.rejected e); applyHRes sr.1 j.rct.target sr.2

/-- Run the next microtask, if any. -/
def stepMicro (s : QState) : QState :=
  match s.jobs with
  | [] => s
  | j :: rest => runJob { s with jobs := rest } j

/-- The schedule alphabet: run a microtask; call `enqueue` at top level
with the given arguments; settle a task-returned external future
identified by its token; or mutate the caller-visible heap arbitrarily. -/
inductive Action where
  | micro
  | enq (args : ArgList)
  | extSettle (tok : Nat) (o : Outcome)
  | setHeap (h : Heap)

def applyAct (s : QState) : Action → QState
  | .micro => stepMicro s
  | .enq args => (enqueueFn s args).1
  | .extSettle tok o =>
    match s.externals.find? (fun e => e.1 == tok) with
    | none => s
    | some (_, pid, id) =>
      settleP
        (emit { s with externals := s.externals.eraseP (fun e => e.1 == tok) }
          (.taskSettled id o))
        pid o
  | .setHeap h => { s with heap := h }

def runActs (s : QState) (l : List Action) : QState := l.foldl applyAct s

/-- The state after `new Queue()`: `this._tail = Promise.resolve()` is the
already fulfilled promise 0; nothing is queued. -/
def initQ : QState :=
  { pstore := fun p => if p = 0 then .settled (.fulfilled .undef) else .pend [],
    nextP := 1, tailP := 0, jobs := [], subs := [], nextSub := 0,
    externals := [], heap := [], trace := [] }

/-! ## Observations of a trace -/

/-- Projection of the trace onto task starts and task settlements. -/
inductive OEv where
  | inv (id : Nat)
  | stl (id : Nat)

deriving DecidableEq

def obsOf (tr : List Event) : List OEv :=
  tr.filterMap fun e =>
    match e with
    | .invoked id _ => some (.inv id)
    | .taskSettled id _ => some (.stl id)
    | _ => none

def admitsOf (tr : List Event) : List Nat :=
  tr.filterMap fun e =>
    match e with
    | .admitted id => some id
    | _ => none

def invokedIds (tr : List Event) : List Nat :=
  tr.filterMap fun e =>
    match e with
    | .invoked id _ => some id
    | _ => none

/-- The fully serialized observation pattern: each task starts and settles
before the next starts. -/
def altOf : List Nat → List OEv
  | [] => []
  | i :: r => .inv i :: .stl i :: altOf r

/-! ## The machine invariant

A reachable state is characterized by a list `done` of fully completed
submissions and a phase describing where the chain currently stands:
`idle` (everything completed, tail settled), `toStart` (the chain callback
of the next submission is the queued microtask), `chainRun` (a submission
has been invoked and its outcome is travelling through the
`.then(resolve, reject)` / `.finally` links back to the internal tail
link), and the poisoned phases reached after a non-callable service made a
chain link reject (the rejection walks down the remaining links). -/

def PendingSub (s : QState) (r : SubRec) : Prop := s.pstore r.cp = .pend []

def DeadSub (s : QState) (r : SubRec) : Prop :=
  s.pstore r.cp = .pend [] ∧ s.pstore r.nt = .settled (.rejected .notAFunction)

def DoneSub (s : QState) (r : SubRec) : Prop :=
  (∃ b, r.svc = .func b) ∧ s.pstore r.nt = .settled (.fulfilled .undef) ∧
    ∃ o, s.pstore r.cp = .settled o

/-- The not-yet-started part of the chain: each pending tail link holds
exactly the chain reaction of the next submission, and the queue field
`tailP` is the last link. -/
def Chained (s : QState) : Nat → List SubRec → Prop
  | p, [] => s.tailP = p ∧ s.pstore p = .pend []
  | p, w :: ws => s.pstore p = .pend [linkReaction w] ∧ Chained s w.nt ws

/-- Progress of the current submission through its chain-link cycle. -/
inductive RunSt where
  | awaiting (tok : Nat)
  | outJob (o : Outcome)
  | p2Job (o : Outcome)
  | p3Job (o : Outcome)

inductive Ph where
  | idle
  | toStart (w : SubRec) (ws : List SubRec)
  | chainRun (c : SubRec) (ws : List SubRec) (op p2 p3 : Nat) (st : RunSt)
  | poisonJob (dead : List SubRec) (k : SubRec) (ws : List SubRec)
  | poisonIdle (dead : List SubRec)

/-- The submissions that are not yet completed, in chain order. -/
def phRecs : Ph → List SubRec
  | .idle => []
  | .toStart w ws => w :: ws
  | .chainRun c ws _ _ _ _ => c :: ws
  | .poisonJob dead k ws => dead ++ k :: ws
  | .poisonIdle dead => dead

/-- Auxiliary promise ids owned by the phase (outcome promise and the two
`.then` / `.finally` links of the running submission). -/
def phExtra : Ph → List Nat
  | .chainRun _ _ op p2 p3 _ => [op, p2, p3]
  | _ => []

/-- The contribution of the current submission to the observation
projection of the trace. -/
def phObs : Ph → List OEv
  | .chainRun c _ _ _ _ st =>
    match st with
    | .awaiting _ => [.inv c.id]
    | _ => [.inv c.id, .stl c.id]
  | _ => []

def subPids (l : List SubRec) : List Nat := l.flatMap fun r => [r.cp, r.nt]

structure ShapeCommon (s : QState) (done : List SubRec) (ph : Ph) : Prop where
  subsEq : s.subs = done ++ phRecs ph
  idsEq : s.subs.map (fun r => r.id) = List.range s.nextSub
  admitsEq : admitsOf s.trace = s.subs.map (fun r => r.id)
  obsEq : obsOf s.trace = altOf (done.map (fun r => r.id)) ++ phObs ph
  pidsNodup : (subPids s.subs ++ phExtra ph).Nodup
  pidsLt : ∀ p ∈ subPids s.subs ++ phExtra ph, p < s.nextP
  tailLt : s.tailP < s.nextP
  doneOk : ∀ r ∈ done, DoneSub s r
  cpSettledEvt : ∀ r ∈ s.subs, ∀ o, s.pstore r.cp = .settled o →
    Event.taskSettled r.id o ∈ s.trace

def ShapeOf (s : QState) : Ph → Prop
  | .idle =>
    s.jobs = [] ∧ s.externals = [] ∧
    s.pstore s.tailP = .settled (.fulfilled .undef)
  | .toStart w ws =>
    s.jobs = [⟨linkReaction w, .fulfilled .undef⟩] ∧ s.externals = [] ∧
    Chained s w.nt ws ∧ PendingSub s w ∧ (∀ r ∈ ws, PendingSub s r)
  | .chainRun c ws op p2 p3 st =>
    (∃ b, c.svc = .func b) ∧
    Chained s c.nt ws ∧ (∀ r ∈ ws, PendingSub s r) ∧
    (match st with
     | .awaiting tok =>
       s.pstore c.cp = .pend [] ∧
       s.pstore op = .pend [⟨some (.settleF c.cp), some (.settleR c.cp), p2⟩] ∧
       s.pstore p2 = .pend [⟨none, none, p3⟩] ∧
       s.pstore p3 = .pend [⟨none, none, c.nt⟩] ∧
       s.jobs = [] ∧ s.externals = [(tok, op, c.id)]
     | .outJob o =>
       s.pstore c.cp = .pend [] ∧
       s.pstore op = .settled o ∧
       s.pstore p2 = .pend [⟨none, none, p3⟩] ∧
       s.pstore p3 = .pend [⟨none, none, c.nt⟩] ∧
       s.jobs = [⟨⟨some (.settleF c.cp), some (.settleR c.cp), p2⟩, o⟩] ∧
       s.externals = [] ∧ Event.taskSettled c.id o ∈ s.trace
     | .p2Job o =>
       s.pstore c.cp = .settled o ∧ s.pstore op = .settled o ∧
       s.pstore p2 = .settled (.fulfilled .undef) ∧
       s.pstore p3 = .pend [⟨none, none, c.nt⟩] ∧
       s.jobs = [⟨⟨none, none, p3⟩, .fulfilled .undef⟩] ∧ s.externals = []
     | .p3Job o =>
       s.pstore c.cp = .settled o ∧ s.pstore op = .settled o ∧
       s.pstore p2 = .settled (.fulfilled .undef) ∧
       s.pstore p3 = .settled (.fulfilled .undef) ∧
       s.jobs = [⟨⟨none, none, c.nt⟩, .fulfilled .undef⟩] ∧ s.externals = [])
  | .poisonJob dead k ws =>
    s.jobs = [⟨linkReaction k, .rejected .notAFunction⟩] ∧ s.externals = [] ∧
    (∀ r ∈ dead, DeadSub s r) ∧ PendingSub s k ∧ (∀ r ∈ ws, PendingSub s r) ∧
    Chained s k.nt ws ∧ (∃ rb ∈ dead, ∀ b, rb.svc ≠ .func b)
  | .poisonIdle dead =>
    s.jobs = [] ∧ s.externals = [] ∧
    (∀ r ∈ dead, DeadSub s r) ∧
    s.pstore s.tailP = .settled (.rejected .notAFunction) ∧
    (∃ rb ∈ dead, ∀ b, rb.svc ≠ .func b)

def ShapeAll (s : QState) (done : List SubRec) (ph : Ph) : Prop :=
  ShapeCommon s done ph ∧ ShapeOf s ph

def Inv (s : QState) : Prop := ∃ done ph, ShapeAll s done ph

/-- The encoding captured for a submission, as a stringify result. -/
def encToRes : Option Json → EncRes
  | none => .undefR
  | some j => .ok j

/-! ### Effect of a successful admission on the invariant -/

/-- The record of a newly admitted submission. -/
def newSub (s : QState) (svc : JsArg) (enc : Option Json) : SubRec :=
  ⟨s.nextSub, svc, enc, s.nextP, s.nextP + 1⟩

/-- The state after a successful admission onto a pending tail. -/
def enqExtState (s : QState) (svc : JsArg) (enc : Option Json) : QState :=
  { s with
      pstore := fun q =>
        if q = s.nextP + 1 then .pend []
        else if q = s.tailP then .pend [linkReaction (newSub s svc enc)]
        else if q = s.nextP then .pend []
        else s.pstore q,
      nextP := s.nextP + 2,
      tailP := s.nextP + 1,
      subs := s.subs ++ [newSub s svc enc],
      nextSub := s.nextSub + 1,
      trace := s.trace ++ [.admitted s.nextSub] }

/-- The state after a successful admission onto a settled tail. -/
def enqExtStateS (s : QState) (svc : JsArg) (enc : Option Json) (o : Outcome) : QState :=
  { s with
      pstore := fun q =>
        if q = s.nextP + 1 then .pend []
        else if q = s.nextP then .pend []
        else s.pstore q,
      nextP := s.nextP + 2,
      tailP := s.nextP + 1,
      jobs := s.jobs ++ [⟨linkReaction (newSub s svc enc), o⟩],
      subs := s.subs ++ [newSub s svc enc],
      nextSub := s.nextSub + 1,
      trace := s.trace ++ [.admitted s.nextSub] }

/-- The tail of the chain callback after the service invocation: attach
`.then(resolve, reject)` and `.finally`, and resolve the internal chain
link with the resulting promise. -/
def tailCall (sb : QState) (w : SubRec) (op : Nat) : QState :=
  let s2 := thenP sb op (some (.settleF w.cp)) (some (.settleR w.cp))
  let s3 := thenP s2.1 s2.2 none none
  resolveTo s3.1 w.nt (.promV s3.2)

/-- The machine state in the middle of a chain callback, after the service
function returned: `op` is the promise normalizing the invocation outcome
(settled for synchronous outcomes, pending and registered under an
external token for a returned future). -/
structure MidState (sb : QState) (done : List SubRec) (w : SubRec) (ws : List SubRec)
    (op : Nat) (ost : Option Outcome) : Prop where
  subsEq : sb.subs = done ++ w :: ws
  idsEq : sb.subs.map (fun r => r.id) = List.range sb.nextSub
  admitsEq : admitsOf sb.trace = sb.subs.map (fun r => r.id)
  obsEq : obsOf sb.trace = altOf (done.map (fun r => r.id)) ++ OEv.inv w.id ::
    (match ost with | some _ => [OEv.stl w.id] | none => [])
  pidsNodup : (subPids sb.subs).Nodup
  pidsLt : ∀ p ∈ subPids sb.subs, p < sb.nextP
  tailLt : sb.tailP < sb.nextP
  doneOk : ∀ r ∈ done, DoneSub sb r
  cpSettledEvt : ∀ r ∈ sb.subs, ∀ o, sb.pstore r.cp = .settled o →
    Event.taskSettled r.id o ∈ sb.trace
  svcFunc : ∃ b, w.svc = .func b
  chain : Chained sb w.nt ws
  wPend : PendingSub sb w
  wsPend : ∀ r ∈ ws, PendingSub sb r
  jobsE : sb.jobs = []
  opLt : op < sb.nextP
  opFresh : op ∉ subPids sb.subs
  opSt : match ost with
    | some o => sb.pstore op = .settled o ∧ Event.taskSettled w.id o ∈ sb.trace ∧
        sb.externals = []
    | none => sb.pstore op = .pend [] ∧ ∃ tok, sb.externals = [(tok, op, w.id)]

/-! ## The serial observation pattern -/

/-- The observation projection is serial: each invoked task settles before
the next task is invoked, with at most one trailing unsettled invocation. -/
def serialObs : List OEv → Bool
  | [] => true
  | [.inv _] => true
  | .inv i :: .stl j :: r => i == j && serialObs r
  | _ => false

/-- The invoked task ids, read off the observation projection. -/
def obsFst : List OEv → List Nat :=
  List.filterMap fun e => match e with | .inv i => some i | .stl _ => none

/-! ## Well-behaved schedules: every service argument is callable

The queue poisons its chain when a non-callable service reaches the front
(see the poisoned phases of the invariant).  The failure-isolation claim is
about task failures (throws and rejections), so it is stated for schedules
in which every service argument passed to `enqueue` — including re-entrant
calls made from inside tasks — is a function. -/

mutual
def goodBody : ServiceBody → Bool
  | .enqThenRet args _ => goodEnqArgs args
  | _ => true
def goodSvc : JsArg → Bool
  | .func b => goodBody b
  | .data _ => false
def goodEnqArgs : ArgList → Bool
  | .acons svc .anil => goodSvc svc
  | .acons _ (.acons svc .anil) => goodSvc svc
  | _ => true
end

def goodHandler : Handler → Bool
  | .chainLink _ _ svc _ => goodSvc svc
  | _ => true

def goodORct : Option Handler → Bool
  | none => true
  | some h => goodHandler h

def goodReaction (r : Reaction) : Bool := goodORct r.onF && goodORct r.onR

def goodAct : Action → Bool
  | .enq args => goodEnqArgs args
  | _ => true

/-- Every reaction registered anywhere in the promise store is good. -/
def GoodPS (ps : Nat → PStatus) : Prop :=
  ∀ p rs, ps p = .pend rs → ∀ r ∈ rs, goodReaction r = true

/-- Every service captured in the state is callable (with a good body),
both in the submission records and in all pending handlers. -/
def GoodState (s : QState) : Prop :=
  (∀ r ∈ s.subs, goodSvc r.svc = true) ∧
  (∀ j ∈ s.jobs, goodReaction j.rct = true) ∧
  GoodPS s.pstore

/-  Round trip: encoding a JSON-faithful value succeeds and decoding the
result reproduces the value (the value-snapshot contract of the spec). -/
mutual
theorem encTree_roundTrip : ∀ v : PureVal, jsonClean v = true →
    ∃ j, encTree v = .ok j ∧ jsonToPure j = v
  | .nullV, _ => ⟨.nullJ, rfl, rfl⟩
  | .boolV b, _ => ⟨.boolJ b, rfl, rfl⟩
  | .numV n, _ => ⟨.numJ n, rfl, rfl⟩
  | .strV s, _ => ⟨.strJ s, rfl, rfl⟩
  | .arrV xs, h => by
    have hxs := encArr_roundTrip xs (by simpa [jsonClean] using h)
    obtain ⟨js, h1, h2⟩ := hxs
    exact ⟨.arrJ js, by simp [encTree, h1], by simp [jsonToPure, h2]⟩
  | .objV fs, h => by
    have hfs := encObj_roundTrip fs (by simpa [jsonClean] using h)
    obtain ⟨jfs, h1, h2⟩ := hfs
    exact ⟨.objJ jfs, by simp [encTree, h1], by simp [jsonToPure, h2]⟩
theorem encArr_roundTrip : ∀ xs : PList, cleanArr xs = true →
    ∃ js, encArr xs = some js ∧ jlistToPure js = xs
  | .nil, _ => ⟨.nil, rfl, rfl⟩
  | .cons x xs, h => by
    have hx : jsonClean x = true := by
      have := h; simp [cleanArr, Bool.and_eq_true] at this; exact this.1
    have hxs : cleanArr xs = true := by
      have := h; simp [cleanArr, Bool.and_eq_true] at this; exact this.2
    obtain ⟨j, hj1, hj2⟩ := encTree_roundTrip x hx
    obtain ⟨js, hjs1, hjs2⟩ := encArr_roundTrip xs hxs
    exact ⟨.cons j js, by simp [encArr, hj1, hjs1], by simp [jlistToPure, hj2, hjs2]⟩
theorem encObj_roundTrip : ∀ fs : PFields, cleanObj fs = true →
    ∃ jfs, encObj fs = some jfs ∧ jfieldsToPure jfs = fs
  | .nil, _ => ⟨.nil, rfl, rfl⟩
  | .cons k v fs, h => by
    have hv : jsonClean v = true := by
      have := h; simp [cleanObj, Bool.and_eq_true] at this; exact this.1
    have hfs : cleanObj fs = true := by
      have := h; simp [cleanObj, Bool.and_eq_true] at this; exact this.2
    obtain ⟨j, hj1, hj2⟩ := encTree_roundTrip v hv
    obtain ⟨jfs, hjfs1, hjfs2⟩ := encObj_roundTrip fs hfs
    exact ⟨.cons k j jfs, by simp [encObj, hj1, hjfs1], by simp [jfieldsToPure, hj2, hjfs2]⟩
end

/-! ### Small helper lemmas -/

theorem subPids_append (l₁ l₂ : List SubRec) :
    subPids (l₁ ++ l₂) = subPids l₁ ++ subPids l₂ := by
  simp [subPids]

theorem subPids_cons (r : SubRec) (l : List SubRec) :
    subPids (r :: l) = r.cp :: r.nt :: subPids l := by
  simp [subPids]

theorem cp_mem_subPids {r : SubRec} {l : List SubRec} (h : r ∈ l) :
    r.cp ∈ subPids l := by
  simp only [subPids, List.mem_flatMap]
  exact ⟨r, h, by simp⟩

theorem nt_mem_subPids {r : SubRec} {l : List SubRec} (h : r ∈ l) :
    r.nt ∈ subPids l := by
  simp only [subPids, List.mem_flatMap]
  exact ⟨r, h, by simp⟩

theorem nodup_split {l₁ l₂ : List Nat} (h : (l₁ ++ l₂).Nodup) :
    l₁.Nodup ∧ l₂.Nodup ∧ ∀ a ∈ l₁, ∀ b ∈ l₂, a ≠ b := by
  rw [List.nodup_append] at h
  exact ⟨h.1, h.2.1, fun a ha b hb heq => h.2.2 ha (heq.symm ▸ hb)⟩

theorem obsOf_append (t₁ t₂ : List Event) :
    obsOf (t₁ ++ t₂) = obsOf t₁ ++ obsOf t₂ := by
  simp [obsOf, List.filterMap_append]

theorem admitsOf_append (t₁ t₂ : List Event) :
    admitsOf (t₁ ++ t₂) = admitsOf t₁ ++ admitsOf t₂ := by
  simp [admitsOf, List.filterMap_append]

theorem invokedIds_append (t₁ t₂ : List Event) :
    invokedIds (t₁ ++ t₂) = invokedIds t₁ ++ invokedIds t₂ := by
  simp [invokedIds, List.filterMap_append]

theorem altOf_append (l₁ l₂ : List Nat) :
    altOf (l₁ ++ l₂) = altOf l₁ ++ altOf l₂ := by
  induction l₁ with
  | nil => rfl
  | cons i r ih => simp [altOf, ih]

/-- `Chained` only looks at the tail field and the statuses of the link
promises, so it transports along any state change that preserves those. -/
theorem chained_congr {s s' : QState} {p : Nat} {ws : List SubRec}
    (hch : Chained s p ws)
    (hT : s'.tailP = s.tailP)
    (hP : ∀ q, (q = p ∨ ∃ r ∈ ws, q = r.nt) → s'.pstore q = s.pstore q) :
    Chained s' p ws := by
  induction ws generalizing p with
  | nil =>
    exact ⟨hT.trans hch.1, (hP p (Or.inl rfl)).trans hch.2⟩
  | cons w ws ih =>
    refine ⟨(hP p (Or.inl rfl)).trans hch.1, ih hch.2 ?_⟩
    intro q hq
    refine hP q (Or.inr ?_)
    rcases hq with h | ⟨r, hr, hq⟩
    · exact ⟨w, by simp, h⟩
    · exact ⟨r, by simp [hr], hq⟩

theorem chained_tail_status {s : QState} {p : Nat} {ws : List SubRec} :
    Chained s p ws → s.pstore s.tailP = .pend [] := by
  induction ws generalizing p with
  | nil => intro hc; rw [hc.1]; exact hc.2
  | cons w ws ih => intro hc; exact ih hc.2

/-- Appending a new submission at the end of the chain: the old last link
gains exactly the new chain reaction, the new link is fresh and pending,
and the tail now points at the new link. -/
theorem chained_extend {s s' : QState} {p : Nat} {ws : List SubRec} {new : SubRec}
    (hc : Chained s p ws)
    (hagree : ∀ q, (q = p ∨ ∃ r ∈ ws, q = r.nt) → q ≠ s.tailP → s'.pstore q = s.pstore q)
    (hend : s'.pstore s.tailP = .pend [linkReaction new])
    (hT : s'.tailP = new.nt)
    (hnt : s'.pstore new.nt = .pend []) :
    Chained s' p (ws ++ [new]) := by
  induction ws generalizing p with
  | nil =>
    refine ⟨?_, hT, hnt⟩
    rw [hc.1] at hend
    exact hend
  | cons w ws ih =>
    refine ⟨?_, ih hc.2 ?_⟩
    · by_cases hp : p = s.tailP
      · exfalso
        have := chained_tail_status hc
        rw [← hp, hc.1] at this
        simp at this
      · exact (hagree p (Or.inl rfl) hp).trans hc.1
    · intro q hq hqt
      refine hagree q (Or.inr ?_) hqt
      rcases hq with h | ⟨r, hr, hq⟩
      · exact ⟨w, by simp, h⟩
      · exact ⟨r, by simp [hr], hq⟩

/-- `ShapeAll` only inspects promise ids below `nextP`, so it transports
along any state change that leaves the listed fields and the low part of
the promise store intact (for example, allocating a fresh promise). -/
theorem shapeAll_congr {s s' : QState} {done : List SubRec} {ph : Ph}
    (h : ShapeAll s done ph)
    (hsubs : s'.subs = s.subs) (hjobs : s'.jobs = s.jobs)
    (hexts : s'.externals = s.externals) (htrace : s'.trace = s.trace)
    (hnextSub : s'.nextSub = s.nextSub) (htail : s'.tailP = s.tailP)
    (hnext : s.nextP ≤ s'.nextP)
    (hps : ∀ q, q < s.nextP → s'.pstore q = s.pstore q) :
    ShapeAll s' done ph := by
  obtain ⟨hc, ho⟩ := h
  have hlt := hc.pidsLt
  have hcp : ∀ r ∈ s.subs, s'.pstore r.cp = s.pstore r.cp := by
    intro r hr
    exact hps _ (hlt _ (List.mem_append_left _ (cp_mem_subPids hr)))
  have hnt : ∀ r ∈ s.subs, s'.pstore r.nt = s.pstore r.nt := by
    intro r hr
    exact hps _ (hlt _ (List.mem_append_left _ (nt_mem_subPids hr)))
  refine ⟨⟨?_, ?_, ?_, ?_, ?_, ?_, ?_, ?_, ?_⟩, ?_⟩
  · rw [hsubs, hc.subsEq]
  · rw [hsubs, hnextSub, hc.idsEq]
  · rw [htrace, hsubs, hc.admitsEq]
  · rw [htrace, hc.obsEq]
  · rw [hsubs]; exact hc.pidsNodup
  · rw [hsubs]; exact fun p hp => lt_of_lt_of_le (hlt p hp) hnext
  · rw [htail]; exact lt_of_lt_of_le hc.tailLt hnext
  · intro r hr
    obtain ⟨hb, h1, h2⟩ := hc.doneOk r hr
    have hrs : r ∈ s.subs := by
      rw [hc.subsEq]; exact List.mem_append_left _ hr
    exact ⟨hb, (hnt r hrs).trans h1, by rw [hcp r hrs]; exact h2⟩
  · intro r hr o hcps
    rw [hsubs] at hr
    rw [htrace]
    exact hc.cpSettledEvt r hr o ((hcp r hr).symm.trans hcps)
  · have hchain : ∀ {p : Nat} {ws : List SubRec}, (∀ r ∈ ws, r ∈ s.subs) → p < s.nextP →
        Chained s p ws → Chained s' p ws := by
      intro p ws hmem hp hch
      refine chained_congr hch htail ?_
      intro q hq
      rcases hq with hq | ⟨r, hr, hq⟩
      · exact hps q (hq ▸ hp)
      · subst hq
        exact hnt r (hmem r hr)
    cases ph with
    | idle =>
      obtain ⟨h1, h2, h3⟩ := ho
      exact ⟨hjobs.trans h1, hexts.trans h2,
        by rw [htail, hps _ hc.tailLt]; exact h3⟩
    | toStart w ws =>
      obtain ⟨h1, h2, h3, h4, h5⟩ := ho
      have hwsub : ∀ r ∈ ws, r ∈ s.subs := by
        intro r hr
        rw [hc.subsEq]
        exact List.mem_append_right _ (by simp [phRecs, hr])
      have hwnt : w.nt < s.nextP := by
        refine hlt _ (List.mem_append_left _ (nt_mem_subPids ?_))
        rw [hc.subsEq]; exact List.mem_append_right _ (by simp [phRecs])
      refine ⟨hjobs.trans h1, hexts.trans h2, hchain hwsub hwnt h3, ?_, ?_⟩
      · have : w ∈ s.subs := by
          rw [hc.subsEq]; exact List.mem_append_right _ (by simp [phRecs])
        exact (hcp w this).trans h4
      · intro r hr
        exact (hcp r (hwsub r hr)).trans (h5 r hr)
    | chainRun c ws op p2 p3 st =>
      obtain ⟨h1, h2, h3, h4⟩ := ho
      have hcsub : c ∈ s.subs := by
        rw [hc.subsEq]; exact List.mem_append_right _ (by simp [phRecs])
      have hwsub : ∀ r ∈ ws, r ∈ s.subs := by
        intro r hr
        rw [hc.subsEq]
        exact List.mem_append_right _ (by simp [phRecs, hr])
      have hcnt : c.nt < s.nextP := hlt _ (List.mem_append_left _ (nt_mem_subPids hcsub))
      have hccp : c.cp < s.nextP := hlt _ (List.mem_append_left _ (cp_mem_subPids hcsub))
      have hop : op < s.nextP := hlt _ (List.mem_append_right _ (by simp [phExtra]))
      have hp2 : p2 < s.nextP := hlt _ (List.mem_append_right _ (by simp [phExtra]))
      have hp3 : p3 < s.nextP := hlt _ (List.mem_append_right _ (by simp [phExtra]))
      refine ⟨h1, hchain hwsub hcnt h2, fun r hr => (hcp r (hwsub r hr)).trans (h3 r hr), ?_⟩
      cases st with
      | awaiting tok =>
        obtain ⟨g1, g2, g3, g4, g5, g6⟩ := h4
        exact ⟨(hps _ hccp).trans g1, (hps _ hop).trans g2, (hps _ hp2).trans g3,
          (hps _ hp3).trans g4, hjobs.trans g5, hexts.trans g6⟩
      | outJob o =>
        obtain ⟨g1, g2, g3, g4, g5, g6, g7⟩ := h4
        exact ⟨(hps _ hccp).trans g1, (hps _ hop).trans g2, (hps _ hp2).trans g3,
          (hps _ hp3).trans g4, hjobs.trans g5, hexts.trans g6, htrace ▸ g7⟩
      | p2Job o =>
        obtain ⟨g1, g2, g3, g4, g5, g6⟩ := h4
        exact ⟨(hps _ hccp).trans g1, (hps _ hop).trans g2, (hps _ hp2).trans g3,
          (hps _ hp3).trans g4, hjobs.trans g5, hexts.trans g6⟩
      | p3Job o =>
        obtain ⟨g1, g2, g3, g4, g5, g6⟩ := h4
        exact ⟨(hps _ hccp).trans g1, (hps _ hop).trans g2, (hps _ hp2).trans g3,
          (hps _ hp3).trans g4, hjobs.trans g5, hexts.trans g6⟩
    | poisonJob dead k ws =>
      obtain ⟨h1, h2, h3, h4, h5, h6, h7⟩ := ho
      have hdsub : ∀ r ∈ dead, r ∈ s.subs := by
        intro r hr
        rw [hc.subsEq]
        exact List.mem_append_right _ (by simp [phRecs, hr])
      have hksub : k ∈ s.subs := by
        rw [hc.subsEq]; exact List.mem_append_right _ (by simp [phRecs])
      have hwsub : ∀ r ∈ ws, r ∈ s.subs := by
        intro r hr
        rw [hc.subsEq]
        exact List.mem_append_right _ (by simp [phRecs, hr])
      have hknt : k.nt < s.nextP := hlt _ (List.mem_append_left _ (nt_mem_subPids hksub))
      refine ⟨hjobs.trans h1, hexts.trans h2, ?_, (hcp k hksub).trans h4,
        fun r hr => (hcp r (hwsub r hr)).trans (h5 r hr), hchain hwsub hknt h6, h7⟩
      intro r hr
      obtain ⟨d1, d2⟩ := h3 r hr
      exact ⟨(hcp r (hdsub r hr)).trans d1, (hnt r (hdsub r hr)).trans d2⟩
    | poisonIdle dead =>
      obtain ⟨h1, h2, h3, h4, h5⟩ := ho
      have hdsub : ∀ r ∈ dead, r ∈ s.subs := by
        intro r hr
        rw [hc.subsEq]
        exact List.mem_append_right _ (by simp [phRecs, hr])
      refine ⟨hjobs.trans h1, hexts.trans h2, ?_,
        by rw [htail, hps _ hc.tailLt]; exact h4, h5⟩
      intro r hr
      obtain ⟨d1, d2⟩ := h3 r hr
      exact ⟨(hcp r (hdsub r hr)).trans d1, (hnt r (hdsub r hr)).trans d2⟩

/-! ### Characterizations of one `enqueue` call -/

theorem qstate_ext {s₁ s₂ : QState}
    (h1 : s₁.pstore = s₂.pstore) (h2 : s₁.nextP = s₂.nextP) (h3 : s₁.tailP = s₂.tailP)
    (h4 : s₁.jobs = s₂.jobs) (h5 : s₁.subs = s₂.subs) (h6 : s₁.nextSub = s₂.nextSub)
    (h7 : s₁.externals = s₂.externals) (h8 : s₁.heap = s₂.heap) (h9 : s₁.trace = s₂.trace) :
    s₁ = s₂ := by
  cases s₁; cases s₂; simp_all

/-- `enqueue` with zero or more than two arguments: the freshly allocated
caller promise is immediately rejected with the illegal-invocation error
and nothing else changes. -/
theorem enqueueFn_badArity (s : QState) (args : ArgList)
    (hargs : args = .anil ∨ ∃ a b c tl, args = .acons a (.acons b (.acons c tl))) :
    enqueueFn s args =
      ({ s with
          pstore := fun q =>
            if q = s.nextP then .settled (.rejected .invalidInvocation) else s.pstore q,
          nextP := s.nextP + 1 }, s.nextP) := by
  have hbody : ∀ s' : QState,
      (settleP s' s.nextP (.rejected .invalidInvocation), s.nextP) =
        ((settleP s' s.nextP (.rejected .invalidInvocation) : QState), s.nextP) := fun _ => rfl
  rcases hargs with h | ⟨a, b, c, tl, h⟩ <;> subst h <;>
  · simp only [enqueueFn, allocP, settleP]
    simp only [if_true]
    refine Prod.ext ?_ rfl
    refine qstate_ext (funext fun q => ?_) rfl rfl (by simp) rfl rfl rfl rfl rfl
    by_cases hq : q = s.nextP <;> simp [hq]

/-- `enqueue` whose item does not stringify: the freshly allocated caller
promise is immediately rejected with the serialization error and nothing
else changes (in particular the chain is untouched and no chain reaction
referencing the service is created). -/
theorem enqueueFn_serThrown (s : QState) (args : ArgList) (it svc : JsArg)
    (hargs : args = .acons it (.acons svc .anil))
    (hser : serializeArg s.heap it = .thrown) :
    enqueueFn s args =
      ({ s with
          pstore := fun q =>
            if q = s.nextP then .settled (.rejected .serializationErr) else s.pstore q,
          nextP := s.nextP + 1 }, s.nextP) := by
  subst hargs
  simp only [enqueueFn, allocP, enqLink]
  have hheap : ({ s with
      pstore := fun q => if q = s.nextP then PStatus.pend [] else s.pstore q,
      nextP := s.nextP + 1 } : QState).heap = s.heap := rfl
  rw [hheap, hser]
  simp only [settleP, if_pos rfl]
  refine Prod.ext ?_ rfl
  refine qstate_ext (funext fun q => ?_) rfl rfl (by simp) rfl rfl rfl rfl rfl
  by_cases hq : q = s.nextP <;> simp [hq]

/-- Successful admission onto a pending tail: the last chain link gains
the new chain reaction, a fresh pending link becomes the tail, the
submission is recorded and its admission event is emitted. -/
theorem enqueueFn_ok_pending (s : QState) (args : ArgList) (it svc : JsArg)
    (enc : Option Json) (rs : List Reaction)
    (hargs : (args = .acons svc .anil ∧ it = .data (.prim .undefP)) ∨
      args = .acons it (.acons svc .anil))
    (henc : serializeArg s.heap it = encToRes enc)
    (htail : s.pstore s.tailP = .pend rs)
    (hne : s.tailP ≠ s.nextP) :
    enqueueFn s args =
      ({ s with
          pstore := fun q =>
            if q = s.nextP + 1 then .pend []
            else if q = s.tailP then
              .pend (rs ++ [⟨some (.chainLink s.nextSub enc svc s.nextP), none, s.nextP + 1⟩])
            else if q = s.nextP then .pend []
            else s.pstore q,
          nextP := s.nextP + 2,
          tailP := s.nextP + 1,
          subs := s.subs ++ [⟨s.nextSub, svc, enc, s.nextP, s.nextP + 1⟩],
          nextSub := s.nextSub + 1,
          trace := s.trace ++ [.admitted s.nextSub] }, s.nextP) := by
  have main : enqLink
      ({ s with
          pstore := fun q => if q = s.nextP then .pend [] else s.pstore q,
          nextP := s.nextP + 1 } : QState) s.nextP it svc =
      ({ s with
          pstore := fun q =>
            if q = s.nextP + 1 then .pend []
            else if q = s.tailP then
              .pend (rs ++ [⟨some (.chainLink s.nextSub enc svc s.nextP), none, s.nextP + 1⟩])
            else if q = s.nextP then .pend []
            else s.pstore q,
          nextP := s.nextP + 2,
          tailP := s.nextP + 1,
          subs := s.subs ++ [⟨s.nextSub, svc, enc, s.nextP, s.nextP + 1⟩],
          nextSub := s.nextSub + 1,
          trace := s.trace ++ [.admitted s.nextSub] }, s.nextP) := by
    simp only [enqLink]
    have hheap : ({ s with
        pstore := fun q => if q = s.nextP then PStatus.pend [] else s.pstore q,
        nextP := s.nextP + 1 } : QState).heap = s.heap := rfl
    rw [hheap, henc]
    cases enc with
    | none =>
      simp only [encToRes, enqLink2, emit, thenP]
      rw [if_neg hne, htail]
    | some j =>
      simp only [encToRes, enqLink2, emit, thenP]
      rw [if_neg hne, htail]
  rcases hargs with ⟨ha, hi⟩ | ha <;> subst ha
  · subst hi
    simpa only [enqueueFn, allocP] using main
  · simpa only [enqueueFn, allocP] using main

/-- Successful admission onto a settled tail (idle or poisoned queue): the
chain reaction is scheduled immediately as a microtask carrying the tail
outcome, and a fresh pending link becomes the tail. -/
theorem enqueueFn_ok_settled (s : QState) (args : ArgList) (it svc : JsArg)
    (enc : Option Json) (o : Outcome)
    (hargs : (args = .acons svc .anil ∧ it = .data (.prim .undefP)) ∨
      args = .acons it (.acons svc .anil))
    (henc : serializeArg s.heap it = encToRes enc)
    (htail : s.pstore s.tailP = .settled o)
    (hne : s.tailP ≠ s.nextP) :
    enqueueFn s args =
      ({ s with
          pstore := fun q =>
            if q = s.nextP + 1 then .pend []
            else if q = s.nextP then .pend []
            else s.pstore q,
          nextP := s.nextP + 2,
          tailP := s.nextP + 1,
          jobs := s.jobs ++
            [⟨⟨some (.chainLink s.nextSub enc svc s.nextP), none, s.nextP + 1⟩, o⟩],
          subs := s.subs ++ [⟨s.nextSub, svc, enc, s.nextP, s.nextP + 1⟩],
          nextSub := s.nextSub + 1,
          trace := s.trace ++ [.admitted s.nextSub] }, s.nextP) := by
  have main : enqLink
      ({ s with
          pstore := fun q => if q = s.nextP then .pend [] else s.pstore q,
          nextP := s.nextP + 1 } : QState) s.nextP it svc =
      ({ s with
          pstore := fun q =>
            if q = s.nextP + 1 then .pend []
            else if q = s.nextP then .pend []
            else s.pstore q,
          nextP := s.nextP + 2,
          tailP := s.nextP + 1,
          jobs := s.jobs ++
            [⟨⟨some (.chainLink s.nextSub enc svc s.nextP), none, s.nextP + 1⟩, o⟩],
          subs := s.subs ++ [⟨s.nextSub, svc, enc, s.nextP, s.nextP + 1⟩],
          nextSub := s.nextSub + 1,
          trace := s.trace ++ [.admitted s.nextSub] }, s.nextP) := by
    simp only [enqLink]
    have hheap : ({ s with
        pstore := fun q => if q = s.nextP then PStatus.pend [] else s.pstore q,
        nextP := s.nextP + 1 } : QState).heap = s.heap := rfl
    rw [hheap, henc]
    cases enc with
    | none =>
      simp only [encToRes, enqLink2, emit, thenP]
      rw [if_neg hne, htail]
    | some j =>
      simp only [encToRes, enqLink2, emit, thenP]
      rw [if_neg hne, htail]
  rcases hargs with ⟨ha, hi⟩ | ha <;> subst ha
  · subst hi
    simpa only [enqueueFn, allocP] using main
  · simpa only [enqueueFn, allocP] using main

/-! ### Freshness and injectivity helpers -/

theorem nodup_append_ge {l f : List Nat} {n : Nat} (hl : l.Nodup) (hf : f.Nodup)
    (hbound : ∀ p ∈ l, p < n) (hge : ∀ x ∈ f, n ≤ x) : (l ++ f).Nodup := by
  rw [List.nodup_append]
  exact ⟨hl, hf, fun a ha hb => absurd (hbound a ha) (not_lt.mpr (hge a hb))⟩

theorem nodup_insert_mid {l₁ l₂ : List Nat} {n : Nat} (h : (l₁ ++ l₂).Nodup)
    (hbound : ∀ p ∈ l₁ ++ l₂, p < n) (mid : List Nat) (hmid : mid.Nodup)
    (hge : ∀ x ∈ mid, n ≤ x) : (l₁ ++ (mid ++ l₂)).Nodup := by
  have hperm : (l₁ ++ (mid ++ l₂)).Perm ((l₁ ++ l₂) ++ mid) := by
    have h1 : (mid ++ l₂).Perm (l₂ ++ mid) := List.perm_append_comm
    have h2 := List.Perm.append_left l₁ h1
    have h3 : l₁ ++ (l₂ ++ mid) = (l₁ ++ l₂) ++ mid := (List.append_assoc _ _ _).symm
    exact h3 ▸ h2
  exact hperm.nodup_iff.mpr (nodup_append_ge h hmid hbound hge)

theorem nodup3 {a b c : Nat} (h : List.Nodup [a, b, c]) : a ≠ b ∧ a ≠ c ∧ b ≠ c := by
  simp [List.nodup_cons] at h
  exact ⟨h.1.1, h.1.2, h.2⟩

theorem subRec_inj_cp : ∀ {l : List SubRec}, (subPids l).Nodup →
    ∀ {r r' : SubRec}, r ∈ l → r' ∈ l → r.cp = r'.cp → r = r' := by
  intro l
  induction l with
  | nil => intro _ r r' h; simp at h
  | cons x t ih =>
    intro hnd r r' hr hr' heq
    rw [subPids_cons] at hnd
    simp only [List.nodup_cons] at hnd
    obtain ⟨hx1, hx2, hndt⟩ := hnd
    rcases List.mem_cons.mp hr with h1 | h1 <;> rcases List.mem_cons.mp hr' with h2 | h2
    · rw [h1, h2]
    · exfalso
      apply hx1
      apply List.mem_cons.mpr
      right
      rw [h1] at heq
      rw [heq]
      exact cp_mem_subPids h2
    · exfalso
      apply hx1
      apply List.mem_cons.mpr
      right
      rw [h2] at heq
      rw [← heq]
      exact cp_mem_subPids h1
    · exact ih hndt h1 h2 heq

theorem mem_map_inj {α β : Type} {l : List α} {f : α → β}
    (hnd : (l.map f).Nodup) {r r' : α} (hr : r ∈ l) (hr' : r' ∈ l)
    (heq : f r = f r') : r = r' := by
  induction l with
  | nil => simp at hr
  | cons x t ih =>
    simp only [List.map_cons, List.nodup_cons] at hnd
    rcases List.mem_cons.mp hr with h1 | h1 <;> rcases List.mem_cons.mp hr' with h2 | h2
    · rw [h1, h2]
    · exfalso
      apply hnd.1
      rw [h1] at heq
      rw [heq]
      exact List.mem_map_of_mem f h2
    · exfalso
      apply hnd.1
      rw [h2] at heq
      rw [← heq]
      exact List.mem_map_of_mem f h1
    · exact ih hnd.2 h1 h2

theorem cp_ne_nt : ∀ {l : List SubRec}, (subPids l).Nodup →
    ∀ {r r' : SubRec}, r ∈ l → r' ∈ l → r.cp ≠ r'.nt := by
  intro l
  induction l with
  | nil => intro _ r r' h; simp at h
  | cons x t ih =>
    intro hnd r r' hr hr'
    rw [subPids_cons] at hnd
    simp only [List.nodup_cons] at hnd
    obtain ⟨hx1, hx2, hndt⟩ := hnd
    rcases List.mem_cons.mp hr with h1 | h1 <;> rcases List.mem_cons.mp hr' with h2 | h2
    · rw [h1, h2]
      intro heq
      exact hx1 (List.mem_cons.mpr (Or.inl heq))
    · rw [h1]
      intro heq
      exact hx1 (List.mem_cons.mpr (Or.inr (heq ▸ nt_mem_subPids h2)))
    · rw [h2]
      intro heq
      exact hx2 (heq ▸ cp_mem_subPids h1)
    · exact ih hndt h1 h2

theorem chained_tail_mem {s : QState} : ∀ {p : Nat} {ws : List SubRec},
    Chained s p ws → s.tailP = p ∨ ∃ r ∈ ws, s.tailP = r.nt := by
  intro p ws
  induction ws generalizing p with
  | nil => intro hc; exact Or.inl hc.1
  | cons w t ih =>
    intro hc
    rcases ih hc.2 with h | ⟨r, hr, h⟩
    · exact Or.inr ⟨w, by simp, h⟩
    · exact Or.inr ⟨r, by simp [hr], h⟩

theorem stepMicro_empty {s : QState} (h : s.jobs = []) : stepMicro s = s := by
  simp [stepMicro, h]

theorem extSettle_nil {s : QState} (h : s.externals = []) (tok : Nat) (o : Outcome) :
    applyAct s (.extSettle tok o) = s := by
  simp [applyAct, h]

theorem serializeArg_undefItem (h : Heap) :
    serializeArg h (.data (.prim .undefP)) = .undefR := by
  have h1 : heapFuel h = (h.foldr (fun nd n => n + nodeCost nd) 2) * 2 + 1 := rfl
  simp [serializeArg, h1, readItem, pureOfPrim, encTree]

theorem enqueueFn_ok_pending_nil (s : QState) (args : ArgList) (it svc : JsArg)
    (enc : Option Json)
    (hargs : (args = .acons svc .anil ∧ it = .data (.prim .undefP)) ∨
      args = .acons it (.acons svc .anil))
    (htail : s.pstore s.tailP = .pend [])
    (hne : s.tailP ≠ s.nextP)
    (henc : serializeArg s.heap it = encToRes enc) :
    enqueueFn s args = (enqExtState s svc enc, s.nextP) := by
  rw [enqueueFn_ok_pending s args it svc enc [] hargs henc htail hne]
  simp [enqExtState, newSub, linkReaction]

theorem shapeCommon_enqExtend {s : QState} {done : List SubRec} {ph ph' : Ph}
    (hc : ShapeCommon s done ph) (htail : s.pstore s.tailP = .pend [])
    (svc : JsArg) (enc : Option Json)
    (hRecs : phRecs ph' = phRecs ph ++ [newSub s svc enc])
    (hExtra : phExtra ph' = phExtra ph) (hObs : phObs ph' = phObs ph) :
    ShapeCommon (enqExtState s svc enc) done ph' := by
  have hagree : ∀ q, q < s.nextP → q ≠ s.tailP →
      (enqExtState s svc enc).pstore q = s.pstore q := by
    intro q hq hqt
    simp only [enqExtState]
    rw [if_neg (by omega), if_neg hqt, if_neg (by omega)]
  refine ⟨?_, ?_, ?_, ?_, ?_, ?_, ?_, ?_, ?_⟩
  · show s.subs ++ [newSub s svc enc] = done ++ phRecs ph'
    rw [hRecs, hc.subsEq, List.append_assoc]
  · show (s.subs ++ [newSub s svc enc]).map (fun r => r.id) = List.range (s.nextSub + 1)
    rw [List.map_append, hc.idsEq, List.range_succ]
    rfl
  · show admitsOf (s.trace ++ [.admitted s.nextSub]) =
      (s.subs ++ [newSub s svc enc]).map (fun r => r.id)
    rw [admitsOf_append, List.map_append, hc.admitsEq]
    rfl
  · show obsOf (s.trace ++ [.admitted s.nextSub]) =
      altOf (done.map (fun r => r.id)) ++ phObs ph'
    rw [obsOf_append, hObs, hc.obsEq]
    simp [obsOf]
  · show (subPids (s.subs ++ [newSub s svc enc]) ++ phExtra ph').Nodup
    rw [subPids_append, hExtra, List.append_assoc]
    have : subPids [newSub s svc enc] = [s.nextP, s.nextP + 1] := by
      simp [subPids, newSub]
    rw [this]
    have base : (subPids s.subs ++ phExtra ph).Nodup := hc.pidsNodup
    refine nodup_insert_mid base hc.pidsLt _ (by simp) ?_
    intro x hx
    simp at hx
    omega
  · show ∀ p ∈ subPids (s.subs ++ [newSub s svc enc]) ++ phExtra ph',
      p < (enqExtState s svc enc).nextP
    intro p hp
    rw [subPids_append, hExtra] at hp
    show p < s.nextP + 2
    rcases List.mem_append.mp hp with hp1 | hp2
    · rcases List.mem_append.mp hp1 with hp3 | hp4
      · have := hc.pidsLt p (List.mem_append_left _ hp3)
        omega
      · simp [subPids, newSub] at hp4
        omega
    · have := hc.pidsLt p (List.mem_append_right _ hp2)
      omega
  · show s.nextP + 1 < s.nextP + 2
    omega
  · intro r hr
    obtain ⟨hb, h1, h2⟩ := hc.doneOk r hr
    have hrs : r ∈ s.subs := by
      rw [hc.subsEq]; exact List.mem_append_left _ hr
    have hnlt : r.nt < s.nextP := hc.pidsLt _ (List.mem_append_left _ (nt_mem_subPids hrs))
    have hclt : r.cp < s.nextP := hc.pidsLt _ (List.mem_append_left _ (cp_mem_subPids hrs))
    have hnne : r.nt ≠ s.tailP := by
      intro he
      rw [he, htail] at h1
      simp at h1
    have hcne : r.cp ≠ s.tailP := by
      obtain ⟨o, ho⟩ := h2
      intro he
      rw [he, htail] at ho
      simp at ho
    exact ⟨hb, (hagree _ hnlt hnne).trans h1, by rw [hagree _ hclt hcne]; exact h2⟩
  · intro r hr o hcp
    rcases List.mem_append.mp hr with hr1 | hr2
    · have hclt : r.cp < s.nextP := hc.pidsLt _ (List.mem_append_left _ (cp_mem_subPids hr1))
      by_cases hcne : r.cp = s.tailP
      · exfalso
        simp only [enqExtState] at hcp
        rw [if_neg (by omega), if_pos hcne] at hcp
        simp at hcp
      · rw [hagree _ hclt hcne] at hcp
        exact List.mem_append_left _ (hc.cpSettledEvt r hr1 o hcp)
    · exfalso
      simp at hr2
      rw [hr2] at hcp
      have hne2 : ¬ s.nextP = s.tailP := by have := hc.tailLt; omega
      simp [enqExtState, newSub, hne2] at hcp

theorem enqueueFn_ok_settledS (s : QState) (args : ArgList) (it svc : JsArg)
    (enc : Option Json) (o : Outcome)
    (hargs : (args = .acons svc .anil ∧ it = .data (.prim .undefP)) ∨
      args = .acons it (.acons svc .anil))
    (htail : s.pstore s.tailP = .settled o)
    (hne : s.tailP ≠ s.nextP)
    (henc : serializeArg s.heap it = encToRes enc) :
    enqueueFn s args = (enqExtStateS s svc enc o, s.nextP) := by
  rw [enqueueFn_ok_settled s args it svc enc o hargs henc htail hne]
  simp [enqExtStateS, newSub, linkReaction]

theorem mem_phRecs_subs {s : QState} {done : List SubRec} {ph : Ph}
    (hc : ShapeCommon s done ph) {r : SubRec} (hr : r ∈ phRecs ph) : r ∈ s.subs := by
  rw [hc.subsEq]; exact List.mem_append_right _ hr

theorem cp_lt {s : QState} {done : List SubRec} {ph : Ph}
    (hc : ShapeCommon s done ph) {r : SubRec} (hr : r ∈ s.subs) : r.cp < s.nextP :=
  hc.pidsLt _ (List.mem_append_left _ (cp_mem_subPids hr))

theorem nt_lt {s : QState} {done : List SubRec} {ph : Ph}
    (hc : ShapeCommon s done ph) {r : SubRec} (hr : r ∈ s.subs) : r.nt < s.nextP :=
  hc.pidsLt _ (List.mem_append_left _ (nt_mem_subPids hr))

theorem extra_lt {s : QState} {done : List SubRec} {ph : Ph}
    (hc : ShapeCommon s done ph) {p : Nat} (hp : p ∈ phExtra ph) : p < s.nextP :=
  hc.pidsLt _ (List.mem_append_right _ hp)

theorem subPid_ne_extra {s : QState} {done : List SubRec} {ph : Ph}
    (hc : ShapeCommon s done ph) {q p : Nat}
    (hq : q ∈ subPids s.subs) (hp : p ∈ phExtra ph) : q ≠ p :=
  (nodup_split hc.pidsNodup).2.2 q hq p hp

theorem subs_nodup {s : QState} {done : List SubRec} {ph : Ph}
    (hc : ShapeCommon s done ph) : (subPids s.subs).Nodup :=
  (nodup_split hc.pidsNodup).1

/-- The common part of the invariant survives a successful admission onto
a settled tail. -/
theorem shapeCommon_enqSettled {s : QState} {done : List SubRec} {ph ph' : Ph}
    (hc : ShapeCommon s done ph)
    (svc : JsArg) (enc : Option Json) (o : Outcome)
    (hRecs : phRecs ph' = phRecs ph ++ [newSub s svc enc])
    (hExtra : phExtra ph' = phExtra ph) (hObs : phObs ph' = phObs ph) :
    ShapeCommon (enqExtStateS s svc enc o) done ph' := by
  have hagree : ∀ q, q < s.nextP →
      (enqExtStateS s svc enc o).pstore q = s.pstore q := by
    intro q hq
    simp only [enqExtStateS]
    rw [if_neg (by omega), if_neg (by omega)]
  refine ⟨?_, ?_, ?_, ?_, ?_, ?_, ?_, ?_, ?_⟩
  · show s.subs ++ [newSub s svc enc] = done ++ phRecs ph'
    rw [hRecs, hc.subsEq, List.append_assoc]
  · show (s.subs ++ [newSub s svc enc]).map (fun r => r.id) = List.range (s.nextSub + 1)
    rw [List.map_append, hc.idsEq, List.range_succ]
    rfl
  · show admitsOf (s.trace ++ [.admitted s.nextSub]) =
      (s.subs ++ [newSub s svc enc]).map (fun r => r.id)
    rw [admitsOf_append, List.map_append, hc.admitsEq]
    rfl
  · show obsOf (s.trace ++ [.admitted s.nextSub]) =
      altOf (done.map (fun r => r.id)) ++ phObs ph'
    rw [obsOf_append, hObs, hc.obsEq]
    simp [obsOf]
  · show (subPids (s.subs ++ [newSub s svc enc]) ++ phExtra ph').Nodup
    rw [subPids_append, hExtra, List.append_assoc]
    have h2 : subPids [newSub s svc enc] = [s.nextP, s.nextP + 1] := by
      simp [subPids, newSub]
    rw [h2]
    refine nodup_insert_mid hc.pidsNodup hc.pidsLt _ (by simp) ?_
    intro x hx
    simp at hx
    omega
  · intro p hp
    simp only [enqExtStateS] at hp
    rw [subPids_append, hExtra] at hp
    show p < s.nextP + 2
    rcases List.mem_append.mp hp with hp1 | hp2
    · rcases List.mem_append.mp hp1 with hp3 | hp4
      · have := hc.pidsLt p (List.mem_append_left _ hp3)
        omega
      · simp [subPids, newSub] at hp4
        omega
    · have := hc.pidsLt p (List.mem_append_right _ hp2)
      omega
  · show s.nextP + 1 < s.nextP + 2
    omega
  · intro r hr
    obtain ⟨hb, h1, h2⟩ := hc.doneOk r hr
    have hrs : r ∈ s.subs := by
      rw [hc.subsEq]; exact List.mem_append_left _ hr
    refine ⟨hb, (hagree _ (nt_lt hc hrs)).trans h1, ?_⟩
    rw [hagree _ (cp_lt hc hrs)]
    exact h2
  · intro r hr o' hcp
    simp only [enqExtStateS] at hr
    rcases List.mem_append.mp hr with hr1 | hr2
    · rw [hagree _ (cp_lt hc hr1)] at hcp
      exact List.mem_append_left _ (hc.cpSettledEvt r hr1 o' hcp)
    · exfalso
      simp at hr2
      rw [hr2] at hcp
      simp [enqExtStateS, newSub] at hcp

/-- A successful admission preserves the invariant, whatever the phase. -/
theorem shapeAll_enq_ok {s : QState} {done : List SubRec} {ph : Ph}
    (h : ShapeAll s done ph) (args : ArgList) (it svc : JsArg) (enc : Option Json)
    (hargs : (args = .acons svc .anil ∧ it = .data (.prim .undefP)) ∨
      args = .acons it (.acons svc .anil))
    (henc : serializeArg s.heap it = encToRes enc) :
    Inv (enqueueFn s args).1 := by
  obtain ⟨hc, ho⟩ := h
  have htne : s.tailP ≠ s.nextP := by have := hc.tailLt; omega
  have htne1 : s.tailP ≠ s.nextP + 1 := by have := hc.tailLt; omega
  have hAgree : ∀ q, q < s.nextP → q ≠ s.tailP →
      (enqExtState s svc enc).pstore q = s.pstore q := by
    intro q hq hqt
    show (if q = s.nextP + 1 then _ else if q = s.tailP then _
      else if q = s.nextP then _ else s.pstore q) = s.pstore q
    rw [if_neg (by omega), if_neg hqt, if_neg (by omega)]
  have hAgreeS : ∀ (o : Outcome) q, q < s.nextP →
      (enqExtStateS s svc enc o).pstore q = s.pstore q := by
    intro o q hq
    show (if q = s.nextP + 1 then _ else if q = s.nextP then _ else s.pstore q) = s.pstore q
    rw [if_neg (by omega), if_neg (by omega)]
  have hEnd : (enqExtState s svc enc).pstore s.tailP =
      .pend [linkReaction (newSub s svc enc)] := by
    simp [enqExtState, htne1]
  have hNew1 : (enqExtState s svc enc).pstore (s.nextP + 1) = .pend [] := by
    simp [enqExtState]
  have hNew0 : (enqExtState s svc enc).pstore s.nextP = .pend [] := by
    simp [enqExtState, Ne.symm htne]
  have hNew1S : ∀ o, (enqExtStateS s svc enc o).pstore (s.nextP + 1) = .pend [] := by
    intro o
    simp [enqExtStateS]
  have hNew0S : ∀ o, (enqExtStateS s svc enc o).pstore s.nextP = .pend [] := by
    intro o
    simp [enqExtStateS]
  cases ph with
  | idle =>
    obtain ⟨h1, h2, h3⟩ := ho
    rw [enqueueFn_ok_settledS s args it svc enc (.fulfilled .undef) hargs h3 htne henc]
    show Inv (enqExtStateS s svc enc (.fulfilled .undef))
    refine ⟨done, .toStart (newSub s svc enc) [],
      shapeCommon_enqSettled hc svc enc _ (by simp [phRecs]) rfl rfl, ?_, ?_, ?_, ?_, ?_⟩
    · show s.jobs ++ _ = _
      rw [h1]
      rfl
    · show s.externals = []
      exact h2
    · exact ⟨rfl, hNew1S _⟩
    · exact hNew0S _
    · intro r hr
      simp at hr
  | poisonIdle dead =>
    obtain ⟨h1, h2, h3, h4, h5⟩ := ho
    rw [enqueueFn_ok_settledS s args it svc enc (.rejected .notAFunction) hargs h4 htne henc]
    show Inv (enqExtStateS s svc enc (.rejected .notAFunction))
    refine ⟨done, .poisonJob dead (newSub s svc enc) [],
      shapeCommon_enqSettled hc svc enc _ (by simp [phRecs]) rfl rfl,
      ?_, ?_, ?_, ?_, ?_, ?_, h5⟩
    · show s.jobs ++ _ = _
      rw [h1]
      rfl
    · show s.externals = []
      exact h2
    · intro r hr
      obtain ⟨d1, d2⟩ := h3 r hr
      have hrs : r ∈ s.subs := mem_phRecs_subs hc (by simp [phRecs, hr])
      exact ⟨(hAgreeS _ _ (cp_lt hc hrs)).trans d1, (hAgreeS _ _ (nt_lt hc hrs)).trans d2⟩
    · exact hNew0S _
    · intro r hr
      simp at hr
    · exact ⟨rfl, hNew1S _⟩
  | toStart w ws =>
    obtain ⟨h1, h2, h3, h4, h5⟩ := ho
    have hwmem : w ∈ s.subs := mem_phRecs_subs hc (by simp [phRecs])
    have hwsmem : ∀ r ∈ ws, r ∈ s.subs := fun r hr =>
      mem_phRecs_subs hc (by simp [phRecs, hr])
    have htailnt : ∃ rt ∈ s.subs, s.tailP = rt.nt := by
      rcases chained_tail_mem h3 with ht | ⟨r, hr, ht⟩
      · exact ⟨w, hwmem, ht⟩
      · exact ⟨r, hwsmem r hr, ht⟩
    have hPend : ∀ r, r ∈ s.subs → s.pstore r.cp = .pend [] →
        (enqExtState s svc enc).pstore r.cp = .pend [] := by
      intro r hr hp
      obtain ⟨rt, hrt, htp⟩ := htailnt
      rw [hAgree _ (cp_lt hc hr) (htp ▸ cp_ne_nt (subs_nodup hc) hr hrt)]
      exact hp
    rw [enqueueFn_ok_pending_nil s args it svc enc hargs (chained_tail_status h3) htne henc]
    show Inv (enqExtState s svc enc)
    refine ⟨done, .toStart w (ws ++ [newSub s svc enc]),
      shapeCommon_enqExtend hc (chained_tail_status h3) svc enc (by simp [phRecs]) rfl rfl,
      ?_, ?_, ?_, ?_, ?_⟩
    · show s.jobs = _
      exact h1
    · show s.externals = []
      exact h2
    · refine chained_extend h3 ?_ hEnd rfl hNew1
      intro q hq hqt
      rcases hq with hq | ⟨r, hr, hq⟩
      · exact hAgree q (hq ▸ nt_lt hc hwmem) hqt
      · exact hAgree q (hq ▸ nt_lt hc (hwsmem r hr)) hqt
    · exact hPend w hwmem h4
    · intro r hr
      rcases List.mem_append.mp hr with hr1 | hr2
      · exact hPend r (hwsmem r hr1) (h5 r hr1)
      · simp at hr2
        rw [hr2]
        exact hNew0
  | chainRun c ws op p2 p3 st =>
    obtain ⟨h1, h2, h3, h4⟩ := ho
    have hcmem : c ∈ s.subs := mem_phRecs_subs hc (by simp [phRecs])
    have hwsmem : ∀ r ∈ ws, r ∈ s.subs := fun r hr =>
      mem_phRecs_subs hc (by simp [phRecs, hr])
    have htailnt : ∃ rt ∈ s.subs, s.tailP = rt.nt := by
      rcases chained_tail_mem h2 with ht | ⟨r, hr, ht⟩
      · exact ⟨c, hcmem, ht⟩
      · exact ⟨r, hwsmem r hr, ht⟩
    have hPend : ∀ r, r ∈ s.subs → s.pstore r.cp = .pend [] →
        (enqExtState s svc enc).pstore r.cp = .pend [] := by
      intro r hr hp
      obtain ⟨rt, hrt, htp⟩ := htailnt
      rw [hAgree _ (cp_lt hc hr) (htp ▸ cp_ne_nt (subs_nodup hc) hr hrt)]
      exact hp
    have hCp : (enqExtState s svc enc).pstore c.cp = s.pstore c.cp := by
      obtain ⟨rt, hrt, htp⟩ := htailnt
      exact hAgree _ (cp_lt hc hcmem) (htp ▸ cp_ne_nt (subs_nodup hc) hcmem hrt)
    have hExtraSame : ∀ p', p' ∈ phExtra (.chainRun c ws op p2 p3 st) →
        (enqExtState s svc enc).pstore p' = s.pstore p' := by
      intro p' hp'
      obtain ⟨rt, hrt, htp⟩ := htailnt
      refine hAgree _ (extra_lt hc hp') ?_
      intro he
      refine subPid_ne_extra hc (nt_mem_subPids hrt) hp' ?_
      rw [← htp]
      exact he.symm
    have hOp : (enqExtState s svc enc).pstore op = s.pstore op :=
      hExtraSame op (by simp [phExtra])
    have hP2 : (enqExtState s svc enc).pstore p2 = s.pstore p2 :=
      hExtraSame p2 (by simp [phExtra])
    have hP3 : (enqExtState s svc enc).pstore p3 = s.pstore p3 :=
      hExtraSame p3 (by simp [phExtra])
    have hChain : Chained (enqExtState s svc enc) c.nt (ws ++ [newSub s svc enc]) := by
      refine chained_extend h2 ?_ hEnd rfl hNew1
      intro q hq hqt
      rcases hq with hq | ⟨r, hr, hq⟩
      · exact hAgree q (hq ▸ nt_lt hc hcmem) hqt
      · exact hAgree q (hq ▸ nt_lt hc (hwsmem r hr)) hqt
    have hWs : ∀ r ∈ ws ++ [newSub s svc enc], PendingSub (enqExtState s svc enc) r := by
      intro r hr
      rcases List.mem_append.mp hr with hr1 | hr2
      · exact hPend r (hwsmem r hr1) (h3 r hr1)
      · simp at hr2
        rw [hr2]
        exact hNew0
    rw [enqueueFn_ok_pending_nil s args it svc enc hargs (chained_tail_status h2) htne henc]
    show Inv (enqExtState s svc enc)
    refine ⟨done, .chainRun c (ws ++ [newSub s svc enc]) op p2 p3 st,
      shapeCommon_enqExtend hc (chained_tail_status h2) svc enc (by simp [phRecs]) rfl rfl,
      h1, hChain, hWs, ?_⟩
    cases st with
    | awaiting tok =>
      obtain ⟨g1, g2, g3, g4, g5, g6⟩ := h4
      exact ⟨hCp.trans g1, hOp.trans g2, hP2.trans g3, hP3.trans g4, g5, g6⟩
    | outJob o =>
      obtain ⟨g1, g2, g3, g4, g5, g6, g7⟩ := h4
      refine ⟨hCp.trans g1, hOp.trans g2, hP2.trans g3, hP3.trans g4, g5, g6, ?_⟩
      show _ ∈ s.trace ++ _
      exact List.mem_append_left _ g7
    | p2Job o =>
      obtain ⟨g1, g2, g3, g4, g5, g6⟩ := h4
      exact ⟨hCp.trans g1, hOp.trans g2, hP2.trans g3, hP3.trans g4, g5, g6⟩
    | p3Job o =>
      obtain ⟨g1, g2, g3, g4, g5, g6⟩ := h4
      exact ⟨hCp.trans g1, hOp.trans g2, hP2.trans g3, hP3.trans g4, g5, g6⟩
  | poisonJob dead k ws =>
    obtain ⟨h1, h2, h3, h4, h5, h6, h7⟩ := ho
    have hkmem : k ∈ s.subs := mem_phRecs_subs hc (by simp [phRecs])
    have hdmem : ∀ r ∈ dead, r ∈ s.subs := fun r hr =>
      mem_phRecs_subs hc (by simp [phRecs, hr])
    have hwsmem : ∀ r ∈ ws, r ∈ s.subs := fun r hr =>
      mem_phRecs_subs hc (by simp [phRecs, Or.inr (Or.inr hr)])
    have htailnt : ∃ rt ∈ s.subs, s.tailP = rt.nt := by
      rcases chained_tail_mem h6 with ht | ⟨r, hr, ht⟩
      · exact ⟨k, hkmem, ht⟩
      · exact ⟨r, hwsmem r hr, ht⟩
    have hPend : ∀ r, r ∈ s.subs → s.pstore r.cp = .pend [] →
        (enqExtState s svc enc).pstore r.cp = .pend [] := by
      intro r hr hp
      obtain ⟨rt, hrt, htp⟩ := htailnt
      rw [hAgree _ (cp_lt hc hr) (htp ▸ cp_ne_nt (subs_nodup hc) hr hrt)]
      exact hp
    rw [enqueueFn_ok_pending_nil s args it svc enc hargs (chained_tail_status h6) htne henc]
    show Inv (enqExtState s svc enc)
    refine ⟨done, .poisonJob dead k (ws ++ [newSub s svc enc]),
      shapeCommon_enqExtend hc (chained_tail_status h6) svc enc
        (by simp [phRecs]) rfl rfl,
      h1, ?_, ?_, hPend k hkmem h4, ?_, ?_, h7⟩
    · show s.externals = []
      exact h2
    · intro r hr
      obtain ⟨d1, d2⟩ := h3 r hr
      refine ⟨hPend r (hdmem r hr) d1, ?_⟩
      have hnlt : r.nt < s.nextP := nt_lt hc (hdmem r hr)
      have hnne : r.nt ≠ s.tailP := by
        intro he
        have hts := chained_tail_status h6
        rw [← he, d2] at hts
        simp at hts
      rw [hAgree _ hnlt hnne]
      exact d2
    · intro r hr
      rcases List.mem_append.mp hr with hr1 | hr2
      · exact hPend r (hwsmem r hr1) (h5 r hr1)
      · simp at hr2
        rw [hr2]
        exact hNew0
    · refine chained_extend h6 ?_ hEnd rfl hNew1
      intro q hq hqt
      rcases hq with hq | ⟨r, hr, hq⟩
      · exact hAgree q (hq ▸ nt_lt hc hkmem) hqt
      · exact hAgree q (hq ▸ nt_lt hc (hwsmem r hr)) hqt

/-- Any top-level `enqueue` call preserves the invariant. -/
theorem inv_enq {s : QState} (h : Inv s) (args : ArgList) :
    Inv (enqueueFn s args).1 := by
  obtain ⟨done, ph, hall⟩ := h
  have hfresh : ∀ e : Err,
      Inv ({ s with
        pstore := fun q => if q = s.nextP then .settled (.rejected e) else s.pstore q,
        nextP := s.nextP + 1 } : QState) := by
    intro e
    refine ⟨done, ph, shapeAll_congr hall rfl rfl rfl rfl rfl rfl (Nat.le_succ _) ?_⟩
    intro q hq
    show (if q = s.nextP then _ else s.pstore q) = s.pstore q
    rw [if_neg (by omega)]
  match args with
  | .anil =>
    rw [enqueueFn_badArity s _ (Or.inl rfl)]
    exact hfresh _
  | .acons a (.acons b (.acons c tl)) =>
    rw [enqueueFn_badArity s _ (Or.inr ⟨a, b, c, tl, rfl⟩)]
    exact hfresh _
  | .acons svc .anil =>
    exact shapeAll_enq_ok hall _ (.data (.prim .undefP)) svc none (Or.inl ⟨rfl, rfl⟩)
      (serializeArg_undefItem s.heap)
  | .acons it (.acons svc .anil) =>
    match hser : serializeArg s.heap it with
    | .thrown =>
      rw [enqueueFn_serThrown s _ it svc rfl hser]
      exact hfresh _
    | .undefR =>
      exact shapeAll_enq_ok hall _ it svc none (Or.inr rfl) hser
    | .ok j =>
      exact shapeAll_enq_ok hall _ it svc (some j) (Or.inr rfl) hser

/-! ### Rewrite rules for the promise operations at known statuses -/

theorem settleP_pend {s : QState} {p : Nat} {rs : List Reaction}
    (h : s.pstore p = .pend rs) (o : Outcome) :
    settleP s p o =
      { s with
          pstore := fun q => if q = p then .settled o else s.pstore q,
          jobs := s.jobs ++ rs.map (fun r => ⟨r, o⟩) } := by
  unfold settleP
  rw [h]

theorem settleP_settled {s : QState} {p : Nat} {o' : Outcome}
    (h : s.pstore p = .settled o') (o : Outcome) : settleP s p o = s := by
  unfold settleP
  rw [h]

theorem resolveTo_pend {s : QState} {q : Nat} {rs : List Reaction}
    (h : s.pstore q = .pend rs) (tgt : Nat) :
    resolveTo s tgt (.promV q) =
      { s with
          pstore := fun x => if x = q then .pend (rs ++ [⟨none, none, tgt⟩]) else s.pstore x } := by
  show (match s.pstore q with
    | PStatus.settled o => settleP s tgt o
    | PStatus.pend rs =>
      { s with
          pstore := fun x =>
            if x = q then .pend (rs ++ [(⟨none, none, tgt⟩ : Reaction)]) else s.pstore x }) = _
  rw [h]

theorem thenP_pend {s : QState} {p : Nat} {rs : List Reaction}
    (h : s.pstore p = .pend rs) (onF onR : Option Handler) :
    thenP s p onF onR =
      ({ s with
          nextP := s.nextP + 1,
          pstore := fun q =>
            if q = s.nextP then .pend []
            else if q = p then .pend (rs ++ [⟨onF, onR, s.nextP⟩])
            else s.pstore q }, s.nextP) := by
  unfold thenP
  rw [h]

theorem thenP_settled {s : QState} {p : Nat} {o : Outcome}
    (h : s.pstore p = .settled o) (onF onR : Option Handler) :
    thenP s p onF onR =
      ({ s with
          nextP := s.nextP + 1,
          pstore := fun q => if q = s.nextP then .pend [] else s.pstore q,
          jobs := s.jobs ++ [⟨⟨onF, onR, s.nextP⟩, o⟩] }, s.nextP) := by
  unfold thenP
  rw [h]

/-- Transfer of the common invariant across a microtask step that keeps
the submissions, the trace, the counters and the tail unchanged. -/
theorem shapeCommon_pstep {s s' : QState} {done : List SubRec} {ph ph' : Ph}
    (hc : ShapeCommon s done ph)
    (hsubs : s'.subs = s.subs) (htrace : s'.trace = s.trace)
    (hnextP : s'.nextP = s.nextP) (hnextSub : s'.nextSub = s.nextSub)
    (hRecs : phRecs ph' = phRecs ph)
    (hObs : phObs ph' = phObs ph)
    (hExtraN : (subPids s.subs ++ phExtra ph').Nodup)
    (hExtraLt : ∀ p ∈ phExtra ph', p < s.nextP)
    (htail : s'.tailP = s.tailP)
    (hdone : ∀ r ∈ done, s'.pstore r.nt = s.pstore r.nt ∧ s'.pstore r.cp = s.pstore r.cp)
    (hcpev : ∀ r ∈ s.subs, ∀ o, s'.pstore r.cp = .settled o →
      Event.taskSettled r.id o ∈ s'.trace) :
    ShapeCommon s' done ph' := by
  refine ⟨?_, ?_, ?_, ?_, ?_, ?_, ?_, ?_, ?_⟩
  · rw [hsubs, hRecs, hc.subsEq]
  · rw [hsubs, hnextSub, hc.idsEq]
  · rw [htrace, hsubs, hc.admitsEq]
  · rw [htrace, hObs, hc.obsEq]
  · rw [hsubs]; exact hExtraN
  · intro p hp
    rw [hsubs] at hp
    rw [hnextP]
    rcases List.mem_append.mp hp with hp1 | hp2
    · exact hc.pidsLt p (List.mem_append_left _ hp1)
    · exact hExtraLt p hp2
  · rw [htail, hnextP]; exact hc.tailLt
  · intro r hr
    obtain ⟨hb, h1, h2⟩ := hc.doneOk r hr
    obtain ⟨e1, e2⟩ := hdone r hr
    exact ⟨hb, e1.trans h1, by rw [e2]; exact h2⟩
  · intro r hr
    rw [hsubs] at hr
    exact hcpev r hr

theorem subs_recs_nodup {s : QState} {done : List SubRec} {ph : Ph}
    (hc : ShapeCommon s done ph) : s.subs.Nodup := by
  have h1 : (s.subs.map (fun r => r.id)).Nodup := by
    rw [hc.idsEq]
    exact List.nodup_range _
  exact List.Nodup.of_map _ h1

/-- The `.then(resolve, reject)` microtask: it settles the caller promise
with the outcome of the task and fulfills its own derived promise. -/
theorem inv_micro_outJob {s : QState} {done : List SubRec} {c : SubRec} {ws : List SubRec}
    {op p2 p3 : Nat} {o : Outcome}
    (h : ShapeAll s done (.chainRun c ws op p2 p3 (.outJob o))) :
    Inv (stepMicro s) := by
  obtain ⟨hc, hfn, hch, hws, hst⟩ := h
  obtain ⟨g1, g2, g3, g4, g5, g6, g7⟩ := hst
  have hcmem : c ∈ s.subs := mem_phRecs_subs hc (by simp [phRecs])
  have hwsmem : ∀ r ∈ ws, r ∈ s.subs := fun r hr =>
    mem_phRecs_subs hc (by simp [phRecs, hr])
  have hnd3 := nodup3 (nodup_split hc.pidsNodup).2.1
  have hcpop : c.cp ≠ op := subPid_ne_extra hc (cp_mem_subPids hcmem) (by simp [phExtra])
  have hcpp2 : c.cp ≠ p2 := subPid_ne_extra hc (cp_mem_subPids hcmem) (by simp [phExtra])
  have hcpp3 : c.cp ≠ p3 := subPid_ne_extra hc (cp_mem_subPids hcmem) (by simp [phExtra])
  have hcnotws : c ∉ ws := by
    have hnd := subs_recs_nodup hc
    rw [hc.subsEq] at hnd
    have := (List.nodup_append.mp hnd).2.1
    simp [phRecs, List.nodup_cons] at this
    exact this.1
  have hcnotdone : c ∉ done := by
    have hnd := subs_recs_nodup hc
    rw [hc.subsEq] at hnd
    intro hmem
    exact (List.nodup_append.mp hnd).2.2 hmem (by simp [phRecs])
  -- the state after the step
  have e1 : stepMicro s =
      settleP (settleP { s with jobs := [] } c.cp o) p2 (.fulfilled .undef) := by
    cases o with
    | fulfilled v =>
      unfold stepMicro
      rw [g5]
      rfl
    | rejected e =>
      unfold stepMicro
      rw [g5]
      rfl
  have hmid : (settleP { s with jobs := [] } c.cp o).pstore p2 =
      .pend [⟨none, none, p3⟩] := by
    rw [settleP_pend (show ({ s with jobs := ([] : List Job) } : QState).pstore c.cp =
      .pend [] from g1) o]
    show (if p2 = c.cp then _ else s.pstore p2) = _
    rw [if_neg (Ne.symm hcpp2)]
    exact g3
  have estep : stepMicro s =
      { s with
          pstore := fun x =>
            if x = p2 then PStatus.settled (.fulfilled .undef)
            else if x = c.cp then PStatus.settled o else s.pstore x,
          jobs := [⟨⟨none, none, p3⟩, .fulfilled .undef⟩] } := by
    rw [e1, settleP_pend hmid (.fulfilled .undef),
      settleP_pend (show ({ s with jobs := ([] : List Job) } : QState).pstore c.cp =
        .pend [] from g1) o]
    refine qstate_ext (funext fun q => rfl) rfl rfl ?_ rfl rfl rfl rfl rfl
    simp
  rw [estep]
  have hps : ∀ q, q ≠ c.cp → q ≠ p2 →
      (if q = p2 then PStatus.settled (.fulfilled .undef)
        else if q = c.cp then PStatus.settled o else s.pstore q) = s.pstore q := by
    intro q h1 h2
    rw [if_neg h2, if_neg h1]
  refine ⟨done, .chainRun c ws op p2 p3 (.p2Job o), ?_, ?_⟩
  · refine shapeCommon_pstep hc rfl rfl rfl rfl rfl rfl hc.pidsNodup
      (fun p hp => extra_lt hc hp) rfl ?_ ?_
    · intro r hr
      have hrs : r ∈ s.subs := by
        rw [hc.subsEq]; exact List.mem_append_left _ hr
      have hrc : r ≠ c := fun he => hcnotdone (he ▸ hr)
      constructor
      · exact hps r.nt (Ne.symm (cp_ne_nt (subs_nodup hc) hcmem hrs))
          (subPid_ne_extra hc (nt_mem_subPids hrs) (by simp [phExtra]))
      · refine hps r.cp ?_ (subPid_ne_extra hc (cp_mem_subPids hrs) (by simp [phExtra]))
        intro he
        exact hrc (subRec_inj_cp (subs_nodup hc) hrs hcmem he)
    · intro r hr o' hcp
      by_cases hrc : r = c
      · subst hrc
        have heq : PStatus.settled o = PStatus.settled o' := by
          rw [← hcp]
          show _ = (if r.cp = p2 then _ else if r.cp = r.cp then PStatus.settled o
            else s.pstore r.cp)
          rw [if_neg hcpp2, if_pos rfl]
        cases heq
        exact g7
      · have hne : r.cp ≠ c.cp := fun he =>
          hrc (subRec_inj_cp (subs_nodup hc) hr hcmem he)
        have hcp2 : (if r.cp = p2 then PStatus.settled (.fulfilled .undef)
            else if r.cp = c.cp then PStatus.settled o else s.pstore r.cp) =
            PStatus.settled o' := hcp
        rw [hps r.cp hne
          (subPid_ne_extra hc (cp_mem_subPids hr) (by simp [phExtra]))] at hcp2
        show Event.taskSettled r.id o' ∈ s.trace
        exact hc.cpSettledEvt r hr o' hcp2
  · refine ⟨hfn, ?_, ?_, ?_, ?_, ?_, ?_, ?_, ?_⟩
    · refine chained_congr hch rfl ?_
      intro q hq
      rcases hq with hq | ⟨r, hr, hq⟩
      · subst hq
        exact hps c.nt (Ne.symm (cp_ne_nt (subs_nodup hc) hcmem hcmem))
          (subPid_ne_extra hc (nt_mem_subPids hcmem) (by simp [phExtra]))
      · subst hq
        exact hps r.nt (Ne.symm (cp_ne_nt (subs_nodup hc) hcmem (hwsmem r hr)))
          (subPid_ne_extra hc (nt_mem_subPids (hwsmem r hr)) (by simp [phExtra]))
    · intro r hr
      have hrs := hwsmem r hr
      have hrc : r ≠ c := fun he => hcnotws (he ▸ hr)
      have he1 := hps r.cp (fun he => hrc (subRec_inj_cp (subs_nodup hc) hrs hcmem he))
        (subPid_ne_extra hc (cp_mem_subPids hrs) (by simp [phExtra]))
      exact he1.trans (hws r hr)
    · show (if c.cp = p2 then _ else if c.cp = c.cp then PStatus.settled o else _) = _
      rw [if_neg hcpp2, if_pos rfl]
    · show (if op = p2 then _ else if op = c.cp then _ else s.pstore op) = _
      rw [if_neg hnd3.1, if_neg (Ne.symm hcpop)]
      exact g2
    · show (if p2 = p2 then _ else _) = _
      rw [if_pos rfl]
    · show (if p3 = p2 then _ else if p3 = c.cp then _ else s.pstore p3) = _
      rw [if_neg (Ne.symm hnd3.2.2), if_neg (Ne.symm hcpp3)]
      exact g4
    · rfl
    · exact g6

theorem subRec_inj_nt : ∀ {l : List SubRec}, (subPids l).Nodup →
    ∀ {r r' : SubRec}, r ∈ l → r' ∈ l → r.nt = r'.nt → r = r' := by
  intro l
  induction l with
  | nil => intro _ r r' h; simp at h
  | cons x t ih =>
    intro hnd r r' hr hr' heq
    rw [subPids_cons] at hnd
    simp only [List.nodup_cons] at hnd
    obtain ⟨hx1, hx2, hndt⟩ := hnd
    rcases List.mem_cons.mp hr with h1 | h1 <;> rcases List.mem_cons.mp hr' with h2 | h2
    · rw [h1, h2]
    · exfalso
      apply hx2
      rw [h1] at heq
      rw [heq]
      exact nt_mem_subPids h2
    · exfalso
      apply hx2
      rw [h2] at heq
      rw [← heq]
      exact nt_mem_subPids h1
    · exact ih hndt h1 h2 heq

/-- The `.finally` passthrough microtask: it fulfills the last derived
link before the internal chain link. -/
theorem inv_micro_p2Job {s : QState} {done : List SubRec} {c : SubRec} {ws : List SubRec}
    {op p2 p3 : Nat} {o : Outcome}
    (h : ShapeAll s done (.chainRun c ws op p2 p3 (.p2Job o))) :
    Inv (stepMicro s) := by
  obtain ⟨hc, hfn, hch, hws, hst⟩ := h
  obtain ⟨g1, g2, g3, g4, g5, g6⟩ := hst
  have hcmem : c ∈ s.subs := mem_phRecs_subs hc (by simp [phRecs])
  have hwsmem : ∀ r ∈ ws, r ∈ s.subs := fun r hr =>
    mem_phRecs_subs hc (by simp [phRecs, hr])
  have hnd3 := nodup3 (nodup_split hc.pidsNodup).2.1
  have hcpp3 : c.cp ≠ p3 := subPid_ne_extra hc (cp_mem_subPids hcmem) (by simp [phExtra])
  have estep : stepMicro s =
      { s with
          pstore := fun x => if x = p3 then PStatus.settled (.fulfilled .undef) else s.pstore x,
          jobs := [⟨⟨none, none, c.nt⟩, .fulfilled .undef⟩] } := by
    have e1 : stepMicro s = settleP { s with jobs := [] } p3 (.fulfilled .undef) := by
      unfold stepMicro
      rw [g5]
      rfl
    rw [e1, settleP_pend (show ({ s with jobs := ([] : List Job) } : QState).pstore p3 =
      .pend [⟨none, none, c.nt⟩] from g4) (.fulfilled .undef)]
    refine qstate_ext (funext fun q => rfl) rfl rfl ?_ rfl rfl rfl rfl rfl
    simp
  rw [estep]
  have hps : ∀ q, q ≠ p3 →
      (if q = p3 then PStatus.settled (.fulfilled .undef) else s.pstore q) = s.pstore q := by
    intro q h1
    rw [if_neg h1]
  refine ⟨done, .chainRun c ws op p2 p3 (.p3Job o), ?_, ?_⟩
  · refine shapeCommon_pstep hc rfl rfl rfl rfl rfl rfl hc.pidsNodup
      (fun p hp => extra_lt hc hp) rfl ?_ ?_
    · intro r hr
      have hrs : r ∈ s.subs := by
        rw [hc.subsEq]; exact List.mem_append_left _ hr
      exact ⟨hps r.nt (subPid_ne_extra hc (nt_mem_subPids hrs) (by simp [phExtra])),
        hps r.cp (subPid_ne_extra hc (cp_mem_subPids hrs) (by simp [phExtra]))⟩
    · intro r hr o' hcp
      have hcp2 : (if r.cp = p3 then PStatus.settled (.fulfilled .undef)
          else s.pstore r.cp) = PStatus.settled o' := hcp
      rw [hps r.cp (subPid_ne_extra hc (cp_mem_subPids hr) (by simp [phExtra]))] at hcp2
      show Event.taskSettled r.id o' ∈ s.trace
      exact hc.cpSettledEvt r hr o' hcp2
  · refine ⟨hfn, ?_, ?_, ?_, ?_, ?_, ?_, ?_, ?_⟩
    · refine chained_congr hch rfl ?_
      intro q hq
      rcases hq with hq | ⟨r, hr, hq⟩
      · subst hq
        exact hps c.nt (subPid_ne_extra hc (nt_mem_subPids hcmem) (by simp [phExtra]))
      · subst hq
        exact hps r.nt (subPid_ne_extra hc (nt_mem_subPids (hwsmem r hr)) (by simp [phExtra]))
    · intro r hr
      exact (hps r.cp (subPid_ne_extra hc (cp_mem_subPids (hwsmem r hr))
        (by simp [phExtra]))).trans (hws r hr)
    · show (if c.cp = p3 then _ else s.pstore c.cp) = _
      rw [if_neg hcpp3]
      exact g1
    · show (if op = p3 then _ else s.pstore op) = _
      rw [if_neg hnd3.2.1]
      exact g2
    · show (if p2 = p3 then _ else s.pstore p2) = _
      rw [if_neg hnd3.2.2]
      exact g3
    · show (if p3 = p3 then _ else _) = _
      rw [if_pos rfl]
    · rfl
    · exact g6

/-- The microtask that settles the internal chain link: the submission is
complete and the next chain reaction (if any) is scheduled. -/
theorem inv_micro_p3Job {s : QState} {done : List SubRec} {c : SubRec} {ws : List SubRec}
    {op p2 p3 : Nat} {o : Outcome}
    (h : ShapeAll s done (.chainRun c ws op p2 p3 (.p3Job o))) :
    Inv (stepMicro s) := by
  obtain ⟨hc, hfn, hch, hws, hst⟩ := h
  obtain ⟨g1, g2, g3, g4, g5, g6⟩ := hst
  have hcmem : c ∈ s.subs := mem_phRecs_subs hc (by simp [phRecs])
  have hwsmem : ∀ r ∈ ws, r ∈ s.subs := fun r hr =>
    mem_phRecs_subs hc (by simp [phRecs, hr])
  have hcnotws : c ∉ ws := by
    have hnd := subs_recs_nodup hc
    rw [hc.subsEq] at hnd
    have := (List.nodup_append.mp hnd).2.1
    simp [phRecs, List.nodup_cons] at this
    exact this.1
  have hcnotdone : c ∉ done := by
    have hnd := subs_recs_nodup hc
    rw [hc.subsEq] at hnd
    intro hmem
    exact (List.nodup_append.mp hnd).2.2 hmem (by simp [phRecs])
  have hNodup2 : (subPids s.subs ++ phExtra Ph.idle).Nodup := by
    simp only [phExtra, List.append_nil]
    exact subs_nodup hc
  have hObsNew : obsOf s.trace =
      altOf ((done ++ [c]).map (fun r => r.id)) ++ ([] : List OEv) := by
    rw [List.map_append, altOf_append, hc.obsEq]
    simp [altOf, phObs]
  have hsubsNew : s.subs = (done ++ [c]) ++ ws := by
    rw [hc.subsEq]
    simp [phRecs]
  have hidsNodup : (s.subs.map (fun r => r.id)).Nodup := by
    rw [hc.idsEq]; exact List.nodup_range _
  have hcommon : ∀ (s' : QState), s'.subs = s.subs → s'.trace = s.trace →
      s'.nextP = s.nextP → s'.nextSub = s.nextSub → s'.tailP = s.tailP →
      (∀ q, q ≠ c.nt → s'.pstore q = s.pstore q) →
      s'.pstore c.nt = .settled (.fulfilled .undef) →
      ∀ (ph' : Ph), phRecs ph' = ws → phExtra ph' = [] → phObs ph' = [] →
      ShapeCommon s' (done ++ [c]) ph' := by
    intro s' e1 e2 e3 e4 e5 eps ent ph' r1 r2 r3
    refine ⟨?_, ?_, ?_, ?_, ?_, ?_, ?_, ?_, ?_⟩
    · rw [e1, r1, hsubsNew]
    · rw [e1, e4, hc.idsEq]
    · rw [e2, e1, hc.admitsEq]
    · rw [e2, r3, hObsNew]
    · rw [e1, r2, List.append_nil]
      exact subs_nodup hc
    · intro p hp
      rw [e1, r2, List.append_nil] at hp
      rw [e3]
      exact hc.pidsLt p (List.mem_append_left _ hp)
    · rw [e5, e3]; exact hc.tailLt
    · intro r hr
      rcases List.mem_append.mp hr with hr1 | hr2
      · obtain ⟨hb, d1, d2⟩ := hc.doneOk r hr1
        have hrs : r ∈ s.subs := by
          rw [hc.subsEq]; exact List.mem_append_left _ hr1
        have hrc : r ≠ c := fun he => hcnotdone (he ▸ hr1)
        refine ⟨hb, ?_, ?_⟩
        · rw [eps r.nt (fun he => hrc (subRec_inj_nt (subs_nodup hc) hrs hcmem he))]
          exact d1
        · rw [eps r.cp (cp_ne_nt (subs_nodup hc) hrs hcmem)]
          exact d2
      · simp at hr2
        subst hr2
        refine ⟨hfn, ent, o, ?_⟩
        rw [eps r.cp (cp_ne_nt (subs_nodup hc) hcmem hcmem)]
        exact g1
    · intro r hr o' hcp
      rw [e1] at hr
      rw [eps r.cp (cp_ne_nt (subs_nodup hc) hr hcmem)] at hcp
      rw [e2]
      exact hc.cpSettledEvt r hr o' hcp
  cases hwseq : ws with
  | nil =>
    rw [hwseq] at hch
    obtain ⟨htp, hnt⟩ := hch
    have estep : stepMicro s =
        { s with
            pstore := fun x =>
              if x = c.nt then PStatus.settled (.fulfilled .undef) else s.pstore x,
            jobs := [] } := by
      have e1 : stepMicro s = settleP { s with jobs := [] } c.nt (.fulfilled .undef) := by
        unfold stepMicro
        rw [g5]
        rfl
      rw [e1, settleP_pend (show ({ s with jobs := ([] : List Job) } : QState).pstore c.nt =
        .pend [] from hnt) (.fulfilled .undef)]
      refine qstate_ext (funext fun q => rfl) rfl rfl ?_ rfl rfl rfl rfl rfl
      simp
    rw [estep]
    refine ⟨done ++ [c], .idle, ?_, ?_, ?_, ?_⟩
    · refine hcommon _ ?_ ?_ ?_ ?_ ?_ ?_ ?_ Ph.idle (by rw [hwseq]; rfl) rfl rfl
      · rfl
      · rfl
      · rfl
      · rfl
      · rfl
      · intro q hq
        show (if q = c.nt then _ else s.pstore q) = _
        rw [if_neg hq]
      · show (if c.nt = c.nt then _ else _) = _
        rw [if_pos rfl]
    · rfl
    · exact g6
    · show (if s.tailP = c.nt then _ else _) = _
      rw [if_pos htp]
  | cons k rest =>
    rw [hwseq] at hch hws hwsmem hcnotws
    obtain ⟨hk, hch2⟩ := hch
    have hkmem : k ∈ s.subs := hwsmem k (by simp)
    have hkc : k ≠ c := fun he => hcnotws (he ▸ List.mem_cons_self k rest)
    have estep : stepMicro s =
        { s with
            pstore := fun x =>
              if x = c.nt then PStatus.settled (.fulfilled .undef) else s.pstore x,
            jobs := [⟨linkReaction k, .fulfilled .undef⟩] } := by
      have e1 : stepMicro s = settleP { s with jobs := [] } c.nt (.fulfilled .undef) := by
        unfold stepMicro
        rw [g5]
        rfl
      rw [e1, settleP_pend (show ({ s with jobs := ([] : List Job) } : QState).pstore c.nt =
        .pend [linkReaction k] from hk) (.fulfilled .undef)]
      refine qstate_ext (funext fun q => rfl) rfl rfl ?_ rfl rfl rfl rfl rfl
      simp
    rw [estep]
    have hps : ∀ q, q ≠ c.nt →
        (if q = c.nt then PStatus.settled (.fulfilled .undef) else s.pstore q) =
          s.pstore q := by
      intro q h1
      rw [if_neg h1]
    refine ⟨done ++ [c], .toStart k rest, ?_, ?_, ?_, ?_, ?_, ?_⟩
    · refine hcommon _ ?_ ?_ ?_ ?_ ?_ ?_ ?_ (Ph.toStart k rest) (by rw [hwseq]; rfl) rfl rfl
      · rfl
      · rfl
      · rfl
      · rfl
      · rfl
      · intro q hq
        exact hps q hq
      · show (if c.nt = c.nt then _ else _) = _
        rw [if_pos rfl]
    · rfl
    · exact g6
    · refine chained_congr hch2 rfl ?_
      intro q hq
      rcases hq with hq | ⟨r, hr, hq⟩
      · subst hq
        refine hps k.nt ?_
        intro he
        exact hkc (subRec_inj_nt (subs_nodup hc) hkmem hcmem he)
      · subst hq
        have hrmem : r ∈ s.subs := hwsmem r (by simp [hr])
        refine hps r.nt ?_
        intro he
        have : r = c := subRec_inj_nt (subs_nodup hc) hrmem hcmem he
        exact hcnotws (this ▸ List.mem_cons.mpr (Or.inr hr))
    · exact (hps k.cp (cp_ne_nt (subs_nodup hc) hkmem hcmem)).trans (hws k (by simp))
    · intro r hr
      have hrmem : r ∈ s.subs := hwsmem r (by simp [hr])
      exact (hps r.cp (cp_ne_nt (subs_nodup hc) hrmem hcmem)).trans
        (hws r (by simp [hr]))

/-- The rejection-propagation microtask of a poisoned chain: the next
chain reaction has no rejection handler, so the rejection moves one link
further without invoking the service. -/
theorem inv_micro_poisonJob {s : QState} {done dead : List SubRec} {k : SubRec}
    {ws : List SubRec}
    (h : ShapeAll s done (.poisonJob dead k ws)) :
    Inv (stepMicro s) := by
  obtain ⟨hc, h1, h2, h3, h4, h5, h6, h7⟩ := h
  have hkmem : k ∈ s.subs := mem_phRecs_subs hc (by simp [phRecs])
  have hdmem : ∀ r ∈ dead, r ∈ s.subs := fun r hr =>
    mem_phRecs_subs hc (by simp [phRecs, hr])
  have hwsmem : ∀ r ∈ ws, r ∈ s.subs := fun r hr =>
    mem_phRecs_subs hc (by simp [phRecs, Or.inr (Or.inr hr)])
  have hknotdead : k ∉ dead := by
    have hnd := subs_recs_nodup hc
    rw [hc.subsEq] at hnd
    have h8 := (List.nodup_append.mp hnd).2.1
    simp only [phRecs] at h8
    have := (List.nodup_append.mp h8).2.2
    intro hmem
    exact this hmem (by simp)
  have hknotws : k ∉ ws := by
    have hnd := subs_recs_nodup hc
    rw [hc.subsEq] at hnd
    have h8 := (List.nodup_append.mp hnd).2.1
    simp only [phRecs] at h8
    have := (List.nodup_append.mp h8).2.1
    rw [List.nodup_cons] at this
    exact this.1
  have hps : ∀ q, q ≠ k.nt →
      (if q = k.nt then PStatus.settled (.rejected .notAFunction) else s.pstore q) =
        s.pstore q := by
    intro q hq
    rw [if_neg hq]
  have hdead2 : ∀ (s' : QState), (∀ q, q ≠ k.nt → s'.pstore q = s.pstore q) →
      s'.pstore k.nt = .settled (.rejected .notAFunction) →
      ∀ r ∈ dead ++ [k], DeadSub s' r := by
    intro s' eps ent r hr
    rcases List.mem_append.mp hr with hr1 | hr2
    · obtain ⟨d1, d2⟩ := h3 r hr1
      have hrs := hdmem r hr1
      have hrk : r ≠ k := fun he => hknotdead (he ▸ hr1)
      refine ⟨?_, ?_⟩
      · rw [eps r.cp (cp_ne_nt (subs_nodup hc) hrs hkmem)]
        exact d1
      · rw [eps r.nt (fun he => hrk (subRec_inj_nt (subs_nodup hc) hrs hkmem he))]
        exact d2
    · simp at hr2
      subst hr2
      refine ⟨?_, ent⟩
      rw [eps r.cp (cp_ne_nt (subs_nodup hc) hkmem hkmem)]
      exact h4
  have hbad2 : ∃ rb ∈ dead ++ [k], ∀ b, rb.svc ≠ .func b := by
    obtain ⟨rb, hrb, hb⟩ := h7
    exact ⟨rb, List.mem_append_left _ hrb, hb⟩
  have hcommon : ∀ (s' : QState), s'.subs = s.subs → s'.trace = s.trace →
      s'.nextP = s.nextP → s'.nextSub = s.nextSub → s'.tailP = s.tailP →
      (∀ q, q ≠ k.nt → s'.pstore q = s.pstore q) →
      ∀ (ph' : Ph), phRecs ph' = dead ++ [k] ++ ws → phExtra ph' = [] → phObs ph' = [] →
      ShapeCommon s' done ph' := by
    intro s' e1 e2 e3 e4 e5 eps ph' r1 r2 r3
    refine ⟨?_, ?_, ?_, ?_, ?_, ?_, ?_, ?_, ?_⟩
    · rw [e1, r1, hc.subsEq]
      simp [phRecs]
    · rw [e1, e4, hc.idsEq]
    · rw [e2, e1, hc.admitsEq]
    · rw [e2, r3, hc.obsEq]
      simp [phObs]
    · rw [e1, r2, List.append_nil]
      exact subs_nodup hc
    · intro p hp
      rw [e1, r2, List.append_nil] at hp
      rw [e3]
      exact hc.pidsLt p (List.mem_append_left _ hp)
    · rw [e5, e3]; exact hc.tailLt
    · intro r hr
      obtain ⟨hb, d1, d2⟩ := hc.doneOk r hr
      have hrs : r ∈ s.subs := by
        rw [hc.subsEq]; exact List.mem_append_left _ hr
      have hrk : r ≠ k := by
        intro he
        have hnd := subs_recs_nodup hc
        rw [hc.subsEq] at hnd
        exact (List.nodup_append.mp hnd).2.2 hr (by simp [phRecs, he.symm ▸ hr]; simp [← he])
      refine ⟨hb, ?_, ?_⟩
      · rw [eps r.nt (fun he => hrk (subRec_inj_nt (subs_nodup hc) hrs hkmem he))]
        exact d1
      · rw [eps r.cp (cp_ne_nt (subs_nodup hc) hrs hkmem)]
        exact d2
    · intro r hr o' hcp
      rw [e1] at hr
      rw [eps r.cp (cp_ne_nt (subs_nodup hc) hr hkmem)] at hcp
      rw [e2]
      exact hc.cpSettledEvt r hr o' hcp
  cases hwseq : ws with
  | nil =>
    rw [hwseq] at h6
    obtain ⟨htp, hnt⟩ := h6
    have estep : stepMicro s =
        { s with
            pstore := fun x =>
              if x = k.nt then PStatus.settled (.rejected .notAFunction) else s.pstore x,
            jobs := [] } := by
      have e1 : stepMicro s =
          settleP { s with jobs := [] } k.nt (.rejected .notAFunction) := by
        unfold stepMicro
        rw [h1]
        rfl
      rw [e1, settleP_pend (show ({ s with jobs := ([] : List Job) } : QState).pstore k.nt =
        .pend [] from hnt) (.rejected .notAFunction)]
      refine qstate_ext (funext fun q => rfl) rfl rfl ?_ rfl rfl rfl rfl rfl
      simp
    rw [estep]
    refine ⟨done, .poisonIdle (dead ++ [k]), ?_, ?_, ?_, ?_, ?_, ?_⟩
    · refine hcommon _ ?_ ?_ ?_ ?_ ?_ ?_ (Ph.poisonIdle (dead ++ [k]))
        (by rw [hwseq]; simp [phRecs]) rfl rfl
      · rfl
      · rfl
      · rfl
      · rfl
      · rfl
      · intro q hq
        exact hps q hq
    · rfl
    · exact h2
    · exact hdead2 _ (fun q hq => hps q hq) (by simp)
    · show (if s.tailP = k.nt then _ else _) = _
      rw [if_pos htp]
    · exact hbad2
  | cons k2 rest =>
    rw [hwseq] at h6 h5 hwsmem hknotws
    obtain ⟨hk2, hch2⟩ := h6
    have hk2mem : k2 ∈ s.subs := hwsmem k2 (by simp)
    have hk2k : k2 ≠ k := fun he => hknotws (he ▸ List.mem_cons_self k2 rest)
    have estep : stepMicro s =
        { s with
            pstore := fun x =>
              if x = k.nt then PStatus.settled (.rejected .notAFunction) else s.pstore x,
            jobs := [⟨linkReaction k2, .rejected .notAFunction⟩] } := by
      have e1 : stepMicro s =
          settleP { s with jobs := [] } k.nt (.rejected .notAFunction) := by
        unfold stepMicro
        rw [h1]
        rfl
      rw [e1, settleP_pend (show ({ s with jobs := ([] : List Job) } : QState).pstore k.nt =
        .pend [linkReaction k2] from hk2) (.rejected .notAFunction)]
      refine qstate_ext (funext fun q => rfl) rfl rfl ?_ rfl rfl rfl rfl rfl
      simp
    rw [estep]
    refine ⟨done, .poisonJob (dead ++ [k]) k2 rest, ?_, ?_, ?_, ?_, ?_, ?_, ?_, ?_⟩
    · refine hcommon _ ?_ ?_ ?_ ?_ ?_ ?_ (Ph.poisonJob (dead ++ [k]) k2 rest)
        (by rw [hwseq]; simp [phRecs]) rfl rfl
      · rfl
      · rfl
      · rfl
      · rfl
      · rfl
      · intro q hq
        exact hps q hq
    · rfl
    · exact h2
    · exact hdead2 _ (fun q hq => hps q hq) (by simp)
    · exact (hps k2.cp (cp_ne_nt (subs_nodup hc) hk2mem hkmem)).trans (h5 k2 (by simp))
    · intro r hr
      have hrmem : r ∈ s.subs := hwsmem r (by simp [hr])
      exact (hps r.cp (cp_ne_nt (subs_nodup hc) hrmem hkmem)).trans (h5 r (by simp [hr]))
    · refine chained_congr hch2 rfl ?_
      intro q hq
      rcases hq with hq | ⟨r, hr, hq⟩
      · subst hq
        refine hps k2.nt ?_
        intro he
        exact hk2k (subRec_inj_nt (subs_nodup hc) hk2mem hkmem he)
      · subst hq
        have hrmem : r ∈ s.subs := hwsmem r (by simp [hr])
        refine hps r.nt ?_
        intro he
        have heq : r = k := subRec_inj_nt (subs_nodup hc) hrmem hkmem he
        exact hknotws (heq ▸ List.mem_cons.mpr (Or.inr hr))
    · exact hbad2

theorem midFinish {sb : QState} {done : List SubRec} {w : SubRec} {ws : List SubRec}
    {op : Nat} {ost : Option Outcome}
    (m : MidState sb done w ws op ost) :
    Inv (tailCall sb w op) := by
  have hwmem : w ∈ sb.subs := by
    rw [m.subsEq]; exact List.mem_append_right _ (by simp)
  have hwsmem : ∀ r ∈ ws, r ∈ sb.subs := fun r hr => by
    rw [m.subsEq]; exact List.mem_append_right _ (by simp [hr])
  have hdonemem : ∀ r ∈ done, r ∈ sb.subs := fun r hr => by
    rw [m.subsEq]; exact List.mem_append_left _ hr
  have hsubsnodup : (subPids sb.subs).Nodup := m.pidsNodup
  have hopne : ∀ q ∈ subPids sb.subs, q ≠ op := fun q hq he => m.opFresh (he ▸ hq)
  -- common pieces of the rebuilt invariant
  have hcommon : ∀ (s' : QState) (st : RunSt),
      s'.subs = sb.subs → s'.trace = sb.trace → s'.nextP = sb.nextP + 2 →
      s'.nextSub = sb.nextSub → s'.tailP = sb.tailP →
      (∀ q, q < sb.nextP → q ≠ op → s'.pstore q = sb.pstore q) →
      phObs (.chainRun w ws op sb.nextP (sb.nextP + 1) st) =
        OEv.inv w.id :: (match ost with | some _ => [OEv.stl w.id] | none => []) →
      ShapeCommon s' done (.chainRun w ws op sb.nextP (sb.nextP + 1) st) := by
    intro s' st e1 e2 e3 e4 e5 eps eobs
    refine ⟨?_, ?_, ?_, ?_, ?_, ?_, ?_, ?_, ?_⟩
    · rw [e1, m.subsEq]; rfl
    · rw [e1, e4, m.idsEq]
    · rw [e2, e1, m.admitsEq]
    · rw [e2, eobs, m.obsEq]
      cases ost <;> rfl
    · rw [e1]
      show (subPids sb.subs ++ [op, sb.nextP, sb.nextP + 1]).Nodup
      refine List.nodup_append.mpr ⟨hsubsnodup, ?_, ?_⟩
      · have h1 : op ≠ sb.nextP := by have := m.opLt; omega
        have h2 : op ≠ sb.nextP + 1 := by have := m.opLt; omega
        simp [List.nodup_cons, h1, h2]
      · intro a ha hb
        simp at hb
        rcases hb with hb | hb | hb
        · exact hopne a ha hb
        · have := m.pidsLt a ha; omega
        · have := m.pidsLt a ha; omega
    · intro p hp
      rw [e1] at hp
      rw [e3]
      rcases List.mem_append.mp hp with hp1 | hp2
      · have := m.pidsLt p hp1; omega
      · show p < sb.nextP + 2
        simp [phExtra] at hp2
        rcases hp2 with hp2 | hp2 | hp2
        · subst hp2; have := m.opLt; omega
        · omega
        · omega
    · rw [e5, e3]
      have := m.tailLt
      omega
    · intro r hr
      obtain ⟨hb, d1, d2⟩ := m.doneOk r hr
      have hrs := hdonemem r hr
      refine ⟨hb, ?_, ?_⟩
      · rw [eps r.nt (m.pidsLt _ (nt_mem_subPids hrs)) (hopne _ (nt_mem_subPids hrs))]
        exact d1
      · rw [eps r.cp (m.pidsLt _ (cp_mem_subPids hrs)) (hopne _ (cp_mem_subPids hrs))]
        exact d2
    · intro r hr o' hcp
      rw [e1] at hr
      rw [eps r.cp (m.pidsLt _ (cp_mem_subPids hr)) (hopne _ (cp_mem_subPids hr))] at hcp
      rw [e2]
      exact m.cpSettledEvt r hr o' hcp
  have hchain2 : ∀ (s' : QState),
      s'.tailP = sb.tailP →
      (∀ q, q < sb.nextP → q ≠ op → s'.pstore q = sb.pstore q) →
      Chained s' w.nt ws := by
    intro s' e5 eps
    refine chained_congr m.chain e5 ?_
    intro q hq
    rcases hq with hq | ⟨r, hr, hq⟩
    · subst hq
      exact eps _ (m.pidsLt _ (nt_mem_subPids hwmem)) (hopne _ (nt_mem_subPids hwmem))
    · subst hq
      exact eps _ (m.pidsLt _ (nt_mem_subPids (hwsmem r hr)))
        (hopne _ (nt_mem_subPids (hwsmem r hr)))
  have hwsp : ∀ (s' : QState),
      (∀ q, q < sb.nextP → q ≠ op → s'.pstore q = sb.pstore q) →
      (∀ r ∈ ws, PendingSub s' r) ∧ PendingSub s' w := by
    intro s' eps
    constructor
    · intro r hr
      have hrs := hwsmem r hr
      refine (eps _ (m.pidsLt _ (cp_mem_subPids hrs)) (hopne _ (cp_mem_subPids hrs))).trans
        (m.wsPend r hr)
    · exact (eps _ (m.pidsLt _ (cp_mem_subPids hwmem))
        (hopne _ (cp_mem_subPids hwmem))).trans m.wPend
  cases ost with
  | some o =>
    obtain ⟨hop, hevt, hext⟩ := m.opSt
    have estep : tailCall sb w op =
        { sb with
            nextP := sb.nextP + 2,
            pstore := fun x =>
              if x = sb.nextP + 1 then .pend [⟨none, none, w.nt⟩]
              else if x = sb.nextP then
                .pend [⟨none, none, sb.nextP + 1⟩]
              else sb.pstore x,
            jobs := [⟨⟨some (.settleF w.cp), some (.settleR w.cp), sb.nextP⟩, o⟩] } := by
      show resolveTo (thenP (thenP sb op (some (.settleF w.cp)) (some (.settleR w.cp))).1
          (thenP sb op (some (.settleF w.cp)) (some (.settleR w.cp))).2 none none).1 w.nt
          (.promV (thenP (thenP sb op (some (.settleF w.cp)) (some (.settleR w.cp))).1
            (thenP sb op (some (.settleF w.cp)) (some (.settleR w.cp))).2 none none).2) = _
      rw [thenP_settled hop]
      show resolveTo (thenP
          { sb with
              nextP := sb.nextP + 1,
              pstore := fun q => if q = sb.nextP then PStatus.pend [] else sb.pstore q,
              jobs := sb.jobs ++
                [⟨⟨some (.settleF w.cp), some (.settleR w.cp), sb.nextP⟩, o⟩] }
          sb.nextP none none).1 w.nt
          (.promV (thenP
            { sb with
                nextP := sb.nextP + 1,
                pstore := fun q => if q = sb.nextP then PStatus.pend [] else sb.pstore q,
                jobs := sb.jobs ++
                  [⟨⟨some (.settleF w.cp), some (.settleR w.cp), sb.nextP⟩, o⟩] }
            sb.nextP none none).2) = _
      rw [thenP_pend (show ({ sb with
              nextP := sb.nextP + 1,
              pstore := fun q => if q = sb.nextP then PStatus.pend [] else sb.pstore q,
              jobs := sb.jobs ++
                [⟨⟨some (.settleF w.cp), some (.settleR w.cp), sb.nextP⟩, o⟩] } : QState).pstore
          sb.nextP = PStatus.pend [] from by simp) none none]
      show resolveTo
          { sb with
              nextP := sb.nextP + 2,
              pstore := fun q =>
                if q = sb.nextP + 1 then PStatus.pend []
                else if q = sb.nextP then PStatus.pend [⟨none, none, sb.nextP + 1⟩]
                else if q = sb.nextP then PStatus.pend []
                else sb.pstore q,
              jobs := sb.jobs ++
                [⟨⟨some (.settleF w.cp), some (.settleR w.cp), sb.nextP⟩, o⟩] }
          w.nt (.promV (sb.nextP + 1)) = _
      rw [resolveTo_pend (show ({ sb with
              nextP := sb.nextP + 2,
              pstore := fun q =>
                if q = sb.nextP + 1 then PStatus.pend []
                else if q = sb.nextP then PStatus.pend [⟨none, none, sb.nextP + 1⟩]
                else if q = sb.nextP then PStatus.pend []
                else sb.pstore q,
              jobs := sb.jobs ++
                [⟨⟨some (.settleF w.cp), some (.settleR w.cp), sb.nextP⟩, o⟩] } : QState).pstore
          (sb.nextP + 1) = PStatus.pend [] from by simp) w.nt]
      refine qstate_ext (funext fun q => ?_) rfl rfl ?_ rfl rfl rfl rfl rfl
      · by_cases h1 : q = sb.nextP + 1
        · simp [h1]
        · by_cases h2 : q = sb.nextP
          · simp [h1, h2]
          · simp [h1, h2]
      · simp [m.jobsE]
    rw [estep]
    have hps : ∀ q, q < sb.nextP → q ≠ op →
        (if q = sb.nextP + 1 then PStatus.pend [⟨none, none, w.nt⟩]
          else if q = sb.nextP then PStatus.pend [⟨none, none, sb.nextP + 1⟩]
          else sb.pstore q) = sb.pstore q := by
      intro q hq _
      rw [if_neg (by omega), if_neg (by omega)]
    refine ⟨done, .chainRun w ws op sb.nextP (sb.nextP + 1) (.outJob o), ?_, ?_⟩
    · refine hcommon _ _ ?_ ?_ ?_ ?_ ?_ ?_ ?_
      · rfl
      · rfl
      · rfl
      · rfl
      · rfl
      · exact hps
      · rfl
    · refine ⟨m.svcFunc, ?_, ?_, ?_, ?_, ?_, ?_, ?_, ?_, ?_⟩
      · refine hchain2 _ ?_ ?_
        · rfl
        · exact hps
      · refine (hwsp _ ?_).1
        exact hps
      · show PendingSub _ w
        refine (hwsp _ ?_).2
        exact hps
      · show (if op = sb.nextP + 1 then _ else if op = sb.nextP then _ else sb.pstore op) = _
        have := m.opLt
        rw [if_neg (by omega), if_neg (by omega)]
        exact hop
      · show (if sb.nextP = sb.nextP + 1 then _ else if sb.nextP = sb.nextP then _ else _) = _
        rw [if_neg (by omega), if_pos rfl]
      · show (if sb.nextP + 1 = sb.nextP + 1 then _ else _) = _
        rw [if_pos rfl]
      · rfl
      · exact hext
      · exact hevt
  | none =>
    obtain ⟨hop, tok, hext⟩ := m.opSt
    have estep : tailCall sb w op =
        { sb with
            nextP := sb.nextP + 2,
            pstore := fun x =>
              if x = sb.nextP + 1 then .pend [⟨none, none, w.nt⟩]
              else if x = sb.nextP then .pend [⟨none, none, sb.nextP + 1⟩]
              else if x = op then
                .pend [⟨some (.settleF w.cp), some (.settleR w.cp), sb.nextP⟩]
              else sb.pstore x } := by
      show resolveTo (thenP (thenP sb op (some (.settleF w.cp)) (some (.settleR w.cp))).1
          (thenP sb op (some (.settleF w.cp)) (some (.settleR w.cp))).2 none none).1 w.nt
          (.promV (thenP (thenP sb op (some (.settleF w.cp)) (some (.settleR w.cp))).1
            (thenP sb op (some (.settleF w.cp)) (some (.settleR w.cp))).2 none none).2) = _
      rw [thenP_pend hop]
      show resolveTo (thenP
          { sb with
              nextP := sb.nextP + 1,
              pstore := fun q =>
                if q = sb.nextP then PStatus.pend []
                else if q = op then
                  PStatus.pend [⟨some (.settleF w.cp), some (.settleR w.cp), sb.nextP⟩]
                else sb.pstore q }
          sb.nextP none none).1 w.nt
          (.promV (thenP
            { sb with
                nextP := sb.nextP + 1,
                pstore := fun q =>
                  if q = sb.nextP then PStatus.pend []
                  else if q = op then
                    PStatus.pend [⟨some (.settleF w.cp), some (.settleR w.cp), sb.nextP⟩]
                  else sb.pstore q }
            sb.nextP none none).2) = _
      rw [thenP_pend (show ({ sb with
              nextP := sb.nextP + 1,
              pstore := fun q =>
                if q = sb.nextP then PStatus.pend []
                else if q = op then
                  PStatus.pend [⟨some (.settleF w.cp), some (.settleR w.cp), sb.nextP⟩]
                else sb.pstore q } : QState).pstore
          sb.nextP = PStatus.pend [] from by simp) none none]
      show resolveTo
          { sb with
              nextP := sb.nextP + 2,
              pstore := fun q =>
                if q = sb.nextP + 1 then PStatus.pend []
                else if q = sb.nextP then PStatus.pend [⟨none, none, sb.nextP + 1⟩]
                else if q = sb.nextP then PStatus.pend []
                else if q = op then
                  PStatus.pend [⟨some (.settleF w.cp), some (.settleR w.cp), sb.nextP⟩]
                else sb.pstore q }
          w.nt (.promV (sb.nextP + 1)) = _
      rw [resolveTo_pend (show ({ sb with
              nextP := sb.nextP + 2,
              pstore := fun q =>
                if q = sb.nextP + 1 then PStatus.pend []
                else if q = sb.nextP then PStatus.pend [⟨none, none, sb.nextP + 1⟩]
                else if q = sb.nextP then PStatus.pend []
                else if q = op then
                  PStatus.pend [⟨some (.settleF w.cp), some (.settleR w.cp), sb.nextP⟩]
                else sb.pstore q } : QState).pstore
          (sb.nextP + 1) = PStatus.pend [] from by simp) w.nt]
      refine qstate_ext (funext fun q => ?_) rfl rfl rfl rfl rfl rfl rfl rfl
      by_cases h1 : q = sb.nextP + 1
      · simp [h1, show sb.nextP + 1 ≠ op from by have := m.opLt; omega]
      · by_cases h2 : q = sb.nextP
        · simp [h1, h2, show sb.nextP ≠ op from by have := m.opLt; omega]
        · by_cases h3 : q = op
          · simp [h1, h2, h3, show op ≠ sb.nextP from by have := m.opLt; omega,
              show op ≠ sb.nextP + 1 from by have := m.opLt; omega]
          · simp [h1, h2, h3]
    rw [estep]
    have hps : ∀ q, q < sb.nextP → q ≠ op →
        (if q = sb.nextP + 1 then PStatus.pend [⟨none, none, w.nt⟩]
          else if q = sb.nextP then PStatus.pend [⟨none, none, sb.nextP + 1⟩]
          else if q = op then
            PStatus.pend [⟨some (.settleF w.cp), some (.settleR w.cp), sb.nextP⟩]
          else sb.pstore q) = sb.pstore q := by
      intro q hq hqo
      rw [if_neg (by omega), if_neg (by omega), if_neg hqo]
    refine ⟨done, .chainRun w ws op sb.nextP (sb.nextP + 1) (.awaiting tok), ?_, ?_⟩
    · refine hcommon _ _ ?_ ?_ ?_ ?_ ?_ ?_ ?_
      · rfl
      · rfl
      · rfl
      · rfl
      · rfl
      · exact hps
      · rfl
    · refine ⟨m.svcFunc, ?_, ?_, ?_, ?_, ?_, ?_, ?_, ?_⟩
      · refine hchain2 _ ?_ ?_
        · rfl
        · exact hps
      · refine (hwsp _ ?_).1
        exact hps
      · show PendingSub _ w
        refine (hwsp _ ?_).2
        exact hps
      · show (if op = sb.nextP + 1 then _ else if op = sb.nextP then _
          else if op = op then _ else _) = _
        have := m.opLt
        rw [if_neg (by omega), if_neg (by omega), if_pos rfl]
      · show (if sb.nextP = sb.nextP + 1 then _ else if sb.nextP = sb.nextP then _ else _) = _
        rw [if_neg (by omega), if_pos rfl]
      · show (if sb.nextP + 1 = sb.nextP + 1 then _ else _) = _
        rw [if_pos rfl]
      · exact m.jobsE
      · exact hext

theorem admitsOf_invoked (id : Nat) (itv : PureVal) :
    admitsOf [.invoked id itv] = [] := rfl

theorem admitsOf_settled (id : Nat) (o : Outcome) :
    admitsOf [.taskSettled id o] = [] := rfl

theorem admitsOf_admitted (id : Nat) : admitsOf [.admitted id] = [id] := rfl

theorem obsOf_invoked (id : Nat) (itv : PureVal) :
    obsOf [.invoked id itv] = [.inv id] := rfl

theorem obsOf_settled (id : Nat) (o : Outcome) :
    obsOf [.taskSettled id o] = [.stl id] := rfl

theorem obsOf_admitted (id : Nat) : obsOf [.admitted id] = [] := rfl

/-- Establishing the mid-handler description when the submissions are
unchanged and the outcome promise is already settled (the task body ran
synchronously). -/
theorem midState_some {s : QState} {done : List SubRec} {w : SubRec} {ws : List SubRec}
    (hc : ShapeCommon s done (.toStart w ws))
    (hch : Chained s w.nt ws) (hwp : PendingSub s w) (hwsp0 : ∀ r ∈ ws, PendingSub s r)
    (hb : ∃ b2, w.svc = .func b2)
    (Z : QState) (op : Nat) (o : Outcome)
    (hsubs : Z.subs = s.subs) (hnsub : Z.nextSub = s.nextSub) (htl : Z.tailP = s.tailP)
    (hnp : s.nextP ≤ Z.nextP) (hjobs : Z.jobs = [])
    (hps : ∀ q, q < s.nextP → Z.pstore q = s.pstore q)
    (hadm : admitsOf Z.trace = admitsOf s.trace)
    (hobs : obsOf Z.trace = obsOf s.trace ++ [OEv.inv w.id, OEv.stl w.id])
    (htr : ∀ e ∈ s.trace, e ∈ Z.trace)
    (hopLt : op < Z.nextP) (hopGe : s.nextP ≤ op)
    (hop : Z.pstore op = .settled o) (hevt : Event.taskSettled w.id o ∈ Z.trace)
    (hexz : Z.externals = []) :
    MidState Z done w ws op (some o) := by
  have hwmem : w ∈ s.subs := mem_phRecs_subs hc (by simp [phRecs])
  have hwsmem : ∀ r ∈ ws, r ∈ s.subs := fun r hr =>
    mem_phRecs_subs hc (by simp [phRecs, hr])
  refine ⟨?_, ?_, ?_, ?_, ?_, ?_, ?_, ?_, ?_, ?_, ?_, ?_, ?_, ?_, ?_, ?_, ?_⟩
  · rw [hsubs]; exact hc.subsEq
  · rw [hsubs, hnsub]; exact hc.idsEq
  · rw [hadm, hsubs]; exact hc.admitsEq
  · rw [hobs, hc.obsEq]
    simp [phObs]
  · rw [hsubs]
    have h9 := hc.pidsNodup
    simp only [phExtra, List.append_nil] at h9
    exact h9
  · intro p hp
    rw [hsubs] at hp
    have := hc.pidsLt p (List.mem_append_left _ hp)
    omega
  · rw [htl]
    have := hc.tailLt
    omega
  · intro r hr
    obtain ⟨hb2, d1, d2⟩ := hc.doneOk r hr
    have hrs : r ∈ s.subs := by
      rw [hc.subsEq]; exact List.mem_append_left _ hr
    refine ⟨hb2, ?_, ?_⟩
    · rw [hps _ (nt_lt hc hrs)]; exact d1
    · rw [hps _ (cp_lt hc hrs)]; exact d2
  · intro r hr o2 hcp
    rw [hsubs] at hr
    rw [hps _ (cp_lt hc hr)] at hcp
    exact htr _ (hc.cpSettledEvt r hr o2 hcp)
  · exact hb
  · refine chained_congr hch htl ?_
    intro q hq
    rcases hq with hq | ⟨r, hr, hq⟩
    · subst hq; exact hps _ (nt_lt hc hwmem)
    · subst hq; exact hps _ (nt_lt hc (hwsmem r hr))
  · exact (hps _ (cp_lt hc hwmem)).trans hwp
  · intro r hr
    exact (hps _ (cp_lt hc (hwsmem r hr))).trans (hwsp0 r hr)
  · exact hjobs
  · exact hopLt
  · intro hm
    rw [hsubs] at hm
    have := hc.pidsLt op (List.mem_append_left _ hm)
    omega
  · exact ⟨hop, hevt, hexz⟩

/-- Establishing the mid-handler description when the submissions are
unchanged and the outcome promise is still pending (the task returned a
future, registered under an external token). -/
theorem midState_none {s : QState} {done : List SubRec} {w : SubRec} {ws : List SubRec}
    (hc : ShapeCommon s done (.toStart w ws))
    (hch : Chained s w.nt ws) (hwp : PendingSub s w) (hwsp0 : ∀ r ∈ ws, PendingSub s r)
    (hb : ∃ b2, w.svc = .func b2)
    (Z : QState) (op : Nat) (tok : Nat)
    (hsubs : Z.subs = s.subs) (hnsub : Z.nextSub = s.nextSub) (htl : Z.tailP = s.tailP)
    (hnp : s.nextP ≤ Z.nextP) (hjobs : Z.jobs = [])
    (hps : ∀ q, q < s.nextP → Z.pstore q = s.pstore q)
    (hadm : admitsOf Z.trace = admitsOf s.trace)
    (hobs : obsOf Z.trace = obsOf s.trace ++ [OEv.inv w.id])
    (htr : ∀ e ∈ s.trace, e ∈ Z.trace)
    (hopLt : op < Z.nextP) (hopGe : s.nextP ≤ op)
    (hop : Z.pstore op = .pend [])
    (hexz : Z.externals = [(tok, op, w.id)]) :
    MidState Z done w ws op none := by
  have hwmem : w ∈ s.subs := mem_phRecs_subs hc (by simp [phRecs])
  have hwsmem : ∀ r ∈ ws, r ∈ s.subs := fun r hr =>
    mem_phRecs_subs hc (by simp [phRecs, hr])
  refine ⟨?_, ?_, ?_, ?_, ?_, ?_, ?_, ?_, ?_, ?_, ?_, ?_, ?_, ?_, ?_, ?_, ?_⟩
  · rw [hsubs]; exact hc.subsEq
  · rw [hsubs, hnsub]; exact hc.idsEq
  · rw [hadm, hsubs]; exact hc.admitsEq
  · rw [hobs, hc.obsEq]
    simp [phObs]
  · rw [hsubs]
    have h9 := hc.pidsNodup
    simp only [phExtra, List.append_nil] at h9
    exact h9
  · intro p hp
    rw [hsubs] at hp
    have := hc.pidsLt p (List.mem_append_left _ hp)
    omega
  · rw [htl]
    have := hc.tailLt
    omega
  · intro r hr
    obtain ⟨hb2, d1, d2⟩ := hc.doneOk r hr
    have hrs : r ∈ s.subs := by
      rw [hc.subsEq]; exact List.mem_append_left _ hr
    refine ⟨hb2, ?_, ?_⟩
    · rw [hps _ (nt_lt hc hrs)]; exact d1
    · rw [hps _ (cp_lt hc hrs)]; exact d2
  · intro r hr o2 hcp
    rw [hsubs] at hr
    rw [hps _ (cp_lt hc hr)] at hcp
    exact htr _ (hc.cpSettledEvt r hr o2 hcp)
  · exact hb
  · refine chained_congr hch htl ?_
    intro q hq
    rcases hq with hq | ⟨r, hr, hq⟩
    · subst hq; exact hps _ (nt_lt hc hwmem)
    · subst hq; exact hps _ (nt_lt hc (hwsmem r hr))
  · exact (hps _ (cp_lt hc hwmem)).trans hwp
  · intro r hr
    exact (hps _ (cp_lt hc (hwsmem r hr))).trans (hwsp0 r hr)
  · exact hjobs
  · exact hopLt
  · intro hm
    rw [hsubs] at hm
    have := hc.pidsLt op (List.mem_append_left _ hm)
    omega
  · exact ⟨hop, tok, hexz⟩

/-- Establishing the mid-handler description after the running task
re-entrantly enqueued a new submission onto the pending tail and returned:
the new submission joins the back of the waiting chain. -/
theorem midState_okEnq {s : QState} {done : List SubRec} {w : SubRec} {ws : List SubRec}
    (hc : ShapeCommon s done (.toStart w ws)) (hext : s.externals = [])
    (hch : Chained s w.nt ws) (hwp : PendingSub s w) (hwsp0 : ∀ r ∈ ws, PendingSub s r)
    (hb : ∃ b2, w.svc = .func b2)
    (itv : PureVal) (svcA : JsArg) (enc : Option Json) (v : PureVal) :
    MidState
      { s with
          jobs := [],
          pstore := fun q =>
            if q = s.nextP + 2 then .settled (.fulfilled v)
            else if q = s.nextP + 1 then .pend []
            else if q = s.tailP then
              .pend [linkReaction ⟨s.nextSub, svcA, enc, s.nextP, s.nextP + 1⟩]
            else if q = s.nextP then .pend []
            else s.pstore q,
          nextP := s.nextP + 3,
          tailP := s.nextP + 1,
          subs := s.subs ++ [⟨s.nextSub, svcA, enc, s.nextP, s.nextP + 1⟩],
          nextSub := s.nextSub + 1,
          trace := s.trace ++ [.invoked w.id itv] ++ [.admitted s.nextSub]
            ++ [.taskSettled w.id (.fulfilled v)] }
      done w (ws ++ [⟨s.nextSub, svcA, enc, s.nextP, s.nextP + 1⟩]) (s.nextP + 2)
      (some (.fulfilled v)) := by
  have hwmem : w ∈ s.subs := mem_phRecs_subs hc (by simp [phRecs])
  have hwsmem : ∀ r ∈ ws, r ∈ s.subs := fun r hr =>
    mem_phRecs_subs hc (by simp [phRecs, hr])
  have htail0 : s.pstore s.tailP = .pend [] := chained_tail_status hch
  have hcpt : ∀ r ∈ s.subs, r.cp ≠ s.tailP := by
    intro r hr
    rcases chained_tail_mem hch with h | ⟨r2, hr2, h⟩
    · rw [h]; exact cp_ne_nt (subs_nodup hc) hr hwmem
    · rw [h]; exact cp_ne_nt (subs_nodup hc) hr (hwsmem r2 hr2)
  have htlt : s.tailP < s.nextP := hc.tailLt
  have hagree : ∀ q, q < s.nextP → q ≠ s.tailP →
      (if q = s.nextP + 2 then PStatus.settled (.fulfilled v)
        else if q = s.nextP + 1 then PStatus.pend []
        else if q = s.tailP then
          PStatus.pend [linkReaction ⟨s.nextSub, svcA, enc, s.nextP, s.nextP + 1⟩]
        else if q = s.nextP then PStatus.pend []
        else s.pstore q) = s.pstore q := by
    intro q h1 h2
    rw [if_neg (by omega), if_neg (by omega), if_neg h2, if_neg (by omega)]
  refine ⟨?_, ?_, ?_, ?_, ?_, ?_, ?_, ?_, ?_, ?_, ?_, ?_, ?_, ?_, ?_, ?_, ?_⟩
  · show s.subs ++ [⟨s.nextSub, svcA, enc, s.nextP, s.nextP + 1⟩] =
      done ++ w :: (ws ++ [⟨s.nextSub, svcA, enc, s.nextP, s.nextP + 1⟩])
    rw [hc.subsEq]
    simp [phRecs]
  · show (s.subs ++ [(⟨s.nextSub, svcA, enc, s.nextP, s.nextP + 1⟩ : SubRec)]).map
        (fun r => r.id) =
      List.range (s.nextSub + 1)
    rw [List.map_append, hc.idsEq, List.range_succ]
    rfl
  · show admitsOf (s.trace ++ [.invoked w.id itv] ++ [.admitted s.nextSub]
        ++ [.taskSettled w.id (.fulfilled v)]) =
      (s.subs ++ [(⟨s.nextSub, svcA, enc, s.nextP, s.nextP + 1⟩ : SubRec)]).map
        (fun r => r.id)
    rw [admitsOf_append, admitsOf_append, admitsOf_append, admitsOf_invoked,
      admitsOf_admitted, admitsOf_settled, hc.admitsEq, List.map_append]
    simp
  · show obsOf (s.trace ++ [.invoked w.id itv] ++ [.admitted s.nextSub]
        ++ [.taskSettled w.id (.fulfilled v)]) = _
    rw [obsOf_append, obsOf_append, obsOf_append, obsOf_invoked, obsOf_admitted,
      obsOf_settled, hc.obsEq]
    simp [phObs]
  · show (subPids (s.subs ++ [⟨s.nextSub, svcA, enc, s.nextP, s.nextP + 1⟩])).Nodup
    rw [subPids_append]
    have h2 : subPids [(⟨s.nextSub, svcA, enc, s.nextP, s.nextP + 1⟩ : SubRec)] =
        [s.nextP, s.nextP + 1] := by simp [subPids]
    rw [h2]
    refine List.nodup_append.mpr ⟨subs_nodup hc, by simp, ?_⟩
    intro x hx hy
    have := hc.pidsLt x (List.mem_append_left _ hx)
    simp at hy
    rcases hy with hy | hy <;> omega
  · intro p hp
    have hp2 : p ∈ subPids (s.subs ++ [⟨s.nextSub, svcA, enc, s.nextP, s.nextP + 1⟩]) := hp
    rw [subPids_append] at hp2
    show p < s.nextP + 3
    rcases List.mem_append.mp hp2 with h1 | h1
    · have := hc.pidsLt p (List.mem_append_left _ h1)
      omega
    · simp [subPids] at h1
      rcases h1 with h1 | h1 <;> omega
  · show s.nextP + 1 < s.nextP + 3
    omega
  · intro r hr
    obtain ⟨hb2, d1, d2⟩ := hc.doneOk r hr
    have hrs : r ∈ s.subs := by
      rw [hc.subsEq]; exact List.mem_append_left _ hr
    have hnne : r.nt ≠ s.tailP := by
      intro he
      rw [he, htail0] at d1
      simp at d1
    refine ⟨hb2, ?_, ?_⟩
    · exact (hagree _ (nt_lt hc hrs) hnne).trans d1
    · obtain ⟨o2, ho2⟩ := d2
      exact ⟨o2, (hagree _ (cp_lt hc hrs) (hcpt r hrs)).trans ho2⟩
  · intro r hr o2 hcp
    have hr2 : r ∈ s.subs ++ [⟨s.nextSub, svcA, enc, s.nextP, s.nextP + 1⟩] := hr
    rcases List.mem_append.mp hr2 with hr3 | hr4
    · have hcp2 : (if r.cp = s.nextP + 2 then PStatus.settled (.fulfilled v)
          else if r.cp = s.nextP + 1 then PStatus.pend []
          else if r.cp = s.tailP then
            PStatus.pend [linkReaction ⟨s.nextSub, svcA, enc, s.nextP, s.nextP + 1⟩]
          else if r.cp = s.nextP then PStatus.pend []
          else s.pstore r.cp) = PStatus.settled o2 := hcp
      rw [hagree _ (cp_lt hc hr3) (hcpt r hr3)] at hcp2
      have := hc.cpSettledEvt r hr3 o2 hcp2
      show _ ∈ s.trace ++ [Event.invoked w.id itv] ++ [Event.admitted s.nextSub]
        ++ [Event.taskSettled w.id (.fulfilled v)]
      exact List.mem_append_left _ (List.mem_append_left _ (List.mem_append_left _ this))
    · simp at hr4
      subst hr4
      have hcp2 : (if s.nextP = s.nextP + 2 then PStatus.settled (.fulfilled v)
          else if s.nextP = s.nextP + 1 then PStatus.pend []
          else if s.nextP = s.tailP then
            PStatus.pend [linkReaction ⟨s.nextSub, svcA, enc, s.nextP, s.nextP + 1⟩]
          else if s.nextP = s.nextP then PStatus.pend []
          else s.pstore s.nextP) = PStatus.settled o2 := hcp
      rw [if_neg (by omega), if_neg (by omega), if_neg (by omega), if_pos rfl] at hcp2
      simp at hcp2
  · exact hb
  · refine chained_extend hch ?_ ?_ ?_ ?_
    · intro q hq hqt
      rcases hq with hq | ⟨r, hr, hq⟩
      · subst hq; exact hagree _ (nt_lt hc hwmem) hqt
      · subst hq; exact hagree _ (nt_lt hc (hwsmem r hr)) hqt
    · show (if s.tailP = s.nextP + 2 then PStatus.settled (.fulfilled v)
        else if s.tailP = s.nextP + 1 then PStatus.pend []
        else if s.tailP = s.tailP then
          PStatus.pend [linkReaction ⟨s.nextSub, svcA, enc, s.nextP, s.nextP + 1⟩]
        else if s.tailP = s.nextP then PStatus.pend []
        else s.pstore s.tailP) = _
      rw [if_neg (by omega), if_neg (by omega), if_pos rfl]
    · rfl
    · show (if s.nextP + 1 = s.nextP + 2 then PStatus.settled (.fulfilled v)
        else if s.nextP + 1 = s.nextP + 1 then PStatus.pend [] else _) = _
      rw [if_neg (by omega), if_pos rfl]
  · exact (hagree _ (cp_lt hc hwmem) (hcpt w hwmem)).trans hwp
  · intro r hr
    rcases List.mem_append.mp hr with hr1 | hr2
    · exact (hagree _ (cp_lt hc (hwsmem r hr1)) (hcpt r (hwsmem r hr1))).trans (hwsp0 r hr1)
    · simp at hr2
      subst hr2
      show (if s.nextP = s.nextP + 2 then PStatus.settled (.fulfilled v)
        else if s.nextP = s.nextP + 1 then PStatus.pend []
        else if s.nextP = s.tailP then
          PStatus.pend [linkReaction ⟨s.nextSub, svcA, enc, s.nextP, s.nextP + 1⟩]
        else if s.nextP = s.nextP then PStatus.pend []
        else s.pstore s.nextP) = _
      rw [if_neg (by omega), if_neg (by omega), if_neg (by omega), if_pos rfl]
  · rfl
  · show s.nextP + 2 < s.nextP + 3
    omega
  · intro hm
    have hm2 : s.nextP + 2 ∈
        subPids (s.subs ++ [⟨s.nextSub, svcA, enc, s.nextP, s.nextP + 1⟩]) := hm
    rw [subPids_append] at hm2
    rcases List.mem_append.mp hm2 with h1 | h1
    · have := hc.pidsLt _ (List.mem_append_left _ h1)
      omega
    · simp [subPids] at h1
  · refine ⟨?_, ?_, ?_⟩
    · show (if s.nextP + 2 = s.nextP + 2 then PStatus.settled (.fulfilled v) else _) = _
      rw [if_pos rfl]
    · show Event.taskSettled w.id (.fulfilled v) ∈ s.trace ++ [Event.invoked w.id itv]
        ++ [Event.admitted s.nextSub] ++ [Event.taskSettled w.id (.fulfilled v)]
      simp
    · exact hext

/-- Running the queued chain-link microtask preserves the invariant: a
non-callable service rejects the link and poisons the rest of the chain; a
callable service is invoked and the machine enters the chain-run phase
(directly settled, or awaiting an external future, possibly with a
re-entrant admission appended to the waiting chain). -/
theorem inv_micro_toStart {s : QState} {done : List SubRec} {w : SubRec} {ws : List SubRec}
    (h : ShapeAll s done (.toStart w ws)) :
    Inv (stepMicro s) := by
  obtain ⟨hc, hjobs, hext, hch, hwp, hwsp0⟩ := h
  have hwmem : w ∈ s.subs := mem_phRecs_subs hc (by simp [phRecs])
  have hwsmem : ∀ r ∈ ws, r ∈ s.subs := fun r hr =>
    mem_phRecs_subs hc (by simp [phRecs, hr])
  have e1 : stepMicro s = runJob { s with jobs := [] } ⟨linkReaction w, .fulfilled .undef⟩ := by
    unfold stepMicro
    rw [hjobs]
  cases hsvc : w.svc with
  | data d =>
    have e2 : stepMicro s = settleP { s with jobs := [] } w.nt (.rejected .notAFunction) := by
      rw [e1]
      show applyHRes (runHandler { s with jobs := [] }
          (.chainLink w.id w.enc w.svc w.cp) (.fulfilled .undef)).1 w.nt
        (runHandler { s with jobs := [] } (.chainLink w.id w.enc w.svc w.cp)
          (.fulfilled .undef)).2 = _
      rw [hsvc]
      rfl
    have hwnotws : w ∉ ws := by
      have hnd := subs_recs_nodup hc
      rw [hc.subsEq] at hnd
      have h8 := (List.nodup_append.mp hnd).2.1
      simp only [phRecs] at h8
      rw [List.nodup_cons] at h8
      exact h8.1
    have hps : ∀ q, q ≠ w.nt →
        (if q = w.nt then PStatus.settled (.rejected .notAFunction) else s.pstore q) =
          s.pstore q := fun q hq => if_neg hq
    have hbadw : ∀ b, w.svc ≠ .func b := by
      intro b hbe
      rw [hsvc] at hbe
      cases hbe
    have hcommon : ∀ (s' : QState), s'.subs = s.subs → s'.trace = s.trace →
        s'.nextP = s.nextP → s'.nextSub = s.nextSub → s'.tailP = s.tailP →
        (∀ q, q ≠ w.nt → s'.pstore q = s.pstore q) →
        ∀ (ph' : Ph), phRecs ph' = w :: ws → phExtra ph' = [] → phObs ph' = [] →
        ShapeCommon s' done ph' := by
      intro s' e1b e2b e3b e4b e5b eps ph' r1 r2 r3
      refine ⟨?_, ?_, ?_, ?_, ?_, ?_, ?_, ?_, ?_⟩
      · rw [e1b, r1, hc.subsEq]
        simp [phRecs]
      · rw [e1b, e4b, hc.idsEq]
      · rw [e2b, e1b, hc.admitsEq]
      · rw [e2b, r3, hc.obsEq]
        simp [phObs]
      · rw [e1b, r2, List.append_nil]
        exact subs_nodup hc
      · intro p hp
        rw [e1b, r2, List.append_nil] at hp
        rw [e3b]
        exact hc.pidsLt p (List.mem_append_left _ hp)
      · rw [e5b, e3b]; exact hc.tailLt
      · intro r hr
        obtain ⟨hb2, d1, d2⟩ := hc.doneOk r hr
        have hrs : r ∈ s.subs := by
          rw [hc.subsEq]; exact List.mem_append_left _ hr
        have hrw : r ≠ w := by
          intro he
          have hnd := subs_recs_nodup hc
          rw [hc.subsEq] at hnd
          exact (List.nodup_append.mp hnd).2.2 hr (by simp [phRecs, ← he])
        refine ⟨hb2, ?_, ?_⟩
        · rw [eps r.nt (fun he => hrw (subRec_inj_nt (subs_nodup hc) hrs hwmem he))]
          exact d1
        · rw [eps r.cp (cp_ne_nt (subs_nodup hc) hrs hwmem)]
          exact d2
      · intro r hr o' hcp
        rw [e1b] at hr
        rw [eps r.cp (cp_ne_nt (subs_nodup hc) hr hwmem)] at hcp
        rw [e2b]
        exact hc.cpSettledEvt r hr o' hcp
    cases hwseq : ws with
    | nil =>
      rw [hwseq] at hch
      obtain ⟨htp, hnt⟩ := hch
      have estep : stepMicro s =
          { s with
              pstore := fun x =>
                if x = w.nt then PStatus.settled (.rejected .notAFunction) else s.pstore x,
              jobs := [] } := by
        rw [e2, settleP_pend (show ({ s with jobs := ([] : List Job) } : QState).pstore w.nt =
          .pend [] from hnt) (.rejected .notAFunction)]
        refine qstate_ext (funext fun q => rfl) rfl rfl ?_ rfl rfl rfl rfl rfl
        simp
      rw [estep]
      refine ⟨done, .poisonIdle [w], ?_, ?_, ?_, ?_, ?_, ?_⟩
      · refine hcommon _ ?_ ?_ ?_ ?_ ?_ ?_ (Ph.poisonIdle [w])
          (by rw [hwseq]; simp [phRecs]) rfl rfl
        · rfl
        · rfl
        · rfl
        · rfl
        · rfl
        · intro q hq
          exact hps q hq
      · rfl
      · exact hext
      · intro r hr
        simp at hr
        subst hr
        refine ⟨(hps _ (cp_ne_nt (subs_nodup hc) hwmem hwmem)).trans hwp, ?_⟩
        show (if r.nt = r.nt then _ else _) = _
        rw [if_pos rfl]
      · show (if s.tailP = w.nt then _ else _) = _
        rw [if_pos htp]
      · exact ⟨w, by simp, hbadw⟩
    | cons k2 rest =>
      rw [hwseq] at hch hwsp0 hwsmem hwnotws
      obtain ⟨hk2, hch2⟩ := hch
      have hk2mem : k2 ∈ s.subs := hwsmem k2 (by simp)
      have hk2w : k2 ≠ w := fun he => hwnotws (he ▸ List.mem_cons_self k2 rest)
      have estep : stepMicro s =
          { s with
              pstore := fun x =>
                if x = w.nt then PStatus.settled (.rejected .notAFunction) else s.pstore x,
              jobs := [⟨linkReaction k2, .rejected .notAFunction⟩] } := by
        rw [e2, settleP_pend (show ({ s with jobs := ([] : List Job) } : QState).pstore w.nt =
          .pend [linkReaction k2] from hk2) (.rejected .notAFunction)]
        refine qstate_ext (funext fun q => rfl) rfl rfl ?_ rfl rfl rfl rfl rfl
        simp
      rw [estep]
      refine ⟨done, .poisonJob [w] k2 rest, ?_, ?_, ?_, ?_, ?_, ?_, ?_, ?_⟩
      · refine hcommon _ ?_ ?_ ?_ ?_ ?_ ?_ (Ph.poisonJob [w] k2 rest)
          (by rw [hwseq]; simp [phRecs]) rfl rfl
        · rfl
        · rfl
        · rfl
        · rfl
        · rfl
        · intro q hq
          exact hps q hq
      · rfl
      · exact hext
      · intro r hr
        simp at hr
        subst hr
        refine ⟨(hps _ (cp_ne_nt (subs_nodup hc) hwmem hwmem)).trans hwp, ?_⟩
        show (if r.nt = r.nt then _ else _) = _
        rw [if_pos rfl]
      · exact (hps k2.cp (cp_ne_nt (subs_nodup hc) hk2mem hwmem)).trans (hwsp0 k2 (by simp))
      · intro r hr
        have hrmem : r ∈ s.subs := hwsmem r (by simp [hr])
        exact (hps r.cp (cp_ne_nt (subs_nodup hc) hrmem hwmem)).trans (hwsp0 r (by simp [hr]))
      · refine chained_congr hch2 rfl ?_
        intro q hq
        rcases hq with hq | ⟨r, hr, hq⟩
        · subst hq
          refine hps k2.nt ?_
          intro he
          exact hk2w (subRec_inj_nt (subs_nodup hc) hk2mem hwmem he)
        · subst hq
          have hrmem : r ∈ s.subs := hwsmem r (by simp [hr])
          refine hps r.nt ?_
          intro he
          have heq : r = w := subRec_inj_nt (subs_nodup hc) hrmem hwmem he
          exact hwnotws (heq ▸ List.mem_cons.mpr (Or.inr hr))
      · exact ⟨w, by simp, hbadw⟩
  | func body =>
    have e2 : stepMicro s =
        tailCall (runBody (emit { s with jobs := [] }
            (.invoked w.id (deserializeEnc w.enc))) w.id body).1 w
          (runBody (emit { s with jobs := [] }
            (.invoked w.id (deserializeEnc w.enc))) w.id body).2 := by
      rw [e1]
      show applyHRes (runHandler { s with jobs := [] }
          (.chainLink w.id w.enc w.svc w.cp) (.fulfilled .undef)).1 w.nt
        (runHandler { s with jobs := [] } (.chainLink w.id w.enc w.svc w.cp)
          (.fulfilled .undef)).2 = _
      rw [hsvc]
      rfl
    cases body with
    | ret v =>
      have hsb : runBody (emit { s with jobs := [] }
          (.invoked w.id (deserializeEnc w.enc))) w.id (.ret v) =
          ({ s with
              jobs := [],
              trace := s.trace ++ [.invoked w.id (deserializeEnc w.enc)]
                ++ [.taskSettled w.id (.fulfilled v)],
              pstore := fun q =>
                if q = s.nextP then PStatus.settled (.fulfilled v) else s.pstore q,
              nextP := s.nextP + 1 }, s.nextP) := rfl
      rw [e2, hsb]
      refine midFinish (midState_some hc hch hwp hwsp0 ⟨.ret v, hsvc⟩ _ _ (.fulfilled v)
        ?_ ?_ ?_ ?_ ?_ ?_ ?_ ?_ ?_ ?_ ?_ ?_ ?_ ?_)
      · rfl
      · rfl
      · rfl
      · show s.nextP ≤ s.nextP + 1
        omega
      · rfl
      · intro q hq
        show (if q = s.nextP then PStatus.settled (.fulfilled v) else s.pstore q) = s.pstore q
        rw [if_neg (by omega)]
      · show admitsOf (s.trace ++ [.invoked w.id (deserializeEnc w.enc)]
            ++ [.taskSettled w.id (.fulfilled v)]) = admitsOf s.trace
        rw [admitsOf_append, admitsOf_append, admitsOf_invoked, admitsOf_settled]
        simp
      · show obsOf (s.trace ++ [.invoked w.id (deserializeEnc w.enc)]
            ++ [.taskSettled w.id (.fulfilled v)]) =
          obsOf s.trace ++ [OEv.inv w.id, OEv.stl w.id]
        rw [obsOf_append, obsOf_append, obsOf_invoked, obsOf_settled]
        simp
      · intro e he
        show e ∈ s.trace ++ [Event.invoked w.id (deserializeEnc w.enc)]
          ++ [Event.taskSettled w.id (.fulfilled v)]
        exact List.mem_append_left _ (List.mem_append_left _ he)
      · show s.nextP < s.nextP + 1
        omega
      · exact Nat.le_refl _
      · show (if s.nextP = s.nextP then PStatus.settled (.fulfilled v) else s.pstore s.nextP) =
          PStatus.settled (.fulfilled v)
        rw [if_pos rfl]
      · show Event.taskSettled w.id (.fulfilled v) ∈ s.trace
          ++ [Event.invoked w.id (deserializeEnc w.enc)]
          ++ [Event.taskSettled w.id (.fulfilled v)]
        simp
      · exact hext
    | throwE err =>
      have hsb : runBody (emit { s with jobs := [] }
          (.invoked w.id (deserializeEnc w.enc))) w.id (.throwE err) =
          ({ s with
              jobs := [],
              trace := s.trace ++ [.invoked w.id (deserializeEnc w.enc)]
                ++ [.taskSettled w.id (.rejected err)],
              pstore := fun q =>
                if q = s.nextP then PStatus.settled (.rejected err) else s.pstore q,
              nextP := s.nextP + 1 }, s.nextP) := rfl
      rw [e2, hsb]
      refine midFinish (midState_some hc hch hwp hwsp0 ⟨.throwE err, hsvc⟩ _ _ (.rejected err)
        ?_ ?_ ?_ ?_ ?_ ?_ ?_ ?_ ?_ ?_ ?_ ?_ ?_ ?_)
      · rfl
      · rfl
      · rfl
      · show s.nextP ≤ s.nextP + 1
        omega
      · rfl
      · intro q hq
        show (if q = s.nextP then PStatus.settled (.rejected err) else s.pstore q) = s.pstore q
        rw [if_neg (by omega)]
      · show admitsOf (s.trace ++ [.invoked w.id (deserializeEnc w.enc)]
            ++ [.taskSettled w.id (.rejected err)]) = admitsOf s.trace
        rw [admitsOf_append, admitsOf_append, admitsOf_invoked, admitsOf_settled]
        simp
      · show obsOf (s.trace ++ [.invoked w.id (deserializeEnc w.enc)]
            ++ [.taskSettled w.id (.rejected err)]) =
          obsOf s.trace ++ [OEv.inv w.id, OEv.stl w.id]
        rw [obsOf_append, obsOf_append, obsOf_invoked, obsOf_settled]
        simp
      · intro e he
        show e ∈ s.trace ++ [Event.invoked w.id (deserializeEnc w.enc)]
          ++ [Event.taskSettled w.id (.rejected err)]
        exact List.mem_append_left _ (List.mem_append_left _ he)
      · show s.nextP < s.nextP + 1
        omega
      · exact Nat.le_refl _
      · show (if s.nextP = s.nextP then PStatus.settled (.rejected err) else s.pstore s.nextP) =
          PStatus.settled (.rejected err)
        rw [if_pos rfl]
      · show Event.taskSettled w.id (.rejected err) ∈ s.trace
          ++ [Event.invoked w.id (deserializeEnc w.enc)]
          ++ [Event.taskSettled w.id (.rejected err)]
        simp
      · exact hext
    | retPending tok =>
      have hsb : runBody (emit { s with jobs := [] }
          (.invoked w.id (deserializeEnc w.enc))) w.id (.retPending tok) =
          ({ s with
              jobs := [],
              trace := s.trace ++ [.invoked w.id (deserializeEnc w.enc)],
              pstore := fun q => if q = s.nextP then PStatus.pend [] else s.pstore q,
              nextP := s.nextP + 1,
              externals := s.externals ++ [(tok, s.nextP, w.id)] }, s.nextP) := rfl
      rw [e2, hsb]
      refine midFinish (midState_none hc hch hwp hwsp0 ⟨.retPending tok, hsvc⟩ _ _ tok
        ?_ ?_ ?_ ?_ ?_ ?_ ?_ ?_ ?_ ?_ ?_ ?_ ?_)
      · rfl
      · rfl
      · rfl
      · show s.nextP ≤ s.nextP + 1
        omega
      · rfl
      · intro q hq
        show (if q = s.nextP then PStatus.pend [] else s.pstore q) = s.pstore q
        rw [if_neg (by omega)]
      · show admitsOf (s.trace ++ [.invoked w.id (deserializeEnc w.enc)]) = admitsOf s.trace
        rw [admitsOf_append, admitsOf_invoked]
        simp
      · show obsOf (s.trace ++ [.invoked w.id (deserializeEnc w.enc)]) =
          obsOf s.trace ++ [OEv.inv w.id]
        rw [obsOf_append, obsOf_invoked]
      · intro e he
        show e ∈ s.trace ++ [Event.invoked w.id (deserializeEnc w.enc)]
        exact List.mem_append_left _ he
      · show s.nextP < s.nextP + 1
        omega
      · exact Nat.le_refl _
      · show (if s.nextP = s.nextP then PStatus.pend [] else s.pstore s.nextP) =
          PStatus.pend []
        rw [if_pos rfl]
      · show s.externals ++ [(tok, s.nextP, w.id)] = [(tok, s.nextP, w.id)]
        simp [hext]
    | enqThenRet args v =>
      cases args with
      | anil =>
        have hq1 := enqueueFn_badArity (emit { s with jobs := [] }
            (.invoked w.id (deserializeEnc w.enc))) .anil (Or.inl rfl)
        have hsb : runBody (emit { s with jobs := [] }
            (.invoked w.id (deserializeEnc w.enc))) w.id (.enqThenRet .anil v) =
            ({ s with
                jobs := [],
                trace := s.trace ++ [.invoked w.id (deserializeEnc w.enc)]
                  ++ [.taskSettled w.id (.fulfilled v)],
                pstore := fun q =>
                  if q = s.nextP + 1 then PStatus.settled (.fulfilled v)
                  else if q = s.nextP then PStatus.settled (.rejected .invalidInvocation)
                  else s.pstore q,
                nextP := s.nextP + 2 }, s.nextP + 1) := by
          show allocP (emit (enqueueFn (emit { s with jobs := [] }
              (.invoked w.id (deserializeEnc w.enc))) .anil).1
            (.taskSettled w.id (.fulfilled v))) (.settled (.fulfilled v)) = _
          rw [hq1]
          rfl
        rw [e2, hsb]
        refine midFinish (midState_some hc hch hwp hwsp0 ⟨.enqThenRet .anil v, hsvc⟩ _ _
          (.fulfilled v) ?_ ?_ ?_ ?_ ?_ ?_ ?_ ?_ ?_ ?_ ?_ ?_ ?_ ?_)
        · rfl
        · rfl
        · rfl
        · show s.nextP ≤ s.nextP + 2
          omega
        · rfl
        · intro q hq
          show (if q = s.nextP + 1 then PStatus.settled (.fulfilled v)
            else if q = s.nextP then PStatus.settled (.rejected .invalidInvocation)
            else s.pstore q) = s.pstore q
          rw [if_neg (by omega), if_neg (by omega)]
        · show admitsOf (s.trace ++ [.invoked w.id (deserializeEnc w.enc)]
              ++ [.taskSettled w.id (.fulfilled v)]) = admitsOf s.trace
          rw [admitsOf_append, admitsOf_append, admitsOf_invoked, admitsOf_settled]
          simp
        · show obsOf (s.trace ++ [.invoked w.id (deserializeEnc w.enc)]
              ++ [.taskSettled w.id (.fulfilled v)]) =
            obsOf s.trace ++ [OEv.inv w.id, OEv.stl w.id]
          rw [obsOf_append, obsOf_append, obsOf_invoked, obsOf_settled]
          simp
        · intro e he
          show e ∈ s.trace ++ [Event.invoked w.id (deserializeEnc w.enc)]
            ++ [Event.taskSettled w.id (.fulfilled v)]
          exact List.mem_append_left _ (List.mem_append_left _ he)
        · show s.nextP + 1 < s.nextP + 2
          omega
        · show s.nextP ≤ s.nextP + 1
          omega
        · show (if s.nextP + 1 = s.nextP + 1 then PStatus.settled (.fulfilled v)
            else if s.nextP + 1 = s.nextP then PStatus.settled (.rejected .invalidInvocation)
            else s.pstore (s.nextP + 1)) = PStatus.settled (.fulfilled v)
          rw [if_pos rfl]
        · show Event.taskSettled w.id (.fulfilled v) ∈ s.trace
            ++ [Event.invoked w.id (deserializeEnc w.enc)]
            ++ [Event.taskSettled w.id (.fulfilled v)]
          simp
        · exact hext
      | acons a tl =>
        cases tl with
        | anil =>
          have hq1 := enqueueFn_ok_pending_nil (emit { s with jobs := [] }
              (.invoked w.id (deserializeEnc w.enc))) (.acons a .anil)
              (.data (.prim .undefP)) a none (Or.inl ⟨rfl, rfl⟩)
              (by show s.pstore s.tailP = PStatus.pend []; exact chained_tail_status hch)
              (by show s.tailP ≠ s.nextP; have := hc.tailLt; omega)
              (serializeArg_undefItem _)
          have hsb : runBody (emit { s with jobs := [] }
              (.invoked w.id (deserializeEnc w.enc))) w.id (.enqThenRet (.acons a .anil) v) =
              ({ s with
                  jobs := [],
                  pstore := fun q =>
                    if q = s.nextP + 2 then PStatus.settled (.fulfilled v)
                    else if q = s.nextP + 1 then PStatus.pend []
                    else if q = s.tailP then
                      PStatus.pend [linkReaction ⟨s.nextSub, a, none, s.nextP, s.nextP + 1⟩]
                    else if q = s.nextP then PStatus.pend []
                    else s.pstore q,
                  nextP := s.nextP + 3,
                  tailP := s.nextP + 1,
                  subs := s.subs ++ [⟨s.nextSub, a, none, s.nextP, s.nextP + 1⟩],
                  nextSub := s.nextSub + 1,
                  trace := s.trace ++ [.invoked w.id (deserializeEnc w.enc)]
                    ++ [.admitted s.nextSub] ++ [.taskSettled w.id (.fulfilled v)] },
                s.nextP + 2) := by
            show allocP (emit (enqueueFn (emit { s with jobs := [] }
                (.invoked w.id (deserializeEnc w.enc))) (.acons a .anil)).1
              (.taskSettled w.id (.fulfilled v))) (.settled (.fulfilled v)) = _
            rw [hq1]
            rfl
          rw [e2, hsb]
          exact midFinish (midState_okEnq hc hext hch hwp hwsp0
            ⟨.enqThenRet (.acons a .anil) v, hsvc⟩ (deserializeEnc w.enc) a none v)
        | acons b tl2 =>
          cases tl2 with
          | anil =>
            cases hser : serializeArg s.heap a with
            | thrown =>
              have hq1 := enqueueFn_serThrown (emit { s with jobs := [] }
                  (.invoked w.id (deserializeEnc w.enc))) (.acons a (.acons b .anil)) a b
                  rfl hser
              have hsb : runBody (emit { s with jobs := [] }
                  (.invoked w.id (deserializeEnc w.enc))) w.id
                  (.enqThenRet (.acons a (.acons b .anil)) v) =
                  ({ s with
                      jobs := [],
                      trace := s.trace ++ [.invoked w.id (deserializeEnc w.enc)]
                        ++ [.taskSettled w.id (.fulfilled v)],
                      pstore := fun q =>
                        if q = s.nextP + 1 then PStatus.settled (.fulfilled v)
                        else if q = s.nextP then PStatus.settled (.rejected .serializationErr)
                        else s.pstore q,
                      nextP := s.nextP + 2 }, s.nextP + 1) := by
                show allocP (emit (enqueueFn (emit { s with jobs := [] }
                    (.invoked w.id (deserializeEnc w.enc))) (.acons a (.acons b .anil))).1
                  (.taskSettled w.id (.fulfilled v))) (.settled (.fulfilled v)) = _
                rw [hq1]
                rfl
              rw [e2, hsb]
              refine midFinish (midState_some hc hch hwp hwsp0
                ⟨.enqThenRet (.acons a (.acons b .anil)) v, hsvc⟩ _ _
                (.fulfilled v) ?_ ?_ ?_ ?_ ?_ ?_ ?_ ?_ ?_ ?_ ?_ ?_ ?_ ?_)
              · rfl
              · rfl
              · rfl
              · show s.nextP ≤ s.nextP + 2
                omega
              · rfl
              · intro q hq
                show (if q = s.nextP + 1 then PStatus.settled (.fulfilled v)
                  else if q = s.nextP then PStatus.settled (.rejected .serializationErr)
                  else s.pstore q) = s.pstore q
                rw [if_neg (by omega), if_neg (by omega)]
              · show admitsOf (s.trace ++ [.invoked w.id (deserializeEnc w.enc)]
                    ++ [.taskSettled w.id (.fulfilled v)]) = admitsOf s.trace
                rw [admitsOf_append, admitsOf_append, admitsOf_invoked, admitsOf_settled]
                simp
              · show obsOf (s.trace ++ [.invoked w.id (deserializeEnc w.enc)]
                    ++ [.taskSettled w.id (.fulfilled v)]) =
                  obsOf s.trace ++ [OEv.inv w.id, OEv.stl w.id]
                rw [obsOf_append, obsOf_append, obsOf_invoked, obsOf_settled]
                simp
              · intro e he
                show e ∈ s.trace ++ [Event.invoked w.id (deserializeEnc w.enc)]
                  ++ [Event.taskSettled w.id (.fulfilled v)]
                exact List.mem_append_left _ (List.mem_append_left _ he)
              · show s.nextP + 1 < s.nextP + 2
                omega
              · show s.nextP ≤ s.nextP + 1
                omega
              · show (if s.nextP + 1 = s.nextP + 1 then PStatus.settled (.fulfilled v)
                  else if s.nextP + 1 = s.nextP then
                    PStatus.settled (.rejected .serializationErr)
                  else s.pstore (s.nextP + 1)) = PStatus.settled (.fulfilled v)
                rw [if_pos rfl]
              · show Event.taskSettled w.id (.fulfilled v) ∈ s.trace
                  ++ [Event.invoked w.id (deserializeEnc w.enc)]
                  ++ [Event.taskSettled w.id (.fulfilled v)]
                simp
              · exact hext
            | undefR =>
              have hq1 := enqueueFn_ok_pending_nil (emit { s with jobs := [] }
                  (.invoked w.id (deserializeEnc w.enc))) (.acons a (.acons b .anil))
                  a b none (Or.inr rfl)
                  (by show s.pstore s.tailP = PStatus.pend []; exact chained_tail_status hch)
                  (by show s.tailP ≠ s.nextP; have := hc.tailLt; omega)
                  hser
              have hsb : runBody (emit { s with jobs := [] }
                  (.invoked w.id (deserializeEnc w.enc))) w.id
                  (.enqThenRet (.acons a (.acons b .anil)) v) =
                  ({ s with
                      jobs := [],
                      pstore := fun q =>
                        if q = s.nextP + 2 then PStatus.settled (.fulfilled v)
                        else if q = s.nextP + 1 then PStatus.pend []
                        else if q = s.tailP then
                          PStatus.pend
                            [linkReaction ⟨s.nextSub, b, none, s.nextP, s.nextP + 1⟩]
                        else if q = s.nextP then PStatus.pend []
                        else s.pstore q,
                      nextP := s.nextP + 3,
                      tailP := s.nextP + 1,
                      subs := s.subs ++ [⟨s.nextSub, b, none, s.nextP, s.nextP + 1⟩],
                      nextSub := s.nextSub + 1,
                      trace := s.trace ++ [.invoked w.id (deserializeEnc w.enc)]
                        ++ [.admitted s.nextSub] ++ [.taskSettled w.id (.fulfilled v)] },
                    s.nextP + 2) := by
                show allocP (emit (enqueueFn (emit { s with jobs := [] }
                    (.invoked w.id (deserializeEnc w.enc))) (.acons a (.acons b .anil))).1
                  (.taskSettled w.id (.fulfilled v))) (.settled (.fulfilled v)) = _
                rw [hq1]
                rfl
              rw [e2, hsb]
              exact midFinish (midState_okEnq hc hext hch hwp hwsp0
                ⟨.enqThenRet (.acons a (.acons b .anil)) v, hsvc⟩
                (deserializeEnc w.enc) b none v)
            | ok j =>
              have hq1 := enqueueFn_ok_pending_nil (emit { s with jobs := [] }
                  (.invoked w.id (deserializeEnc w.enc))) (.acons a (.acons b .anil))
                  a b (some j) (Or.inr rfl)
                  (by show s.pstore s.tailP = PStatus.pend []; exact chained_tail_status hch)
                  (by show s.tailP ≠ s.nextP; have := hc.tailLt; omega)
                  hser
              have hsb : runBody (emit { s with jobs := [] }
                  (.invoked w.id (deserializeEnc w.enc))) w.id
                  (.enqThenRet (.acons a (.acons b .anil)) v) =
                  ({ s with
                      jobs := [],
                      pstore := fun q =>
                        if q = s.nextP + 2 then PStatus.settled (.fulfilled v)
                        else if q = s.nextP + 1 then PStatus.pend []
                        else if q = s.tailP then
                          PStatus.pend
                            [linkReaction ⟨s.nextSub, b, some j, s.nextP, s.nextP + 1⟩]
                        else if q = s.nextP then PStatus.pend []
                        else s.pstore q,
                      nextP := s.nextP + 3,
                      tailP := s.nextP + 1,
                      subs := s.subs ++ [⟨s.nextSub, b, some j, s.nextP, s.nextP + 1⟩],
                      nextSub := s.nextSub + 1,
                      trace := s.trace ++ [.invoked w.id (deserializeEnc w.enc)]
                        ++ [.admitted s.nextSub] ++ [.taskSettled w.id (.fulfilled v)] },
                    s.nextP + 2) := by
                show allocP (emit (enqueueFn (emit { s with jobs := [] }
                    (.invoked w.id (deserializeEnc w.enc))) (.acons a (.acons b .anil))).1
                  (.taskSettled w.id (.fulfilled v))) (.settled (.fulfilled v)) = _
                rw [hq1]
                rfl
              rw [e2, hsb]
              exact midFinish (midState_okEnq hc hext hch hwp hwsp0
                ⟨.enqThenRet (.acons a (.acons b .anil)) v, hsvc⟩
                (deserializeEnc w.enc) b (some j) v)
          | acons c tl3 =>
            have hq1 := enqueueFn_badArity (emit { s with jobs := [] }
                (.invoked w.id (deserializeEnc w.enc)))
                (.acons a (.acons b (.acons c tl3))) (Or.inr ⟨a, b, c, tl3, rfl⟩)
            have hsb : runBody (emit { s with jobs := [] }
                (.invoked w.id (deserializeEnc w.enc))) w.id
                (.enqThenRet (.acons a (.acons b (.acons c tl3))) v) =
                ({ s with
                    jobs := [],
                    trace := s.trace ++ [.invoked w.id (deserializeEnc w.enc)]
                      ++ [.taskSettled w.id (.fulfilled v)],
                    pstore := fun q =>
                      if q = s.nextP + 1 then PStatus.settled (.fulfilled v)
                      else if q = s.nextP then PStatus.settled (.rejected .invalidInvocation)
                      else s.pstore q,
                    nextP := s.nextP + 2 }, s.nextP + 1) := by
              show allocP (emit (enqueueFn (emit { s with jobs := [] }
                  (.invoked w.id (deserializeEnc w.enc)))
                  (.acons a (.acons b (.acons c tl3)))).1
                (.taskSettled w.id (.fulfilled v))) (.settled (.fulfilled v)) = _
              rw [hq1]
              rfl
            rw [e2, hsb]
            refine midFinish (midState_some hc hch hwp hwsp0
              ⟨.enqThenRet (.acons a (.acons b (.acons c tl3))) v, hsvc⟩ _ _
              (.fulfilled v) ?_ ?_ ?_ ?_ ?_ ?_ ?_ ?_ ?_ ?_ ?_ ?_ ?_ ?_)
            · rfl
            · rfl
            · rfl
            · show s.nextP ≤ s.nextP + 2
              omega
            · rfl
            · intro q hq
              show (if q = s.nextP + 1 then PStatus.settled (.fulfilled v)
                else if q = s.nextP then PStatus.settled (.rejected .invalidInvocation)
                else s.pstore q) = s.pstore q
              rw [if_neg (by omega), if_neg (by omega)]
            · show admitsOf (s.trace ++ [.invoked w.id (deserializeEnc w.enc)]
                  ++ [.taskSettled w.id (.fulfilled v)]) = admitsOf s.trace
              rw [admitsOf_append, admitsOf_append, admitsOf_invoked, admitsOf_settled]
              simp
            · show obsOf (s.trace ++ [.invoked w.id (deserializeEnc w.enc)]
                  ++ [.taskSettled w.id (.fulfilled v)]) =
                obsOf s.trace ++ [OEv.inv w.id, OEv.stl w.id]
              rw [obsOf_append, obsOf_append, obsOf_invoked, obsOf_settled]
              simp
            · intro e he
              show e ∈ s.trace ++ [Event.invoked w.id (deserializeEnc w.enc)]
                ++ [Event.taskSettled w.id (.fulfilled v)]
              exact List.mem_append_left _ (List.mem_append_left _ he)
            · show s.nextP + 1 < s.nextP + 2
              omega
            · show s.nextP ≤ s.nextP + 1
              omega
            · show (if s.nextP + 1 = s.nextP + 1 then PStatus.settled (.fulfilled v)
                else if s.nextP + 1 = s.nextP then
                  PStatus.settled (.rejected .invalidInvocation)
                else s.pstore (s.nextP + 1)) = PStatus.settled (.fulfilled v)
              rw [if_pos rfl]
            · show Event.taskSettled w.id (.fulfilled v) ∈ s.trace
                ++ [Event.invoked w.id (deserializeEnc w.enc)]
                ++ [Event.taskSettled w.id (.fulfilled v)]
              simp
            · exact hext

/-- Settling the external future a task returned, while the machine awaits
it: the outcome promise settles, the task-settled event is emitted and the
`.then(resolve, reject)` reaction is scheduled. -/
theorem inv_extSettle_awaiting {s : QState} {done : List SubRec} {c : SubRec}
    {ws : List SubRec} {op p2 p3 tok0 : Nat}
    (h : ShapeAll s done (.chainRun c ws op p2 p3 (.awaiting tok0)))
    (tok : Nat) (o : Outcome) :
    Inv (applyAct s (.extSettle tok o)) := by
  have h0 := h
  obtain ⟨hc, hfn, hch, hws, hst⟩ := h
  obtain ⟨g1, g2, g3, g4, g5, g6⟩ := hst
  have hcmem : c ∈ s.subs := mem_phRecs_subs hc (by simp [phRecs])
  have hwsmem : ∀ r ∈ ws, r ∈ s.subs := fun r hr =>
    mem_phRecs_subs hc (by simp [phRecs, hr])
  have e0 : applyAct s (.extSettle tok o) =
      (match s.externals.find? (fun e => e.1 == tok) with
       | none => s
       | some (_, pid, id) =>
         settleP
           (emit { s with externals := s.externals.eraseP (fun e => e.1 == tok) }
             (.taskSettled id o))
           pid o) := rfl
  by_cases htk : tok0 = tok
  · subst htk
    have hfind : s.externals.find? (fun e => e.1 == tok0) = some (tok0, op, c.id) := by
      rw [g6]
      simp [List.find?]
    have herase : s.externals.eraseP (fun e => e.1 == tok0) = [] := by
      rw [g6]
      simp [List.eraseP]
    have estep : applyAct s (.extSettle tok0 o) =
        { s with
            externals := [],
            trace := s.trace ++ [.taskSettled c.id o],
            pstore := fun q => if q = op then .settled o else s.pstore q,
            jobs := [⟨⟨some (.settleF c.cp), some (.settleR c.cp), p2⟩, o⟩] } := by
      rw [e0, hfind, herase]
      show settleP (emit { s with externals := [] } (.taskSettled c.id o)) op o = _
      rw [settleP_pend (show (emit { s with externals := ([] : List (Nat × Nat × Nat)) }
        (.taskSettled c.id o)).pstore op =
        .pend [⟨some (.settleF c.cp), some (.settleR c.cp), p2⟩] from g2) o]
      refine qstate_ext (funext fun q => rfl) rfl rfl ?_ rfl rfl rfl rfl rfl
      simp [emit, g5]
    rw [estep]
    have hopxt : op ∈ phExtra (.chainRun c ws op p2 p3 (.awaiting tok0)) := by
      simp [phExtra]
    have hxtnd : (phExtra (.chainRun c ws op p2 p3 (.awaiting tok0))).Nodup :=
      (nodup_split hc.pidsNodup).2.1
    have hopp2 : op ≠ p2 := by
      simp [phExtra, List.nodup_cons] at hxtnd
      exact hxtnd.1.1
    have hopp3 : op ≠ p3 := by
      simp [phExtra, List.nodup_cons] at hxtnd
      exact hxtnd.1.2
    have hps : ∀ q, q ∈ subPids s.subs →
        (if q = op then PStatus.settled o else s.pstore q) = s.pstore q := by
      intro q hq
      rw [if_neg (subPid_ne_extra hc hq hopxt)]
    refine ⟨done, .chainRun c ws op p2 p3 (.outJob o), ⟨?_, ?_, ?_, ?_, ?_, ?_, ?_, ?_, ?_⟩,
      hfn, ?_, ?_, ?_, ?_, ?_, ?_, ?_, ?_, ?_⟩
    · exact hc.subsEq
    · exact hc.idsEq
    · show admitsOf (s.trace ++ [.taskSettled c.id o]) = s.subs.map (fun r => r.id)
      rw [admitsOf_append, admitsOf_settled, hc.admitsEq]
      simp
    · show obsOf (s.trace ++ [.taskSettled c.id o]) =
        altOf (done.map (fun r => r.id)) ++ phObs (.chainRun c ws op p2 p3 (.outJob o))
      rw [obsOf_append, obsOf_settled, hc.obsEq]
      simp [phObs]
    · exact hc.pidsNodup
    · exact hc.pidsLt
    · exact hc.tailLt
    · intro r hr
      obtain ⟨hb2, d1, d2⟩ := hc.doneOk r hr
      have hrs : r ∈ s.subs := by
        rw [hc.subsEq]; exact List.mem_append_left _ hr
      refine ⟨hb2, (hps _ (nt_mem_subPids hrs)).trans d1, ?_⟩
      obtain ⟨o2, ho2⟩ := d2
      exact ⟨o2, (hps _ (cp_mem_subPids hrs)).trans ho2⟩
    · intro r hr o2 hcp
      have hcp2 : (if r.cp = op then PStatus.settled o else s.pstore r.cp) =
          PStatus.settled o2 := hcp
      rw [hps _ (cp_mem_subPids hr)] at hcp2
      exact List.mem_append_left _ (hc.cpSettledEvt r hr o2 hcp2)
    · refine chained_congr hch rfl ?_
      intro q hq
      rcases hq with hq | ⟨r, hr, hq⟩
      · subst hq; exact hps _ (nt_mem_subPids hcmem)
      · subst hq; exact hps _ (nt_mem_subPids (hwsmem r hr))
    · intro r hr
      exact (hps _ (cp_mem_subPids (hwsmem r hr))).trans (hws r hr)
    · exact (hps _ (cp_mem_subPids hcmem)).trans g1
    · show (if op = op then PStatus.settled o else s.pstore op) = PStatus.settled o
      rw [if_pos rfl]
    · show (if p2 = op then PStatus.settled o else s.pstore p2) = _
      rw [if_neg (fun he => hopp2 he.symm)]
      exact g3
    · show (if p3 = op then PStatus.settled o else s.pstore p3) = _
      rw [if_neg (fun he => hopp3 he.symm)]
      exact g4
    · rfl
    · rfl
    · show Event.taskSettled c.id o ∈ s.trace ++ [Event.taskSettled c.id o]
      simp
  · have hfind : s.externals.find? (fun e => e.1 == tok) = none := by
      have hb2 : (tok0 == tok) = false := beq_eq_false_iff_ne.mpr htk
      rw [g6]
      simp [List.find?, hb2]
    have estep : applyAct s (.extSettle tok o) = s := by
      rw [e0, hfind]
    rw [estep]
    exact ⟨done, _, h0⟩

/-- The external-settle action preserves the invariant. -/
theorem inv_extSettle {s : QState} (h : Inv s) (tok : Nat) (o : Outcome) :
    Inv (applyAct s (.extSettle tok o)) := by
  obtain ⟨done, ph, hall⟩ := h
  cases ph with
  | idle =>
    rw [extSettle_nil hall.2.2.1]
    exact ⟨done, _, hall⟩
  | toStart w ws =>
    rw [extSettle_nil hall.2.2.1]
    exact ⟨done, _, hall⟩
  | chainRun c ws op p2 p3 st =>
    cases st with
    | awaiting tok0 => exact inv_extSettle_awaiting hall tok o
    | outJob o2 =>
      rw [extSettle_nil hall.2.2.2.2.2.2.2.2.2.1]
      exact ⟨done, _, hall⟩
    | p2Job o2 =>
      rw [extSettle_nil hall.2.2.2.2.2.2.2.2.2]
      exact ⟨done, _, hall⟩
    | p3Job o2 =>
      rw [extSettle_nil hall.2.2.2.2.2.2.2.2.2]
      exact ⟨done, _, hall⟩
  | poisonJob dead k ws =>
    rw [extSettle_nil hall.2.2.1]
    exact ⟨done, _, hall⟩
  | poisonIdle dead =>
    rw [extSettle_nil hall.2.2.1]
    exact ⟨done, _, hall⟩

/-- One microtask step preserves the invariant. -/
theorem inv_micro {s : QState} (h : Inv s) : Inv (stepMicro s) := by
  obtain ⟨done, ph, hall⟩ := h
  cases ph with
  | idle =>
    rw [stepMicro_empty hall.2.1]
    exact ⟨done, _, hall⟩
  | toStart w ws => exact inv_micro_toStart hall
  | chainRun c ws op p2 p3 st =>
    cases st with
    | awaiting tok0 =>
      rw [stepMicro_empty hall.2.2.2.2.2.2.2.2.1]
      exact ⟨done, _, hall⟩
    | outJob o => exact inv_micro_outJob hall
    | p2Job o => exact inv_micro_p2Job hall
    | p3Job o => exact inv_micro_p3Job hall
  | poisonJob dead k ws => exact inv_micro_poisonJob hall
  | poisonIdle dead =>
    rw [stepMicro_empty hall.2.1]
    exact ⟨done, _, hall⟩

/-- Mutating the caller-visible heap does not affect the invariant. -/
theorem inv_setHeap {s : QState} (h : Inv s) (hp : Heap) :
    Inv (applyAct s (.setHeap hp)) := by
  obtain ⟨done, ph, hall⟩ := h
  exact ⟨done, ph, shapeAll_congr hall rfl rfl rfl rfl rfl rfl (Nat.le_refl _)
    (fun q _ => rfl)⟩

/-- The freshly constructed queue satisfies the invariant. -/
theorem inv_init : Inv initQ := by
  refine ⟨[], .idle, ⟨?_, ?_, ?_, ?_, ?_, ?_, ?_, ?_, ?_⟩, rfl, rfl, ?_⟩
  · rfl
  · rfl
  · rfl
  · rfl
  · simp [subPids, phExtra, initQ]
  · intro p hp
    simp [subPids, phExtra, initQ] at hp
  · show (0 : Nat) < 1
    omega
  · intro r hr
    simp at hr
  · intro r hr
    simp [initQ] at hr
  · show (if (0 : Nat) = 0 then PStatus.settled (.fulfilled .undef) else PStatus.pend []) =
      PStatus.settled (.fulfilled .undef)
    rw [if_pos rfl]

/-- Every schedule action preserves the invariant. -/
theorem inv_step {s : QState} (h : Inv s) (a : Action) : Inv (applyAct s a) := by
  cases a with
  | micro => exact inv_micro h
  | enq args => exact inv_enq h args
  | extSettle tok o => exact inv_extSettle h tok o
  | setHeap hp => exact inv_setHeap h hp

theorem inv_runActs_from {s : QState} (h : Inv s) (l : List Action) :
    Inv (runActs s l) := by
  induction l generalizing s with
  | nil => exact h
  | cons a l ih => exact ih (inv_step h a)

/-- Every state the machine reaches from the freshly constructed queue
satisfies the invariant. -/
theorem inv_reach (l : List Action) : Inv (runActs initQ l) :=
  inv_runActs_from inv_init l

theorem serialObs_alt (ids : List Nat) (t : List OEv)
    (ht : t = [] ∨ (∃ i, t = [OEv.inv i]) ∨ ∃ i, t = [OEv.inv i, OEv.stl i]) :
    serialObs (altOf ids ++ t) = true := by
  induction ids with
  | nil =>
    rcases ht with h | ⟨i, h⟩ | ⟨i, h⟩ <;> subst h <;> simp [altOf, serialObs]
  | cons i r ih =>
    show serialObs (OEv.inv i :: OEv.stl i :: (altOf r ++ t)) = true
    simp [serialObs, ih]

theorem invokedIds_obsOf (tr : List Event) : invokedIds tr = obsFst (obsOf tr) := by
  induction tr with
  | nil => rfl
  | cons e tr ih =>
    cases e with
    | admitted id => simpa [invokedIds, obsOf, obsFst, List.filterMap_cons] using ih
    | invoked id itv => simpa [invokedIds, obsOf, obsFst, List.filterMap_cons] using ih
    | taskSettled id o => simpa [invokedIds, obsOf, obsFst, List.filterMap_cons] using ih

theorem obsFst_altOf (ids : List Nat) (t : List OEv) :
    obsFst (altOf ids ++ t) = ids ++ obsFst t := by
  induction ids with
  | nil => rfl
  | cons i r ih =>
    show obsFst (OEv.inv i :: OEv.stl i :: (altOf r ++ t)) = i :: (r ++ obsFst t)
    simp only [obsFst, List.filterMap_cons] at ih ⊢
    simp [ih]

/-- In every state satisfying the invariant, the tasks invoked so far form
an initial segment of the admissions, in admission order. -/
theorem invoked_prefix_admits {s : QState} (h : Inv s) :
    invokedIds s.trace <+: admitsOf s.trace := by
  obtain ⟨done, ph, hc, ho⟩ := h
  rw [invokedIds_obsOf, hc.obsEq, hc.admitsEq, hc.subsEq]
  rw [obsFst_altOf, List.map_append]
  have hsub : obsFst (phObs ph) <+: (phRecs ph).map (fun r => r.id) := by
    cases ph with
    | idle => exact List.nil_prefix
    | toStart w ws => exact List.nil_prefix
    | chainRun c ws op p2 p3 st =>
      cases st with
      | awaiting tok =>
        exact ⟨ws.map (fun r => r.id), by simp [phObs, phRecs, obsFst]⟩
      | outJob o =>
        exact ⟨ws.map (fun r => r.id), by simp [phObs, phRecs, obsFst]⟩
      | p2Job o =>
        exact ⟨ws.map (fun r => r.id), by simp [phObs, phRecs, obsFst]⟩
      | p3Job o =>
        exact ⟨ws.map (fun r => r.id), by simp [phObs, phRecs, obsFst]⟩
    | poisonJob dead k ws => exact List.nil_prefix
    | poisonIdle dead => exact List.nil_prefix
  obtain ⟨t, ht⟩ := hsub
  exact ⟨t, by rw [List.append_assoc, ht]⟩

/-- C1: under every schedule of enqueue calls, microtask steps, external
settlements and heap mutations, the queue runs the admitted tasks serially
and in admission order: the observed trace alternates invocation and
settlement (task N+1 is never invoked before task N settled), and the
invoked ids are an initial segment of the admitted ids in admission
order. -/
theorem C1_serial_execution : ∀ l : List Action,
    serialObs (obsOf (runActs initQ l).trace) = true ∧
    invokedIds (runActs initQ l).trace <+: admitsOf (runActs initQ l).trace := by
  intro l
  obtain ⟨done, ph, hc, ho⟩ := inv_reach l
  refine ⟨?_, invoked_prefix_admits ⟨done, ph, hc, ho⟩⟩
  rw [hc.obsEq]
  refine serialObs_alt _ _ ?_
  cases ph with
  | idle => exact Or.inl rfl
  | toStart w ws => exact Or.inl rfl
  | chainRun c ws op p2 p3 st =>
    cases st with
    | awaiting tok => exact Or.inr (Or.inl ⟨c.id, rfl⟩)
    | outJob o => exact Or.inr (Or.inr ⟨c.id, rfl⟩)
    | p2Job o => exact Or.inr (Or.inr ⟨c.id, rfl⟩)
    | p3Job o => exact Or.inr (Or.inr ⟨c.id, rfl⟩)
  | poisonJob dead k ws => exact Or.inl rfl
  | poisonIdle dead => exact Or.inl rfl

theorem goodPS_upd {ps : Nat → PStatus} (h : GoodPS ps) (p : Nat) (st : PStatus)
    (hst : ∀ rs, st = .pend rs → ∀ r ∈ rs, goodReaction r = true) :
    GoodPS (fun q => if q = p then st else ps q) := by
  intro q rs hq
  have hq2 : (if q = p then st else ps q) = .pend rs := hq
  by_cases hqp : q = p
  · rw [if_pos hqp] at hq2
    exact hst rs hq2
  · rw [if_neg hqp] at hq2
    exact h q rs hq2

theorem goodState_settleP {s : QState} (h : GoodState s) (p : Nat) (o : Outcome) :
    GoodState (settleP s p o) := by
  obtain ⟨h1, h2, h3⟩ := h
  unfold settleP
  cases hps : s.pstore p with
  | settled o2 => exact ⟨h1, h2, h3⟩
  | pend rs =>
    refine ⟨h1, ?_, ?_⟩
    · intro j hj
      have hj2 : j ∈ s.jobs ++ rs.map (fun r => ⟨r, o⟩) := hj
      rcases List.mem_append.mp hj2 with hj3 | hj3
      · exact h2 j hj3
      · obtain ⟨r, hr, hrj⟩ := List.mem_map.mp hj3
        rw [← hrj]
        exact h3 p rs hps r hr
    · exact goodPS_upd h3 p (.settled o) (by intro rs2 he; cases he)

theorem goodState_emit {s : QState} (h : GoodState s) (e : Event) :
    GoodState (emit s e) := h

theorem goodState_allocP {s : QState} (h : GoodState s) (st : PStatus)
    (hst : ∀ rs, st = .pend rs → ∀ r ∈ rs, goodReaction r = true) :
    GoodState (allocP s st).1 := by
  obtain ⟨h1, h2, h3⟩ := h
  exact ⟨h1, h2, goodPS_upd h3 s.nextP st hst⟩

theorem goodState_thenP {s : QState} (h : GoodState s) (p : Nat)
    (onF onR : Option Handler)
    (hF : goodORct onF = true) (hR : goodORct onR = true) :
    GoodState (thenP s p onF onR).1 := by
  obtain ⟨h1, h2, h3⟩ := h
  have hgr : goodReaction ⟨onF, onR, s.nextP⟩ = true := by
    simp [goodReaction, hF, hR]
  unfold thenP
  cases hps : s.pstore p with
  | pend rs =>
    refine ⟨h1, h2, ?_⟩
    show GoodPS (fun q =>
      if q = s.nextP then .pend [] else if q = p then .pend (rs ++ [⟨onF, onR, s.nextP⟩])
      else s.pstore q)
    refine goodPS_upd (goodPS_upd h3 p _ ?_) s.nextP (.pend []) (by intro rs2 he r hr; simp at he; rw [he] at hr; cases hr)
    intro rs2 he r hr
    have he2 : rs ++ [(⟨onF, onR, s.nextP⟩ : Reaction)] = rs2 := by
      cases he; rfl
    rw [← he2] at hr
    rcases List.mem_append.mp hr with hr1 | hr1
    · exact h3 p rs hps r hr1
    · simp at hr1
      rw [hr1]
      exact hgr
  | settled o =>
    refine ⟨h1, ?_, ?_⟩
    · intro j hj
      have hj2 : j ∈ s.jobs ++ [⟨⟨onF, onR, s.nextP⟩, o⟩] := hj
      rcases List.mem_append.mp hj2 with hj3 | hj3
      · exact h2 j hj3
      · simp at hj3
        rw [hj3]
        exact hgr
    · exact goodPS_upd h3 s.nextP (.pend [])
        (by intro rs2 he r hr; simp at he; rw [he] at hr; cases hr)

theorem goodState_resolveTo {s : QState} (h : GoodState s) (tgt : Nat) (v : Val) :
    GoodState (resolveTo s tgt v) := by
  cases v with
  | pureV pv => exact goodState_settleP h tgt (.fulfilled pv)
  | promV q =>
    show GoodState (match s.pstore q with
      | .settled o => settleP s tgt o
      | .pend rs =>
        { s with pstore := fun x =>
            if x = q then .pend (rs ++ [(⟨none, none, tgt⟩ : Reaction)]) else s.pstore x })
    obtain ⟨h1, h2, h3⟩ := h
    cases hps : s.pstore q with
    | settled o => exact goodState_settleP ⟨h1, h2, h3⟩ tgt o
    | pend rs =>
      refine ⟨h1, h2, ?_⟩
      refine goodPS_upd h3 q _ ?_
      intro rs2 he r hr
      have he2 : rs ++ [(⟨none, none, tgt⟩ : Reaction)] = rs2 := by
        cases he; rfl
      rw [← he2] at hr
      rcases List.mem_append.mp hr with hr1 | hr1
      · exact h3 q rs hps r hr1
      · simp at hr1
        rw [hr1]
        rfl

theorem goodState_enqLink2 {s : QState} (h : GoodState s) (cp : Nat) (enc : Option Json)
    (svc : JsArg) (hsvc : goodSvc svc = true) :
    GoodState (enqLink2 s cp enc svc).1 := by
  have h2 := goodState_thenP
    (show GoodState (emit { s with nextSub := s.nextSub + 1 } (.admitted s.nextSub)) from h)
    s.tailP (some (.chainLink s.nextSub enc svc cp)) none
    (by simp [goodORct, goodHandler, hsvc]) rfl
  obtain ⟨g1, g2, g3⟩ := h2
  refine ⟨?_, g2, g3⟩
  intro r hr
  rcases List.mem_append.mp hr with hr1 | hr1
  · exact g1 r hr1
  · simp at hr1
    rw [hr1]
    exact hsvc

theorem goodState_enqLink {s : QState} (h : GoodState s) (cp : Nat) (it svc : JsArg)
    (hsvc : goodSvc svc = true) :
    GoodState (enqLink s cp it svc).1 := by
  unfold enqLink
  cases hser : serializeArg s.heap it with
  | thrown => exact goodState_settleP h cp (.rejected .serializationErr)
  | undefR => exact goodState_enqLink2 h cp none svc hsvc
  | ok j => exact goodState_enqLink2 h cp (some j) svc hsvc

theorem goodState_enqueueFn {s : QState} (h : GoodState s) (args : ArgList)
    (ha : goodEnqArgs args = true) :
    GoodState (enqueueFn s args).1 := by
  have h0 : GoodState (allocP s (.pend [])).1 :=
    goodState_allocP h (.pend []) (by intro rs he r hr; cases he; cases hr)
  cases args with
  | anil => exact goodState_settleP h0 (allocP s (.pend [])).2 (.rejected .invalidInvocation)
  | acons a tl =>
    cases tl with
    | anil =>
      exact goodState_enqLink h0 (allocP s (.pend [])).2 (.data (.prim .undefP)) a
        (by simpa [goodEnqArgs] using ha)
    | acons b tl2 =>
      cases tl2 with
      | anil =>
        exact goodState_enqLink h0 (allocP s (.pend [])).2 a b
          (by simpa [goodEnqArgs] using ha)
      | acons c tl3 =>
        exact goodState_settleP h0 (allocP s (.pend [])).2 (.rejected .invalidInvocation)

theorem goodState_runBody {s : QState} (h : GoodState s) (id : Nat) (body : ServiceBody)
    (hb : goodBody body = true) :
    GoodState (runBody s id body).1 := by
  cases body with
  | ret v => exact goodState_allocP (goodState_emit h _) _ (by intro rs he; cases he)
  | throwE e => exact goodState_allocP (goodState_emit h _) _ (by intro rs he; cases he)
  | retPending tok =>
    exact goodState_allocP h (.pend []) (by intro rs he r hr; cases he; cases hr)
  | enqThenRet args v =>
    have ha : goodEnqArgs args = true := by simpa [goodBody] using hb
    exact goodState_allocP (goodState_emit (goodState_enqueueFn h args ha) _) _
      (by intro rs he; cases he)

theorem goodState_runHandler {s : QState} (h : GoodState s) (hd : Handler) (o : Outcome)
    (hh : goodHandler hd = true) :
    GoodState (runHandler s hd o).1 := by
  cases hd with
  | chainLink id enc svc cp =>
    cases svc with
    | data d => simp [goodHandler, goodSvc] at hh
    | func body =>
      have hb : goodBody body = true := by simpa [goodHandler, goodSvc] using hh
      have g1 := goodState_runBody
        (goodState_emit h (.invoked id (deserializeEnc enc))) id body hb
      have g2 := goodState_thenP g1
        (runBody (emit s (.invoked id (deserializeEnc enc))) id body).2
        (some (.settleF cp)) (some (.settleR cp))
        (by simp [goodORct, goodHandler]) (by simp [goodORct, goodHandler])
      have g3 := goodState_thenP g2
        (thenP (runBody (emit s (.invoked id (deserializeEnc enc))) id body).1
          (runBody (emit s (.invoked id (deserializeEnc enc))) id body).2
          (some (.settleF cp)) (some (.settleR cp))).2
        none none rfl rfl
      exact g3
  | settleF cp =>
    cases o with
    | fulfilled v => exact goodState_settleP h cp (.fulfilled v)
    | rejected e => exact h
  | settleR cp =>
    cases o with
    | rejected e => exact goodState_settleP h cp (.rejected e)
    | fulfilled v => exact h

theorem goodState_runJob {s : QState} (h : GoodState s) (j : Job)
    (hj : goodReaction j.rct = true) :
    GoodState (runJob s j) := by
  obtain ⟨⟨onF, onR, tgt⟩, o⟩ := j
  simp [goodReaction, Bool.and_eq_true] at hj
  cases o with
  | fulfilled v =>
    cases onF with
    | none => exact goodState_settleP h tgt (.fulfilled v)
    | some hd =>
      have hh : goodHandler hd = true := by simpa [goodORct] using hj.1
      have g1 := goodState_runHandler h hd (.fulfilled v) hh
      show GoodState (applyHRes (runHandler s hd (.fulfilled v)).1 tgt
        (runHandler s hd (.fulfilled v)).2)
      cases hres : (runHandler s hd (.fulfilled v)).2 with
      | retV v2 => exact goodState_resolveTo g1 tgt v2
      | thrE e2 => exact goodState_settleP g1 tgt (.rejected e2)
  | rejected err =>
    cases onR with
    | none => exact goodState_settleP h tgt (.rejected err)
    | some hd =>
      have hh : goodHandler hd = true := by simpa [goodORct] using hj.2
      have g1 := goodState_runHandler h hd (.rejected err) hh
      show GoodState (applyHRes (runHandler s hd (.rejected err)).1 tgt
        (runHandler s hd (.rejected err)).2)
      cases hres : (runHandler s hd (.rejected err)).2 with
      | retV v2 => exact goodState_resolveTo g1 tgt v2
      | thrE e2 => exact goodState_settleP g1 tgt (.rejected e2)

theorem goodState_stepMicro {s : QState} (h : GoodState s) : GoodState (stepMicro s) := by
  obtain ⟨h1, h2, h3⟩ := h
  unfold stepMicro
  cases hj : s.jobs with
  | nil => exact ⟨h1, h2, h3⟩
  | cons j rest =>
    have hjg : goodReaction j.rct = true := h2 j (by rw [hj]; simp)
    have hrest : GoodState { s with jobs := rest } := by
      refine ⟨h1, ?_, h3⟩
      intro j2 hj2
      exact h2 j2 (by rw [hj]; exact List.mem_cons.mpr (Or.inr hj2))
    exact goodState_runJob hrest j hjg

theorem goodState_extSettle {s : QState} (h : GoodState s) (tok : Nat) (o : Outcome) :
    GoodState (applyAct s (.extSettle tok o)) := by
  show GoodState (match s.externals.find? (fun e => e.1 == tok) with
    | none => s
    | some (_, pid, id) =>
      settleP (emit { s with externals := s.externals.eraseP (fun e => e.1 == tok) }
        (.taskSettled id o)) pid o)
  cases hf : s.externals.find? (fun e => e.1 == tok) with
  | none => exact h
  | some x =>
    obtain ⟨t1, pid, id⟩ := x
    exact goodState_settleP
      (show GoodState (emit { s with externals := s.externals.eraseP (fun e => e.1 == tok) }
        (.taskSettled id o)) from h) pid o

theorem goodState_step {s : QState} (h : GoodState s) (a : Action) (ha : goodAct a = true) :
    GoodState (applyAct s a) := by
  cases a with
  | micro => exact goodState_stepMicro h
  | enq args => exact goodState_enqueueFn h args (by simpa [goodAct] using ha)
  | extSettle tok o => exact goodState_extSettle h tok o
  | setHeap hp => exact h

theorem goodState_init : GoodState initQ := by
  refine ⟨?_, ?_, ?_⟩
  · intro r hr
    simp [initQ] at hr
  · intro j hj
    simp [initQ] at hj
  · intro p rs hp r hr
    have hp2 : (if p = 0 then PStatus.settled (.fulfilled .undef) else PStatus.pend []) =
        .pend rs := hp
    by_cases h0 : p = 0
    · rw [if_pos h0] at hp2
      cases hp2
    · rw [if_neg h0] at hp2
      cases hp2
      cases hr

theorem goodState_runActs {s : QState} (h : GoodState s) (l : List Action)
    (hl : ∀ a ∈ l, goodAct a = true) : GoodState (runActs s l) := by
  induction l generalizing s with
  | nil => exact h
  | cons a l ih =>
    exact ih (goodState_step h a (hl a (by simp))) (fun a2 ha2 => hl a2 (by simp [ha2]))

/-! ## The chain links of well-behaved runs settle only fulfilled -/

theorem chained_status {s : QState} {p : Nat} {ws : List SubRec} (h : Chained s p ws) :
    ∃ rs, s.pstore p = .pend rs := by
  cases ws with
  | nil => exact ⟨[], h.2⟩
  | cons w t => exact ⟨[linkReaction w], h.1⟩

theorem chained_nt_pend {s : QState} : ∀ {p : Nat} {ws : List SubRec}, Chained s p ws →
    ∀ r ∈ ws, ∃ rs, s.pstore r.nt = .pend rs := by
  intro p ws
  induction ws generalizing p with
  | nil =>
    intro _ r hr
    cases hr
  | cons w t ih =>
    intro h r hr
    rcases List.mem_cons.mp hr with hr1 | hr1
    · subst hr1
      exact chained_status h.2
    · exact ih h.2 r hr1

/-- In an invariant state of a well-behaved run, an internal chain link
settles only fulfilled (with `undefined`), and only once the outcome of its
task is on record. -/
theorem goodNt_settles_fulfilled {s : QState} (hinv : Inv s) (hg : GoodState s) :
    ∀ r ∈ s.subs, ∀ o, s.pstore r.nt = .settled o →
      o = .fulfilled .undef ∧ ∃ o2, Event.taskSettled r.id o2 ∈ s.trace := by
  obtain ⟨done, ph, hc, ho⟩ := hinv
  intro r hr o hnt
  have hr2 : r ∈ done ++ phRecs ph := by
    rw [← hc.subsEq]; exact hr
  rcases List.mem_append.mp hr2 with hrd | hrp
  · obtain ⟨hb, d1, d2⟩ := hc.doneOk r hrd
    rw [hnt] at d1
    cases d1
    obtain ⟨o2, ho2⟩ := d2
    exact ⟨rfl, o2, hc.cpSettledEvt r hr o2 ho2⟩
  · exfalso
    cases ph with
    | idle => simp [phRecs] at hrp
    | toStart w ws =>
      obtain ⟨j1, j2, hch, j4, j5⟩ := ho
      simp [phRecs] at hrp
      rcases hrp with hrp | hrp
      · subst hrp
        obtain ⟨rs, hrs⟩ := chained_status hch
        rw [hnt] at hrs
        cases hrs
      · obtain ⟨rs, hrs⟩ := chained_nt_pend hch r hrp
        rw [hnt] at hrs
        cases hrs
    | chainRun c ws op p2 p3 st =>
      obtain ⟨hfn, hch, hws, hst⟩ := ho
      simp [phRecs] at hrp
      rcases hrp with hrp | hrp
      · subst hrp
        obtain ⟨rs, hrs⟩ := chained_status hch
        rw [hnt] at hrs
        cases hrs
      · obtain ⟨rs, hrs⟩ := chained_nt_pend hch r hrp
        rw [hnt] at hrs
        cases hrs
    | poisonJob dead k ws =>
      obtain ⟨j1, j2, j3, j4, j5, j6, rb, hrb, hbad⟩ := ho
      have hrbs : rb ∈ s.subs := by
        rw [hc.subsEq]
        refine List.mem_append_right _ ?_
        simp [phRecs, hrb]
      have hgood := hg.1 rb hrbs
      cases hsv : rb.svc with
      | data d =>
        rw [hsv] at hgood
        simp [goodSvc] at hgood
      | func b => exact hbad b hsv
    | poisonIdle dead =>
      obtain ⟨j1, j2, j3, j4, rb, hrb, hbad⟩ := ho
      have hrbs : rb ∈ s.subs := by
        rw [hc.subsEq]
        refine List.mem_append_right _ ?_
        simp [phRecs, hrb]
      have hgood := hg.1 rb hrbs
      cases hsv : rb.svc with
      | data d =>
        rw [hsv] at hgood
        simp [goodSvc] at hgood
      | func b => exact hbad b hsv

set_option maxHeartbeats 2000000 in
/-- C2: for every schedule in which each service argument is callable, an
internal chain link settles only successfully (fulfilled, with
`undefined`) and only once its task's outcome is on record, whatever that
outcome was: no task failure can abort, poison or deadlock the shared
chain.  Concretely, enqueuing a throwing task followed by a normal task
still runs both: the first result future rejects with the original error,
the second fulfills, and both tasks were invoked in order. -/
theorem C2_chain_progression_never_fails :
    (∀ (l : List Action), (∀ a ∈ l, goodAct a = true) →
      ∀ r ∈ (runActs initQ l).subs, ∀ o, (runActs initQ l).pstore r.nt = .settled o →
        o = .fulfilled .undef ∧
        ∃ o2, Event.taskSettled r.id o2 ∈ (runActs initQ l).trace) ∧
    (runActs initQ
      [.enq (.acons (.func (.throwE (.taskErr 7))) .anil),
       .enq (.acons (.func (.ret (.numV 5))) .anil),
       .micro, .micro, .micro, .micro, .micro, .micro, .micro, .micro]).pstore 1 =
      .settled (.rejected (.taskErr 7)) ∧
    (runActs initQ
      [.enq (.acons (.func (.throwE (.taskErr 7))) .anil),
       .enq (.acons (.func (.ret (.numV 5))) .anil),
       .micro, .micro, .micro, .micro, .micro, .micro, .micro, .micro]).pstore 3 =
      .settled (.fulfilled (.numV 5)) ∧
    invokedIds (runActs initQ
      [.enq (.acons (.func (.throwE (.taskErr 7))) .anil),
       .enq (.acons (.func (.ret (.numV 5))) .anil),
       .micro, .micro, .micro, .micro, .micro, .micro, .micro, .micro]).trace = [0, 1] := by
  refine ⟨?_, ?_, ?_, ?_⟩
  · intro l hl
    exact goodNt_settles_fulfilled (inv_reach l) (goodState_runActs goodState_init l hl)
  all_goals
    simp [runActs, applyAct, stepMicro, runJob, runHandler, runBody, applyHRes, resolveTo,
      thenP, settleP, allocP, emit, enqueueFn, enqLink, enqLink2, linkReaction,
      getServiceApi, deserializeEnc, serializeArg, initQ, invokedIds, heapFuel,
      nodeCost, readItem, readAddr, readList, readFields, pureOfPrim, encTree, encArr,
      encObj, jsonToPure, jlistToPure, jfieldsToPure]

set_option maxHeartbeats 2000000 in
theorem C2_chain_progression_never_fails_witness :
    (∀ a ∈ ([.enq (.acons (.func (.throwE (.taskErr 7))) .anil),
        .micro, .micro, .micro, .micro] : List Action), goodAct a = true) ∧
    (⟨0, .func (.throwE (.taskErr 7)), none, 1, 2⟩ : SubRec) ∈
      (runActs initQ [.enq (.acons (.func (.throwE (.taskErr 7))) .anil),
        .micro, .micro, .micro, .micro]).subs ∧
    (runActs initQ [.enq (.acons (.func (.throwE (.taskErr 7))) .anil),
        .micro, .micro, .micro, .micro]).pstore 2 = .settled (.fulfilled .undef) ∧
    (Outcome.fulfilled .undef = .fulfilled .undef ∧
      ∃ o2, Event.taskSettled 0 o2 ∈
        (runActs initQ [.enq (.acons (.func (.throwE (.taskErr 7))) .anil),
          .micro, .micro, .micro, .micro]).trace) := by
  have hgood : ∀ a ∈ ([.enq (.acons (.func (.throwE (.taskErr 7))) .anil),
      .micro, .micro, .micro, .micro] : List Action), goodAct a = true := by
    simp [goodAct, goodEnqArgs, goodSvc, goodBody]
  have hmem : (⟨0, .func (.throwE (.taskErr 7)), none, 1, 2⟩ : SubRec) ∈
      (runActs initQ [.enq (.acons (.func (.throwE (.taskErr 7))) .anil),
        .micro, .micro, .micro, .micro]).subs := by
    simp [runActs, applyAct, stepMicro, runJob, runHandler, runBody, applyHRes, resolveTo,
      thenP, settleP, allocP, emit, enqueueFn, enqLink, enqLink2, linkReaction,
      getServiceApi, deserializeEnc, serializeArg, initQ, heapFuel,
      nodeCost, readItem, readAddr, readList, readFields, pureOfPrim, encTree, encArr,
      encObj, jsonToPure, jlistToPure, jfieldsToPure]
  have hnt : (runActs initQ [.enq (.acons (.func (.throwE (.taskErr 7))) .anil),
      .micro, .micro, .micro, .micro]).pstore 2 = .settled (.fulfilled .undef) := by
    simp [runActs, applyAct, stepMicro, runJob, runHandler, runBody, applyHRes, resolveTo,
      thenP, settleP, allocP, emit, enqueueFn, enqLink, enqLink2, linkReaction,
      getServiceApi, deserializeEnc, serializeArg, initQ, heapFuel,
      nodeCost, readItem, readAddr, readList, readFields, pureOfPrim, encTree, encArr,
      encObj, jsonToPure, jlistToPure, jfieldsToPure]
  exact ⟨hgood, hmem, hnt,
    C2_chain_progression_never_fails.1 _ hgood _ hmem (.fulfilled .undef) hnt⟩

set_option maxHeartbeats 2000000 in
/-- C3: the result future returned by `enqueue` settles according to the
task's own outcome.  In every reachable state, if a caller promise has
settled with an outcome then exactly that outcome was recorded for its
task; and concretely, a synchronous return fulfills the result with the
returned value, a synchronous throw rejects it with the original error
unmodified, and a returned future is adopted: the result takes that
future's eventual fulfillment or rejection. -/
theorem C3_result_reflects_outcome :
    (∀ (l : List Action), ∀ r ∈ (runActs initQ l).subs, ∀ o,
        (runActs initQ l).pstore r.cp = .settled o →
          Event.taskSettled r.id o ∈ (runActs initQ l).trace) ∧
    (runActs initQ [.enq (.acons (.func (.ret (.numV 5))) .anil),
        .micro, .micro]).pstore 1 = .settled (.fulfilled (.numV 5)) ∧
    (runActs initQ [.enq (.acons (.func (.throwE (.taskErr 7))) .anil),
        .micro, .micro]).pstore 1 = .settled (.rejected (.taskErr 7)) ∧
    (runActs initQ [.enq (.acons (.func (.retPending 42)) .anil), .micro,
        .extSettle 42 (.fulfilled (.strV "x")), .micro]).pstore 1 =
      .settled (.fulfilled (.strV "x")) ∧
    (runActs initQ [.enq (.acons (.func (.retPending 42)) .anil), .micro,
        .extSettle 42 (.rejected (.taskErr 9)), .micro]).pstore 1 =
      .settled (.rejected (.taskErr 9)) := by
  refine ⟨?_, ?_, ?_, ?_, ?_⟩
  · intro l r hr o hcp
    obtain ⟨done, ph, hc, ho⟩ := inv_reach l
    exact hc.cpSettledEvt r hr o hcp
  all_goals
    simp [runActs, applyAct, stepMicro, runJob, runHandler, runBody, applyHRes, resolveTo,
      thenP, settleP, allocP, emit, enqueueFn, enqLink, enqLink2, linkReaction,
      getServiceApi, deserializeEnc, serializeArg, initQ, heapFuel,
      nodeCost, readItem, readAddr, readList, readFields, pureOfPrim, encTree, encArr,
      encObj, jsonToPure, jlistToPure, jfieldsToPure]

set_option maxHeartbeats 2000000 in
theorem C3_result_reflects_outcome_witness :
    (⟨0, .func (.ret (.numV 5)), none, 1, 2⟩ : SubRec) ∈
      (runActs initQ [.enq (.acons (.func (.ret (.numV 5))) .anil),
        .micro, .micro]).subs ∧
    (runActs initQ [.enq (.acons (.func (.ret (.numV 5))) .anil),
        .micro, .micro]).pstore 1 = .settled (.fulfilled (.numV 5)) ∧
    Event.taskSettled 0 (.fulfilled (.numV 5)) ∈
      (runActs initQ [.enq (.acons (.func (.ret (.numV 5))) .anil),
        .micro, .micro]).trace := by
  have hmem : (⟨0, .func (.ret (.numV 5)), none, 1, 2⟩ : SubRec) ∈
      (runActs initQ [.enq (.acons (.func (.ret (.numV 5))) .anil),
        .micro, .micro]).subs := by
    simp [runActs, applyAct, stepMicro, runJob, runHandler, runBody, applyHRes, resolveTo,
      thenP, settleP, allocP, emit, enqueueFn, enqLink, enqLink2, linkReaction,
      getServiceApi, deserializeEnc, serializeArg, initQ, heapFuel,
      nodeCost, readItem, readAddr, readList, readFields, pureOfPrim, encTree, encArr,
      encObj, jsonToPure, jlistToPure, jfieldsToPure]
  have hcp : (runActs initQ [.enq (.acons (.func (.ret (.numV 5))) .anil),
      .micro, .micro]).pstore 1 = .settled (.fulfilled (.numV 5)) := by
    simp [runActs, applyAct, stepMicro, runJob, runHandler, runBody, applyHRes, resolveTo,
      thenP, settleP, allocP, emit, enqueueFn, enqLink, enqLink2, linkReaction,
      getServiceApi, deserializeEnc, serializeArg, initQ, heapFuel,
      nodeCost, readItem, readAddr, readList, readFields, pureOfPrim, encTree, encArr,
      encObj, jsonToPure, jlistToPure, jfieldsToPure]
  exact ⟨hmem, hcp,
    C3_result_reflects_outcome.1 _ _ hmem (.fulfilled (.numV 5)) hcp⟩

/-- C4: a call to `enqueue` whose item cannot be encoded (for example a
cyclic structure) immediately rejects the returned future with the
serialization error, leaves the internal tail untouched, records no
submission and emits no event, so the task function is never invoked. -/
theorem C4_encode_failfast :
    ∀ (s : QState) (it svc : JsArg),
      serializeArg s.heap it = .thrown →
      (enqueueFn s (.acons it (.acons svc .anil))).1.pstore
          (enqueueFn s (.acons it (.acons svc .anil))).2 =
        .settled (.rejected .serializationErr) ∧
      (enqueueFn s (.acons it (.acons svc .anil))).1.tailP = s.tailP ∧
      (enqueueFn s (.acons it (.acons svc .anil))).1.subs = s.subs ∧
      (enqueueFn s (.acons it (.acons svc .anil))).1.trace = s.trace := by
  intro s it svc hser
  rw [enqueueFn_serThrown s _ it svc rfl hser]
  refine ⟨?_, rfl, rfl, rfl⟩
  show (if s.nextP = s.nextP then PStatus.settled (.rejected .serializationErr)
    else s.pstore s.nextP) = _
  rw [if_pos rfl]

theorem C4_encode_failfast_witness :
    serializeArg ({ initQ with heap := [Node.objN [("self", ItemVal.ref 0)]] } : QState).heap
        (.data (.ref 0)) = .thrown ∧
    ((enqueueFn { initQ with heap := [Node.objN [("self", ItemVal.ref 0)]] }
          (.acons (.data (.ref 0)) (.acons (.func (.ret .nullV)) .anil))).1.pstore
        (enqueueFn { initQ with heap := [Node.objN [("self", ItemVal.ref 0)]] }
          (.acons (.data (.ref 0)) (.acons (.func (.ret .nullV)) .anil))).2 =
        .settled (.rejected .serializationErr) ∧
      (enqueueFn { initQ with heap := [Node.objN [("self", ItemVal.ref 0)]] }
          (.acons (.data (.ref 0)) (.acons (.func (.ret .nullV)) .anil))).1.tailP =
        ({ initQ with heap := [Node.objN [("self", ItemVal.ref 0)]] } : QState).tailP ∧
      (enqueueFn { initQ with heap := [Node.objN [("self", ItemVal.ref 0)]] }
          (.acons (.data (.ref 0)) (.acons (.func (.ret .nullV)) .anil))).1.subs =
        ({ initQ with heap := [Node.objN [("self", ItemVal.ref 0)]] } : QState).subs ∧
      (enqueueFn { initQ with heap := [Node.objN [("self", ItemVal.ref 0)]] }
          (.acons (.data (.ref 0)) (.acons (.func (.ret .nullV)) .anil))).1.trace =
        ({ initQ with heap := [Node.objN [("self", ItemVal.ref 0)]] } : QState).trace) := by
  have hser : serializeArg
      ({ initQ with heap := [Node.objN [("self", ItemVal.ref 0)]] } : QState).heap
      (.data (.ref 0)) = .thrown := by
    simp [serializeArg, heapFuel, nodeCost, readItem, readAddr, readList, readFields,
      pureOfPrim, encTree, encObj]
  exact ⟨hser, C4_encode_failfast _ (.data (.ref 0)) (.func (.ret .nullV)) hser⟩

/-- C5: calling `enqueue` with zero arguments or with more than two
arguments fails immediately: the returned future is already rejected with
the illegal-invocation error, and the internal tail, the submissions and
the trace are untouched, so no task function is ever invoked for it. -/
theorem C5_arity_validation :
    ∀ (s : QState) (args : ArgList),
      (args = .anil ∨ ∃ a b c tl, args = .acons a (.acons b (.acons c tl))) →
      (enqueueFn s args).1.pstore (enqueueFn s args).2 =
        .settled (.rejected .invalidInvocation) ∧
      (enqueueFn s args).1.tailP = s.tailP ∧
      (enqueueFn s args).1.subs = s.subs ∧
      (enqueueFn s args).1.trace = s.trace := by
  intro s args hargs
  rw [enqueueFn_badArity s args hargs]
  refine ⟨?_, rfl, rfl, rfl⟩
  show (if s.nextP = s.nextP then PStatus.settled (.rejected .invalidInvocation)
    else s.pstore s.nextP) = _
  rw [if_pos rfl]

theorem C5_arity_validation_witness :
    ((ArgList.anil = .anil ∨ ∃ a b c tl, ArgList.anil = .acons a (.acons b (.acons c tl))) ∧
      (enqueueFn initQ .anil).1.pstore (enqueueFn initQ .anil).2 =
        .settled (.rejected .invalidInvocation) ∧
      (enqueueFn initQ .anil).1.tailP = initQ.tailP ∧
      (enqueueFn initQ .anil).1.subs = initQ.subs ∧
      (enqueueFn initQ .anil).1.trace = initQ.trace) ∧
    ((enqueueFn initQ (.acons (.data (.prim .nullP)) (.acons (.data (.prim .nullP))
          (.acons (.data (.prim .nullP)) .anil)))).1.pstore
        (enqueueFn initQ (.acons (.data (.prim .nullP)) (.acons (.data (.prim .nullP))
          (.acons (.data (.prim .nullP)) .anil)))).2 =
      .settled (.rejected .invalidInvocation)) := by
  refine ⟨⟨Or.inl rfl, C5_arity_validation initQ .anil (Or.inl rfl)⟩, ?_⟩
  exact (C5_arity_validation initQ _
    (Or.inr ⟨_, _, _, _, rfl⟩)).1

/-- C10: the two-argument call `enqueue(undefined, f)` and the
one-argument call `enqueue(f)` are the same operation: the enqueue body
produces identical states and identical result futures, the explicit
`undefined` item encodes to the absent sentinel, and the decoded item the
task receives is `undefined` in both cases. -/
theorem C10_undefined_item_equivalence :
    (∀ (s : QState) (svc : JsArg),
      enqueueFn s (.acons (.data (.prim .undefP)) (.acons svc .anil)) =
        enqueueFn s (.acons svc .anil)) ∧
    (∀ h : Heap, serializeArg h (.data (.prim .undefP)) = .undefR) ∧
    deserializeEnc none = .undef := by
  refine ⟨fun s svc => rfl, fun h => serializeArg_undefItem h, rfl⟩

set_option maxHeartbeats 2000000 in
/-- C6 amended: items have value semantics, but the snapshot is
structurally equal to the submitted item only for JSON-faithful items.
The service invocation argument is always built from the decode of the
encoding captured at submission time — concretely, after enqueuing a
heap-allocated item and then mutating the heap, the task is still invoked
with the snapshot taken when `enqueue` was called, so the task never
shares a mutable reference with the caller — and encoding a JSON-faithful
value (one with no `undefined`, function or BigInt content anywhere) is
lossless: the decode of the encoding is the value itself.  Items with
nested `undefined` or function content encode successfully but round-trip
lossily (see the counterexample theorem). -/
theorem C6_value_snapshot :
    (∀ v : PureVal, jsonClean v = true → ∃ j, encTree v = .ok j ∧ jsonToPure j = v) ∧
    (∀ enc : Option Json, getServiceApi enc = .ok (deserializeEnc enc)) ∧
    Event.invoked 0 (.arrV (.cons (.numV 1) .nil)) ∈ (runActs initQ
      [.setHeap [.arrN [.prim (.numP 1)]],
       .enq (.acons (.data (.ref 0)) (.acons (.func (.ret .nullV)) .anil)),
       .setHeap [.arrN [.prim (.numP 99)]],
       .micro]).trace := by
  refine ⟨encTree_roundTrip, fun enc => rfl, ?_⟩
  simp [runActs, applyAct, stepMicro, runJob, runHandler, runBody, applyHRes, resolveTo,
    thenP, settleP, allocP, emit, enqueueFn, enqLink, enqLink2, linkReaction,
    getServiceApi, deserializeEnc, serializeArg, initQ, heapFuel,
    nodeCost, readItem, readAddr, readList, readFields, pureOfPrim, encTree, encArr,
    encObj, jsonToPure, jlistToPure, jfieldsToPure]

theorem C6_value_snapshot_witness :
    jsonClean (.arrV (.cons (.numV 1) .nil)) = true ∧
    ∃ j, encTree (.arrV (.cons (.numV 1) .nil)) = .ok j ∧
      jsonToPure j = (.arrV (.cons (.numV 1) .nil)) := by
  have hcl : jsonClean (PureVal.arrV (.cons (.numV 1) .nil)) = true := by
    simp [jsonClean, cleanArr]
  exact ⟨hcl, C6_value_snapshot.1 _ hcl⟩

set_option maxHeartbeats 1000000 in
/-- C6 counterexample: an item that encodes successfully need NOT reach
the task structurally equal to what was submitted.  The object
`\x7b a: 1, b: undefined \x7d` reads out of the heap at `enqueue` time with
both fields and its encoding succeeds, but `JSON.stringify` drops the
`undefined`-valued field, so the task is invoked with `\x7b a: 1 \x7d`,
which is not structurally equal to the submitted item. -/
theorem C6_value_snapshot_counterexample :
    readItem [Node.objN [("a", .prim (.numP 1)), ("b", .prim .undefP)]]
        (heapFuel [Node.objN [("a", .prim (.numP 1)), ("b", .prim .undefP)]]) []
        (.ref 0) =
      some (.objV (.cons "a" (.numV 1) (.cons "b" .undef .nil))) ∧
    serializeArg [Node.objN [("a", .prim (.numP 1)), ("b", .prim .undefP)]]
        (.data (.ref 0)) = .ok (.objJ (.cons "a" (.numJ 1) .nil)) ∧
    Event.invoked 0 (.objV (.cons "a" (.numV 1) .nil)) ∈ (runActs initQ
      [.setHeap [.objN [("a", .prim (.numP 1)), ("b", .prim .undefP)]],
       .enq (.acons (.data (.ref 0)) (.acons (.func (.ret .nullV)) .anil)),
       .micro]).trace ∧
    (PureVal.objV (.cons "a" (.numV 1) .nil)) ≠
      (.objV (.cons "a" (.numV 1) (.cons "b" .undef .nil))) := by
  refine ⟨?_, ?_, ?_, by decide⟩
  · simp [readItem, readAddr, readList, readFields, heapFuel, nodeCost, pureOfPrim]
  · simp [serializeArg, heapFuel, nodeCost, readItem, readAddr, readList, readFields,
      pureOfPrim, encTree, encObj]
  · simp [runActs, applyAct, stepMicro, runJob, runHandler, runBody, applyHRes, resolveTo,
      thenP, settleP, allocP, emit, enqueueFn, enqLink, enqLink2, linkReaction,
      getServiceApi, deserializeEnc, serializeArg, initQ, heapFuel,
      nodeCost, readItem, readAddr, readList, readFields, pureOfPrim, encTree, encArr,
      encObj, jsonToPure, jlistToPure, jfieldsToPure]

set_option maxHeartbeats 4000000 in
/-- C7: a submission enqueued from within a running task joins the back of
the line.  In general the invoked ids of every run are an initial segment
of the admitted ids in admission order — a re-entrant admission can never
jump ahead — and concretely, a first task that re-entrantly enqueues a
third submission during its run, concurrent with a second top-level
submission, yields invocation order 0, 1, 2. -/
theorem C7_reentrant_back_of_line :
    (∀ l : List Action,
      invokedIds (runActs initQ l).trace <+: admitsOf (runActs initQ l).trace) ∧
    invokedIds (runActs initQ
      [.enq (.acons (.func (.enqThenRet (.acons (.func (.ret (.numV 2))) .anil) (.numV 0)))
          .anil),
       .enq (.acons (.func (.ret (.numV 1))) .anil),
       .micro, .micro, .micro, .micro, .micro, .micro, .micro, .micro, .micro, .micro,
       .micro, .micro]).trace = [0, 1, 2] := by
  refine ⟨fun l => invoked_prefix_admits (inv_reach l), ?_⟩
  simp [runActs, applyAct, stepMicro, runJob, runHandler, runBody, applyHRes, resolveTo,
    thenP, settleP, allocP, emit, enqueueFn, enqLink, enqLink2, linkReaction,
    getServiceApi, deserializeEnc, serializeArg, initQ, invokedIds, heapFuel,
    nodeCost, readItem, readAddr, readList, readFields, pureOfPrim, encTree, encArr,
    encObj, jsonToPure, jlistToPure, jfieldsToPure]

set_option maxHeartbeats 1000000 in
/-- C8 counterexample: a function value passed as the item is NOT rejected
at encode time.  `JSON.stringify` of a function value returns `undefined`
rather than throwing, so the submission is admitted with the absent
encoding: the returned future fulfills with the task's result (no
serialization error), and the task function IS invoked (with an undefined
item). -/
theorem C8_function_item_counterexample :
    serializeArg ([] : Heap) (.func (.ret (.numV 1))) = .undefR ∧
    (runActs initQ
      [.enq (.acons (.func (.ret (.numV 1))) (.acons (.func (.ret (.numV 5))) .anil)),
       .micro, .micro]).pstore 1 = .settled (.fulfilled (.numV 5)) ∧
    Event.invoked 0 .undef ∈ (runActs initQ
      [.enq (.acons (.func (.ret (.numV 1))) (.acons (.func (.ret (.numV 5))) .anil)),
       .micro, .micro]).trace := by
  refine ⟨rfl, ?_, ?_⟩ <;>
    simp [runActs, applyAct, stepMicro, runJob, runHandler, runBody, applyHRes, resolveTo,
      thenP, settleP, allocP, emit, enqueueFn, enqLink, enqLink2, linkReaction,
      getServiceApi, deserializeEnc, serializeArg, initQ, heapFuel]

/-- C8 amended: a function value passed as the item encodes to the absent
sentinel (as `JSON.stringify` returns `undefined` for functions, it does
not throw), so enqueuing a function item is exactly the same operation as
enqueuing an explicit `undefined` item: the submission is admitted, the
task runs with an undefined item, and only genuinely non-encodable
content (cycles, BigInt-like values) is rejected at encode time. -/
theorem C8_function_item_amended :
    (∀ (h : Heap) (b : ServiceBody), serializeArg h (.func b) = .undefR) ∧
    (∀ (s : QState) (b : ServiceBody) (svc : JsArg),
      enqueueFn s (.acons (.func b) (.acons svc .anil)) =
        enqueueFn s (.acons (.data (.prim .undefP)) (.acons svc .anil))) := by
  refine ⟨fun h b => rfl, ?_⟩
  intro s b svc
  show enqLink (allocP s (.pend [])).1 (allocP s (.pend [])).2 (.func b) svc =
    enqLink (allocP s (.pend [])).1 (allocP s (.pend [])).2 (.data (.prim .undefP)) svc
  unfold enqLink
  rw [show serializeArg (allocP s (.pend [])).1.heap (.func b) = .undefR from rfl]
  rw [show serializeArg (allocP s (.pend [])).1.heap (.data (.prim .undefP)) = .undefR from
    serializeArg_undefItem _]

theorem mem_drop_range_ge {n m x : Nat} (h : x ∈ (List.range n).drop m) : m ≤ x := by
  obtain ⟨i, hi, hx⟩ := List.getElem_of_mem h
  rw [List.getElem_drop] at hx
  rw [List.getElem_range] at hx
  omega

set_option maxHeartbeats 1000000 in
/-- C9: a submission that passed argument validation and item encoding but
whose task-function argument is not callable poisons the queue: its caller
promise stays pending forever (it never settles), its internal chain link
can only settle rejected with the not-a-function error, and the task
function of every later-admitted submission is never invoked. -/
theorem C9_noncallable_poisons :
    ∀ (l : List Action), ∀ r ∈ (runActs initQ l).subs, ∀ d : ItemVal, r.svc = .data d →
      (runActs initQ l).pstore r.cp = .pend [] ∧
      (∀ o, (runActs initQ l).pstore r.nt = .settled o → o = .rejected .notAFunction) ∧
      (∀ r2 ∈ (runActs initQ l).subs, r.id < r2.id →
        r2.id ∉ invokedIds (runActs initQ l).trace) := by
  intro l r hr d hsvc
  obtain ⟨done, ph, hc, ho⟩ := inv_reach l
  have hrnotdone : r ∉ done := by
    intro hrd
    obtain ⟨⟨b, hb⟩, _, _⟩ := hc.doneOk r hrd
    rw [hsvc] at hb
    cases hb
  have hr2 : r ∈ done ++ phRecs ph := by
    rw [← hc.subsEq]; exact hr
  have hrp : r ∈ phRecs ph := by
    rcases List.mem_append.mp hr2 with h1 | h1
    · exact absurd h1 hrnotdone
    · exact h1
  refine ⟨?_, ?_, ?_⟩
  · cases ph with
    | idle => simp [phRecs] at hrp
    | toStart w ws =>
      obtain ⟨_, _, _, hwp, hwsp⟩ := ho
      simp [phRecs] at hrp
      rcases hrp with h1 | h1
      · subst h1; exact hwp
      · exact hwsp r h1
    | chainRun c ws op p2 p3 st =>
      obtain ⟨⟨b, hb⟩, hch, hws, _⟩ := ho
      simp [phRecs] at hrp
      rcases hrp with h1 | h1
      · subst h1
        rw [hsvc] at hb
        cases hb
      · exact hws r h1
    | poisonJob dead k ws =>
      obtain ⟨_, _, hdead, hkp, hwsp, _, _⟩ := ho
      simp [phRecs] at hrp
      rcases hrp with h1 | h1 | h1
      · exact (hdead r h1).1
      · subst h1; exact hkp
      · exact hwsp r h1
    | poisonIdle dead =>
      obtain ⟨_, _, hdead, _, _⟩ := ho
      simp [phRecs] at hrp
      exact (hdead r hrp).1
  · intro o hnt
    cases ph with
    | idle => simp [phRecs] at hrp
    | toStart w ws =>
      obtain ⟨_, _, hch, _, _⟩ := ho
      exfalso
      simp [phRecs] at hrp
      rcases hrp with h1 | h1
      · subst h1
        obtain ⟨rs, hrs⟩ := chained_status hch
        rw [hnt] at hrs
        cases hrs
      · obtain ⟨rs, hrs⟩ := chained_nt_pend hch r h1
        rw [hnt] at hrs
        cases hrs
    | chainRun c ws op p2 p3 st =>
      obtain ⟨⟨b, hb⟩, hch, _, _⟩ := ho
      exfalso
      simp [phRecs] at hrp
      rcases hrp with h1 | h1
      · subst h1
        rw [hsvc] at hb
        cases hb
      · obtain ⟨rs, hrs⟩ := chained_nt_pend hch r h1
        rw [hnt] at hrs
        cases hrs
    | poisonJob dead k ws =>
      obtain ⟨_, _, hdead, _, _, hch, _⟩ := ho
      simp [phRecs] at hrp
      rcases hrp with h1 | h1 | h1
      · have hd2 := (hdead r h1).2
        rw [hnt] at hd2
        cases hd2
        rfl
      · exfalso
        subst h1
        obtain ⟨rs, hrs⟩ := chained_status hch
        rw [hnt] at hrs
        cases hrs
      · exfalso
        obtain ⟨rs, hrs⟩ := chained_nt_pend hch r h1
        rw [hnt] at hrs
        cases hrs
    | poisonIdle dead =>
      obtain ⟨_, _, hdead, _, _⟩ := ho
      simp [phRecs] at hrp
      have hd2 := (hdead r hrp).2
      rw [hnt] at hd2
      cases hd2
      rfl
  · intro r2 hr2m hlt hinv
    have hids : done.map (fun q => q.id) ++ (phRecs ph).map (fun q => q.id) =
        List.range (runActs initQ l).nextSub := by
      rw [← List.map_append, ← hc.subsEq]
      exact hc.idsEq
    have hdl : ∀ x ∈ done.map (fun q => q.id), x < done.length := by
      intro x hx
      have ht : (done.map (fun q => q.id) ++
          (phRecs ph).map (fun q => q.id)).take (done.map (fun q => q.id)).length =
          done.map (fun q => q.id) := List.take_left _ _
      rw [hids] at ht
      rw [← ht, List.take_range] at hx
      have hx2 := List.mem_range.mp hx
      simp [List.length_map] at hx2
      omega
    have hphids : (phRecs ph).map (fun q => q.id) =
        (List.range (runActs initQ l).nextSub).drop done.length := by
      have hd : (done.map (fun q => q.id) ++
          (phRecs ph).map (fun q => q.id)).drop (done.map (fun q => q.id)).length =
          (phRecs ph).map (fun q => q.id) := List.drop_left _ _
      rw [hids] at hd
      rw [← hd, List.length_map]
    have hrid : done.length ≤ r.id := by
      have hm : r.id ∈ (phRecs ph).map (fun q => q.id) := List.mem_map_of_mem _ hrp
      rw [hphids] at hm
      exact mem_drop_range_ge hm
    rw [invokedIds_obsOf, hc.obsEq, obsFst_altOf] at hinv
    rcases List.mem_append.mp hinv with h1 | h1
    · have := hdl _ h1
      omega
    · cases ph with
      | idle => simp [phObs, obsFst] at h1
      | toStart w ws => simp [phObs, obsFst] at h1
      | poisonJob dead k ws => simp [phObs, obsFst] at h1
      | poisonIdle dead => simp [phObs, obsFst] at h1
      | chainRun c ws op p2 p3 st =>
        have hcid : c.id = done.length := by
          have hlen := congrArg List.length hphids
          simp [List.length_map, List.length_drop, List.length_range, phRecs] at hlen
          have hdlt2 : done.length < (runActs initQ l).nextSub := by omega
          have hphids2 := hphids
          rw [List.drop_eq_getElem_cons (by simpa [List.length_range] using hdlt2)] at hphids2
          rw [List.getElem_range] at hphids2
          simp [phRecs] at hphids2
          exact hphids2.1
        have hr2c : r2.id = c.id := by
          cases st <;> simp [phObs, obsFst] at h1 <;> exact h1
        omega

theorem C9_noncallable_poisons_witness :
    (⟨0, .data (.prim .nullP), none, 1, 2⟩ : SubRec) ∈ (runActs initQ
      [.enq (.acons (.data (.prim .nullP)) .anil),
       .enq (.acons (.func (.ret (.numV 1))) .anil), .micro, .micro]).subs ∧
    (⟨0, .data (.prim .nullP), none, 1, 2⟩ : SubRec).svc = .data (.prim .nullP) ∧
    ((runActs initQ
        [.enq (.acons (.data (.prim .nullP)) .anil),
         .enq (.acons (.func (.ret (.numV 1))) .anil), .micro, .micro]).pstore 1 =
        .pend [] ∧
      (∀ o, (runActs initQ
          [.enq (.acons (.data (.prim .nullP)) .anil),
           .enq (.acons (.func (.ret (.numV 1))) .anil), .micro, .micro]).pstore 2 =
          .settled o → o = .rejected .notAFunction) ∧
      (∀ r2 ∈ (runActs initQ
          [.enq (.acons (.data (.prim .nullP)) .anil),
           .enq (.acons (.func (.ret (.numV 1))) .anil), .micro, .micro]).subs,
        (0 : Nat) < r2.id →
        r2.id ∉ invokedIds (runActs initQ
          [.enq (.acons (.data (.prim .nullP)) .anil),
           .enq (.acons (.func (.ret (.numV 1))) .anil), .micro, .micro]).trace)) := by
  have hmem : (⟨0, .data (.prim .nullP), none, 1, 2⟩ : SubRec) ∈ (runActs initQ
      [.enq (.acons (.data (.prim .nullP)) .anil),
       .enq (.acons (.func (.ret (.numV 1))) .anil), .micro, .micro]).subs := by
    simp [runActs, applyAct, stepMicro, runJob, runHandler, runBody, applyHRes, resolveTo,
      thenP, settleP, allocP, emit, enqueueFn, enqLink, enqLink2, linkReaction,
      getServiceApi, deserializeEnc, serializeArg, initQ, heapFuel,
      nodeCost, readItem, readAddr, readList, readFields, pureOfPrim, encTree, encArr,
      encObj, jsonToPure, jlistToPure, jfieldsToPure]
  exact ⟨hmem, rfl,
    C9_noncallable_poisons _ _ hmem (.prim .nullP) rfl⟩

end TaskQueue

